import Mathlib

/-!
# Symbolic differentiation: expression trees, `differentiate` and `simplify`

A shallow embedding of `derivative.c`.

* The C record `Node` (a tag `NodeType`, a `double value`, a `char variable` and two child
  pointers) is read as the tagged variant it encodes: a `NODE_NUMBER` carries its value, a
  `NODE_VARIABLE` its character, the five binary kinds their `left` and `right` subtree and the
  four unary kinds their `left` subtree.  Fields a kind does not use are not represented; in
  particular a child pointer that `simplify` leaves in place on a node it retags as
  `NODE_NUMBER` is not part of this reading of the tree.
* `double` arithmetic is idealised: numbers live in a linearly ordered field `α` (the rationals
  for computations, the reals for the analytic statements) and `+ - * /` are exact.  The library
  function `pow` is a parameter of `simplify`.
* The simplifier mutates its argument and returns the rewritten tree; here it is the function
  from the tree before to the tree returned.
-/

namespace Derivative

/-- The expression tree: one constructor per `NodeType` tag, named after the tag.  In prose
`NODE_NUMBER c` is written Number(c), `NODE_ADD f g` is written Add(f, g), and so on. -/
inductive Node (α : Type) where
  | NODE_NUMBER (value : α) : Node α
  | NODE_VARIABLE (name : Char) : Node α
  | NODE_ADD (left right : Node α) : Node α
  | NODE_SUB (left right : Node α) : Node α
  | NODE_MUL (left right : Node α) : Node α
  | NODE_DIV (left right : Node α) : Node α
  | NODE_POW (left right : Node α) : Node α
  | NODE_SIN (left : Node α) : Node α
  | NODE_COS (left : Node α) : Node α
  | NODE_EXP (left : Node α) : Node α
  | NODE_LN (left : Node α) : Node α
  deriving DecidableEq, Repr

open Node

variable {α : Type} [LinearOrderedField α]

/-- Deep copy, `copy_tree`: every node is rebuilt with the same tag, fields and copied children. -/
def copy_tree : Node α → Node α
  | NODE_NUMBER c => NODE_NUMBER c
  | NODE_VARIABLE w => NODE_VARIABLE w
  | NODE_ADD l r => NODE_ADD (copy_tree l) (copy_tree r)
  | NODE_SUB l r => NODE_SUB (copy_tree l) (copy_tree r)
  | NODE_MUL l r => NODE_MUL (copy_tree l) (copy_tree r)
  | NODE_DIV l r => NODE_DIV (copy_tree l) (copy_tree r)
  | NODE_POW l r => NODE_POW (copy_tree l) (copy_tree r)
  | NODE_SIN f => NODE_SIN (copy_tree f)
  | NODE_COS f => NODE_COS (copy_tree f)
  | NODE_EXP f => NODE_EXP (copy_tree f)
  | NODE_LN f => NODE_LN (copy_tree f)

/-- The test `is_zero`: a `NODE_NUMBER` whose value is `0`. -/
def is_zero : Node α → Bool
  | NODE_NUMBER c => decide (c = 0)
  | _ => false

/-- The test `is_one`: a `NODE_NUMBER` whose value is `1`. -/
def is_one : Node α → Bool
  | NODE_NUMBER c => decide (c = 1)
  | _ => false

/-- The test `is_constant`: a number is constant, a variable is constant unless it is `var`,
any other node is constant when both children are (the absent right child of a unary node
counts as constant). -/
def is_constant : Node α → Char → Bool
  | NODE_NUMBER _, _ => true
  | NODE_VARIABLE w, var => decide (w ≠ var)
  | NODE_ADD l r, var => is_constant l var && is_constant r var
  | NODE_SUB l r, var => is_constant l var && is_constant r var
  | NODE_MUL l r, var => is_constant l var && is_constant r var
  | NODE_DIV l r, var => is_constant l var && is_constant r var
  | NODE_POW l r, var => is_constant l var && is_constant r var
  | NODE_SIN f, var => is_constant f var && true
  | NODE_COS f, var => is_constant f var && true
  | NODE_EXP f, var => is_constant f var && true
  | NODE_LN f, var => is_constant f var && true

/-- The function `differentiate`: one calculus rule per node kind, the result left
unsimplified; subtrees that a rule reuses are copied with `copy_tree`. -/
def differentiate : Node α → Char → Node α
  | NODE_NUMBER _, _ => NODE_NUMBER 0
  | NODE_VARIABLE w, var => if w = var then NODE_NUMBER 1 else NODE_NUMBER 0
  | NODE_ADD l r, var => NODE_ADD (differentiate l var) (differentiate r var)
  | NODE_SUB l r, var => NODE_SUB (differentiate l var) (differentiate r var)
  | NODE_MUL l r, var =>
      NODE_ADD (NODE_MUL (differentiate l var) (copy_tree r)) (NODE_MUL (copy_tree l) (differentiate r var))
  | NODE_DIV l r, var =>
      NODE_DIV (NODE_SUB (NODE_MUL (differentiate l var) (copy_tree r)) (NODE_MUL (copy_tree l) (differentiate r var)))
        (NODE_POW (copy_tree r) (NODE_NUMBER 2))
  | NODE_POW l r, var =>
      if is_constant r var then
        NODE_MUL (NODE_MUL (copy_tree r) (NODE_POW (copy_tree l) (NODE_SUB (copy_tree r) (NODE_NUMBER 1))))
          (differentiate l var)
      else
        NODE_MUL (copy_tree (NODE_POW l r))
          (NODE_ADD (NODE_MUL (differentiate r var) (NODE_LN (copy_tree l)))
            (NODE_MUL (copy_tree r) (NODE_DIV (differentiate l var) (copy_tree l))))
  | NODE_SIN f, var => NODE_MUL (NODE_COS (copy_tree f)) (differentiate f var)
  | NODE_COS f, var => NODE_MUL (NODE_MUL (NODE_NUMBER (-1)) (NODE_SIN (copy_tree f))) (differentiate f var)
  | NODE_EXP f, var => NODE_MUL (NODE_EXP (copy_tree f)) (differentiate f var)
  | NODE_LN f, var => NODE_DIV (differentiate f var) (copy_tree f)

/-- Whether a `NODE_VARIABLE` named `v` occurs somewhere in the tree (the notion the
specification uses for "constant in the target variable"; not a function of the program). -/
def occurs (v : Char) : Node α → Bool
  | NODE_NUMBER _ => false
  | NODE_VARIABLE w => decide (w = v)
  | NODE_ADD l r => occurs v l || occurs v r
  | NODE_SUB l r => occurs v l || occurs v r
  | NODE_MUL l r => occurs v l || occurs v r
  | NODE_DIV l r => occurs v l || occurs v r
  | NODE_POW l r => occurs v l || occurs v r
  | NODE_SIN f => occurs v f
  | NODE_COS f => occurs v f
  | NODE_EXP f => occurs v f
  | NODE_LN f => occurs v f

/-- The `case NODE_ADD` of `simplify`, applied to the already simplified children. -/
def simplify_ADD (l r : Node α) : Node α :=
  if is_zero l then r
  else if is_zero r then l
  else match l, r with
    | NODE_NUMBER a, NODE_NUMBER b => NODE_NUMBER (a + b)
    | _, _ => NODE_ADD l r

/-- The last rule of `case NODE_SUB` of `simplify` (`c1 - c2 = c3`, else the node is kept),
applied to the already simplified children.  The two rules before it are in `simplify`,
because the second one calls `simplify` again. -/
def simplify_SUB_fold (l r : Node α) : Node α :=
  match l, r with
  | NODE_NUMBER a, NODE_NUMBER b => NODE_NUMBER (a - b)
  | _, _ => NODE_SUB l r

/-- The `case NODE_MUL` of `simplify`, applied to the already simplified children. -/
def simplify_MUL (l r : Node α) : Node α :=
  if is_zero l || is_zero r then NODE_NUMBER 0
  else if is_one l then r
  else if is_one r then l
  else match l, r with
    | NODE_NUMBER a, NODE_NUMBER b => NODE_NUMBER (a * b)
    | _, _ => NODE_MUL l r

/-- The `case NODE_DIV` of `simplify`, applied to the already simplified children. -/
def simplify_DIV (l r : Node α) : Node α :=
  if is_zero l then NODE_NUMBER 0
  else if is_one r then l
  else match l, r with
    | NODE_NUMBER a, NODE_NUMBER b => if b ≠ 0 then NODE_NUMBER (a / b) else NODE_DIV l r
    | _, _ => NODE_DIV l r

/-- The `case NODE_POW` of `simplify`, applied to the already simplified children;
`pow` is the library function of that name. -/
def simplify_POW (pow : α → α → α) (l r : Node α) : Node α :=
  if is_zero r then NODE_NUMBER 1
  else if is_one r then l
  else if is_zero l && !is_zero r then NODE_NUMBER 0
  else if is_one l then NODE_NUMBER 1
  else match l, r with
    | NODE_NUMBER a, NODE_NUMBER b => NODE_NUMBER (pow a b)
    | _, _ => NODE_POW l r

/-- Termination measure of `simplify`: the number of nodes, a `NODE_SUB` counting twice. -/
def weight : Node α → Nat
  | NODE_NUMBER _ => 1
  | NODE_VARIABLE _ => 1
  | NODE_ADD l r => 1 + weight l + weight r
  | NODE_SUB l r => 2 + weight l + weight r
  | NODE_MUL l r => 1 + weight l + weight r
  | NODE_DIV l r => 1 + weight l + weight r
  | NODE_POW l r => 1 + weight l + weight r
  | NODE_SIN f => 1 + weight f
  | NODE_COS f => 1 + weight f
  | NODE_EXP f => 1 + weight f
  | NODE_LN f => 1 + weight f

omit [LinearOrderedField α] in
theorem weight_pos (t : Node α) : 0 < weight t := by
  cases t <;> simp only [weight] <;> omega

theorem weight_simplify_ADD (l r : Node α) :
    weight (simplify_ADD l r) ≤ 1 + weight l + weight r := by
  unfold simplify_ADD
  split_ifs
  · omega
  · omega
  · split <;> simp [weight]

theorem weight_simplify_SUB_fold (l r : Node α) :
    weight (simplify_SUB_fold l r) ≤ 2 + weight l + weight r := by
  unfold simplify_SUB_fold
  split <;> simp [weight]

theorem weight_simplify_MUL (l r : Node α) :
    weight (simplify_MUL l r) ≤ 1 + weight l + weight r := by
  unfold simplify_MUL
  split_ifs
  · simp [weight]; omega
  · omega
  · omega
  · split <;> simp [weight]

theorem weight_simplify_DIV (l r : Node α) :
    weight (simplify_DIV l r) ≤ 1 + weight l + weight r := by
  unfold simplify_DIV
  split_ifs
  · simp [weight]; omega
  · omega
  · split
    · split_ifs <;> simp [weight]
    · simp [weight]

theorem weight_simplify_POW (pow : α → α → α) (l r : Node α) :
    weight (simplify_POW pow l r) ≤ 1 + weight l + weight r := by
  unfold simplify_POW
  split_ifs
  · simp [weight]; omega
  · omega
  · simp [weight]; omega
  · simp [weight]; omega
  · split <;> simp [weight]

/-- The function `simplify` together with the bound that makes its re-entrant call
(`return simplify(result)` in `case NODE_SUB`) terminate. -/
def simplifyAux (pow : α → α → α) : (node : Node α) → {res : Node α // weight res ≤ weight node}
  | NODE_NUMBER c => ⟨NODE_NUMBER c, le_refl _⟩
  | NODE_VARIABLE w => ⟨NODE_VARIABLE w, le_refl _⟩
  | NODE_ADD l r =>
      let l' := simplifyAux pow l
      let r' := simplifyAux pow r
      ⟨simplify_ADD l'.1 r'.1, by
        have h := weight_simplify_ADD l'.1 r'.1
        have hl := l'.2
        have hr := r'.2
        simp only [weight]; omega⟩
  | NODE_SUB l r =>
      let l' := simplifyAux pow l
      let r' := simplifyAux pow r
      if is_zero r'.1 then
        ⟨l'.1, by have hl := l'.2; simp only [weight]; omega⟩
      else if is_zero l'.1 then
        have hlt : weight (NODE_MUL (NODE_NUMBER (-1)) r'.1) < weight (NODE_SUB l r) := by
          have hr := r'.2
          have hp := weight_pos l
          simp only [weight]; omega
        let m := simplifyAux pow (NODE_MUL (NODE_NUMBER (-1)) r'.1)
        ⟨m.1, le_trans m.2 (le_of_lt hlt)⟩
      else
        ⟨simplify_SUB_fold l'.1 r'.1, by
          have h := weight_simplify_SUB_fold l'.1 r'.1
          have hl := l'.2
          have hr := r'.2
          simp only [weight]; omega⟩
  | NODE_MUL l r =>
      let l' := simplifyAux pow l
      let r' := simplifyAux pow r
      ⟨simplify_MUL l'.1 r'.1, by
        have h := weight_simplify_MUL l'.1 r'.1
        have hl := l'.2
        have hr := r'.2
        simp only [weight]; omega⟩
  | NODE_DIV l r =>
      let l' := simplifyAux pow l
      let r' := simplifyAux pow r
      ⟨simplify_DIV l'.1 r'.1, by
        have h := weight_simplify_DIV l'.1 r'.1
        have hl := l'.2
        have hr := r'.2
        simp only [weight]; omega⟩
  | NODE_POW l r =>
      let l' := simplifyAux pow l
      let r' := simplifyAux pow r
      ⟨simplify_POW pow l'.1 r'.1, by
        have h := weight_simplify_POW pow l'.1 r'.1
        have hl := l'.2
        have hr := r'.2
        simp only [weight]; omega⟩
  | NODE_SIN f => ⟨NODE_SIN (simplifyAux pow f).1, by have h := (simplifyAux pow f).2; simp only [weight]; omega⟩
  | NODE_COS f => ⟨NODE_COS (simplifyAux pow f).1, by have h := (simplifyAux pow f).2; simp only [weight]; omega⟩
  | NODE_EXP f => ⟨NODE_EXP (simplifyAux pow f).1, by have h := (simplifyAux pow f).2; simp only [weight]; omega⟩
  | NODE_LN f => ⟨NODE_LN (simplifyAux pow f).1, by have h := (simplifyAux pow f).2; simp only [weight]; omega⟩
termination_by node => weight node
decreasing_by
  all_goals simp_wf
  all_goals first
    | (simp only [weight]; omega)
    | assumption

/-- The function `simplify`. -/
def simplify (pow : α → α → α) (node : Node α) : Node α :=
  (simplifyAux pow node).1

/-- The graph of `simplify`, one constructor per path through its body: `Simplifies pow t t1`
holds when `simplify` returns `t1` on `t`.  `sub_zero_left` is the path that calls `simplify`
again.  It is the induction principle for facts about `simplify` (`simplify_graph`). -/
inductive Simplifies (pow : α → α → α) : Node α → Node α → Prop where
  | leaf_number (c : α) : Simplifies pow (NODE_NUMBER c) (NODE_NUMBER c)
  | leaf_variable (w : Char) : Simplifies pow (NODE_VARIABLE w) (NODE_VARIABLE w)
  | add {l r l1 r1 : Node α} : Simplifies pow l l1 → Simplifies pow r r1 →
      Simplifies pow (NODE_ADD l r) (simplify_ADD l1 r1)
  | sub_zero_right {l r l1 r1 : Node α} : Simplifies pow l l1 → Simplifies pow r r1 →
      is_zero r1 = true → Simplifies pow (NODE_SUB l r) l1
  | sub_zero_left {l r l1 r1 m : Node α} : Simplifies pow l l1 → Simplifies pow r r1 →
      is_zero r1 = false → is_zero l1 = true →
      Simplifies pow (NODE_MUL (NODE_NUMBER (-1)) r1) m → Simplifies pow (NODE_SUB l r) m
  | sub_fold {l r l1 r1 : Node α} : Simplifies pow l l1 → Simplifies pow r r1 →
      is_zero r1 = false → is_zero l1 = false →
      Simplifies pow (NODE_SUB l r) (simplify_SUB_fold l1 r1)
  | mul {l r l1 r1 : Node α} : Simplifies pow l l1 → Simplifies pow r r1 →
      Simplifies pow (NODE_MUL l r) (simplify_MUL l1 r1)
  | div {l r l1 r1 : Node α} : Simplifies pow l l1 → Simplifies pow r r1 →
      Simplifies pow (NODE_DIV l r) (simplify_DIV l1 r1)
  | pow {l r l1 r1 : Node α} : Simplifies pow l l1 → Simplifies pow r r1 →
      Simplifies pow (NODE_POW l r) (simplify_POW pow l1 r1)
  | sin {f f1 : Node α} : Simplifies pow f f1 → Simplifies pow (NODE_SIN f) (NODE_SIN f1)
  | cos {f f1 : Node α} : Simplifies pow f f1 → Simplifies pow (NODE_COS f) (NODE_COS f1)
  | exp {f f1 : Node α} : Simplifies pow f f1 → Simplifies pow (NODE_EXP f) (NODE_EXP f1)
  | ln {f f1 : Node α} : Simplifies pow f f1 → Simplifies pow (NODE_LN f) (NODE_LN f1)

/-- A stand-in for the library function `pow` on rationals, used to run `simplify` on concrete
rational inputs: exact (`a ^ n`) when the exponent is an integer `n`; for any other exponent
the real power need not be rational, and `0` is a placeholder. -/
def pow_rat (a b : ℚ) : ℚ :=
  if b.den = 1 then a ^ b.num else 0

/-- The library function `pow` on real numbers: real exponentiation, with `pow_real 0 0 = 1`
like C's `pow`. -/
noncomputable def pow_real (a b : ℝ) : ℝ :=
  a ^ b

/-- The real value of an expression tree under an assignment `env` of real numbers to the
variables (the mathematical reading of the tree; not a function of the program). -/
noncomputable def eval (env : Char → ℝ) : Node ℝ → ℝ
  | NODE_NUMBER c => c
  | NODE_VARIABLE w => env w
  | NODE_ADD l r => eval env l + eval env r
  | NODE_SUB l r => eval env l - eval env r
  | NODE_MUL l r => eval env l * eval env r
  | NODE_DIV l r => eval env l / eval env r
  | NODE_POW l r => eval env l ^ eval env r
  | NODE_SIN f => Real.sin (eval env f)
  | NODE_COS f => Real.cos (eval env f)
  | NODE_EXP f => Real.exp (eval env f)
  | NODE_LN f => Real.log (eval env f)

/-- Whether the node is a `NODE_NUMBER`. -/
def is_number : Node α → Bool
  | NODE_NUMBER _ => true
  | _ => false

/-- No rewrite rule of the simplifier applies at any node of the tree (every subtree is
locally irreducible), rule by rule as the specification lists them: `0+x`, `x+0`,
number`+`number; `x-0`, `0-x`, number`-`number; `0*x`, `x*0`, `1*x`, `x*1`, number`*`number;
`0/x`, `x/1`, number`/`number with a nonzero divisor; `x^0`, `x^1`, `0^x`, `1^x`,
number`^`number. -/
def irreducible : Node α → Prop
  | NODE_NUMBER _ => True
  | NODE_VARIABLE _ => True
  | NODE_ADD l r => irreducible l ∧ irreducible r ∧ is_zero l = false ∧ is_zero r = false ∧
      (is_number l && is_number r) = false
  | NODE_SUB l r => irreducible l ∧ irreducible r ∧ is_zero r = false ∧ is_zero l = false ∧
      (is_number l && is_number r) = false
  | NODE_MUL l r => irreducible l ∧ irreducible r ∧ is_zero l = false ∧ is_zero r = false ∧
      is_one l = false ∧ is_one r = false ∧ (is_number l && is_number r) = false
  | NODE_DIV l r => irreducible l ∧ irreducible r ∧ is_zero l = false ∧ is_one r = false ∧
      (is_number l && is_number r && !is_zero r) = false
  | NODE_POW l r => irreducible l ∧ irreducible r ∧ is_zero r = false ∧ is_one r = false ∧
      is_zero l = false ∧ is_one l = false ∧ (is_number l && is_number r) = false
  | NODE_SIN f => irreducible f
  | NODE_COS f => irreducible f
  | NODE_EXP f => irreducible f
  | NODE_LN f => irreducible f

/-! ## The record behind the tree

The second reading of `Node`, field by field, for the statements that are about the record
itself: which children a node keeps, and what `is_constant` does on `NULL`. -/

/-- The tags of the enumeration `NodeType`. -/
inductive NodeType where
  | NODE_NUMBER | NODE_VARIABLE | NODE_ADD | NODE_SUB | NODE_MUL | NODE_DIV | NODE_POW
  | NODE_SIN | NODE_COS | NODE_EXP | NODE_LN
  deriving DecidableEq, Repr

/-- A value of type `Node *` together with the record it points to: `NULL`, or a record with
the fields `type`, `value`, `variable`, `left` and `right`. -/
inductive NodePtr (α : Type) where
  | NULL : NodePtr α
  | node (type : NodeType) (value : α) (var : Char) (left right : NodePtr α) : NodePtr α
  deriving DecidableEq, Repr

namespace NodePtr

/-- The constructor `create_node`: value `0`, variable `'\0'`, no children. -/
def create_node (type : NodeType) : NodePtr α :=
  node type 0 (Char.ofNat 0) NULL NULL

/-- The constructor `create_number`. -/
def create_number (value : α) : NodePtr α :=
  node .NODE_NUMBER value (Char.ofNat 0) NULL NULL

/-- The constructor `create_variable`. -/
def create_variable (var : Char) : NodePtr α :=
  node .NODE_VARIABLE 0 var NULL NULL

/-- The constructor `create_binary`. -/
def create_binary (type : NodeType) (left right : NodePtr α) : NodePtr α :=
  node type 0 (Char.ofNat 0) left right

/-- The constructor `create_unary`: the child is the `left` one. -/
def create_unary (type : NodeType) (child : NodePtr α) : NodePtr α :=
  node type 0 (Char.ofNat 0) child NULL

/-- The test `is_zero`, on the record. -/
def is_zero : NodePtr α → Bool
  | node .NODE_NUMBER v _ _ _ => decide (v = 0)
  | _ => false

/-- The test `is_one`, on the record. -/
def is_one : NodePtr α → Bool
  | node .NODE_NUMBER v _ _ _ => decide (v = 1)
  | _ => false

/-- The test `is_constant`, on the record: `NULL` is constant, a number is constant, a
variable is constant unless it is `var`, any other node is constant when both children are.
The children of a number or variable node are not looked at. -/
def is_constant : NodePtr α → Char → Bool
  | NULL, _ => true
  | node ty _ c l r, var =>
      if ty = .NODE_NUMBER then true
      else if ty = .NODE_VARIABLE then decide (c ≠ var)
      else is_constant l var && is_constant r var

/-- Whether a record of type `NODE_VARIABLE` named `v` occurs anywhere below the pointer. -/
def occurs (v : Char) : NodePtr α → Bool
  | NULL => false
  | node ty _ c l r => (decide (ty = .NODE_VARIABLE) && decide (c = v)) || occurs v l || occurs v r

/-- The invariant of the data model: a binary node has exactly two children, a unary node
exactly one (the left one), a number or variable node none. -/
def well_formed : NodePtr α → Prop
  | NULL => False
  | node ty _ _ l r =>
      match ty with
      | .NODE_NUMBER | .NODE_VARIABLE => l = NULL ∧ r = NULL
      | .NODE_ADD | .NODE_SUB | .NODE_MUL | .NODE_DIV | .NODE_POW => well_formed l ∧ well_formed r
      | .NODE_SIN | .NODE_COS | .NODE_EXP | .NODE_LN => well_formed l ∧ r = NULL

/-- Termination measure of `simplify` on records: the number of records, a `NODE_SUB`
counting twice. -/
def weight : NodePtr α → Nat
  | NULL => 0
  | node ty _ _ l r => (if ty = .NODE_SUB then 2 else 1) + weight l + weight r

/-- How the `switch` of `simplify` leaves: `done p` for `return p` (or `break` and the final
`return node`), `again p` for `return simplify(p)`. -/
inductive Outcome (α : Type) where
  | done (result : NodePtr α) : Outcome α
  | again (result : NodePtr α) : Outcome α

/-- The condition `node->left->type == NODE_NUMBER && node->right->type == NODE_NUMBER` with
the two values it goes on to read: `none` when the evaluation dereferences `NULL`,
`some none` when the condition is false, `some (a, b)` when it is true. -/
def number_operands (l r : NodePtr α) : Option (Option (α × α)) :=
  match l with
  | NULL => none
  | node lt a _ _ _ =>
      if lt = .NODE_NUMBER then
        match r with
        | NULL => none
        | node rt b _ _ _ => if rt = .NODE_NUMBER then some (some (a, b)) else some none
      else some none

/-- The `switch` of `simplify` on the record `node` with fields `ty`, `v`, `c`, after
`node->left` and `node->right` have been replaced by their simplified forms `l` and `r`.
A rewrite that retags the node keeps the fields it does not assign; `none` is a `NULL`
dereference. -/
def simplify_switch (pow : α → α → α) (ty : NodeType) (v : α) (c : Char) (l r : NodePtr α) :
    Option (Outcome α) :=
  match ty with
  | .NODE_ADD =>
      if is_zero l then some (.done r)
      else if is_zero r then some (.done l)
      else match number_operands l r with
        | none => none
        | some (some (a, b)) => some (.done (node .NODE_NUMBER (a + b) c NULL NULL))
        | some none => some (.done (node .NODE_ADD v c l r))
  | .NODE_SUB =>
      if is_zero r then some (.done l)
      else if is_zero l then some (.again (create_binary .NODE_MUL (create_number (-1)) r))
      else match number_operands l r with
        | none => none
        | some (some (a, b)) => some (.done (node .NODE_NUMBER (a - b) c NULL NULL))
        | some none => some (.done (node .NODE_SUB v c l r))
  | .NODE_MUL =>
      if is_zero l || is_zero r then some (.done (node .NODE_NUMBER 0 c NULL NULL))
      else if is_one l then some (.done r)
      else if is_one r then some (.done l)
      else match number_operands l r with
        | none => none
        | some (some (a, b)) => some (.done (node .NODE_NUMBER (a * b) c NULL NULL))
        | some none => some (.done (node .NODE_MUL v c l r))
  | .NODE_DIV =>
      if is_zero l then some (.done (node .NODE_NUMBER 0 c l NULL))
      else if is_one r then some (.done l)
      else match number_operands l r with
        | none => none
        | some (some (a, b)) =>
            if b ≠ 0 then some (.done (node .NODE_NUMBER (a / b) c NULL NULL))
            else some (.done (node .NODE_DIV v c l r))
        | some none => some (.done (node .NODE_DIV v c l r))
  | .NODE_POW =>
      if is_zero r then some (.done (node .NODE_NUMBER 1 c NULL NULL))
      else if is_one r then some (.done l)
      else if is_zero l && !is_zero r then some (.done (node .NODE_NUMBER 0 c l NULL))
      else if is_one l then some (.done (node .NODE_NUMBER 1 c l NULL))
      else match number_operands l r with
        | none => none
        | some (some (a, b)) => some (.done (node .NODE_NUMBER (pow a b) c NULL NULL))
        | some none => some (.done (node .NODE_POW v c l r))
  | _ => some (.done (node ty v c l r))

theorem weight_pos_of_is_zero (l : NodePtr α) (h : is_zero l = true) : 0 < weight l := by
  cases l with
  | NULL => simp [is_zero] at h
  | node ty v c l r => simp only [weight]; split_ifs <;> omega

theorem weight_simplify_switch (pow : α → α → α) (ty : NodeType) (v : α) (c : Char)
    (l r : NodePtr α) :
    (∀ x, simplify_switch pow ty v c l r = some (.done x) →
      weight x ≤ weight (node ty v c l r)) ∧
    (∀ y, simplify_switch pow ty v c l r = some (.again y) →
      weight y < weight (node ty v c l r)) := by
  constructor
  · intro x hx
    cases ty <;> simp only [simplify_switch] at hx <;>
      (try split_ifs at hx) <;> (try split at hx) <;> (try split_ifs at hx) <;>
      simp at hx <;> (try subst hx) <;> simp [weight] <;> omega
  · intro y hy
    cases ty <;> simp only [simplify_switch] at hy <;>
      (try split_ifs at hy) <;> (try split at hy) <;> (try split_ifs at hy) <;>
      simp at hy
    rename_i h1 h2
    subst hy
    have := weight_pos_of_is_zero l h2
    simp [weight, create_binary, create_number]
    omega

/-- The function `simplify` on records, with the bound that makes the call
`return simplify(result)` terminate.  `none` is a `NULL` dereference. -/
def simplifyAux (pow : α → α → α) :
    (p : NodePtr α) → {o : Option (NodePtr α) // ∀ q, o = some q → weight q ≤ weight p}
  | NULL => ⟨some NULL, by simp⟩
  | node ty v c l r =>
      match simplifyAux pow l, simplifyAux pow r with
      | ⟨some l1, hl⟩, ⟨some r1, hr⟩ =>
          match hs : simplify_switch pow ty v c l1 r1 with
          | some (.done x) =>
              ⟨some x, by
                intro q hq
                have h := (weight_simplify_switch pow ty v c l1 r1).1 x hs
                have h1 := hl l1 rfl
                have h2 := hr r1 rfl
                simp only [Option.some.injEq] at hq
                subst hq
                simp only [weight] at h ⊢
                omega⟩
          | some (.again y) =>
              have hlt : weight y < weight (node ty v c l r) := by
                have h := (weight_simplify_switch pow ty v c l1 r1).2 y hs
                have h1 := hl l1 rfl
                have h2 := hr r1 rfl
                simp only [weight] at h ⊢
                omega
              let m := simplifyAux pow y
              ⟨m.1, fun q hq => le_trans (m.2 q hq) (le_of_lt hlt)⟩
          | none => ⟨none, by simp⟩
      | _, _ => ⟨none, by simp⟩
termination_by p => weight p
decreasing_by
  all_goals simp_wf
  all_goals first
    | (simp only [weight]; split_ifs <;> omega)
    | assumption

/-- The function `simplify` on records. -/
def simplify (pow : α → α → α) (p : NodePtr α) : Option (NodePtr α) :=
  (simplifyAux pow p).1

/-- The tree a pointer stands for: a number record is its value, a variable record its
name, a binary record its kind over the trees of both children, a unary record its kind over
the tree of the left child; fields and children the kind does not use are ignored.  `none`
when a child that is used is `NULL`. -/
def view : NodePtr α → Option (Node α)
  | NULL => none
  | node ty v c l r =>
      match ty with
      | .NODE_NUMBER => some (NODE_NUMBER v)
      | .NODE_VARIABLE => some (NODE_VARIABLE c)
      | .NODE_ADD => (view l).bind fun a => (view r).bind fun b => some (NODE_ADD a b)
      | .NODE_SUB => (view l).bind fun a => (view r).bind fun b => some (NODE_SUB a b)
      | .NODE_MUL => (view l).bind fun a => (view r).bind fun b => some (NODE_MUL a b)
      | .NODE_DIV => (view l).bind fun a => (view r).bind fun b => some (NODE_DIV a b)
      | .NODE_POW => (view l).bind fun a => (view r).bind fun b => some (NODE_POW a b)
      | .NODE_SIN => (view l).bind fun a => some (NODE_SIN a)
      | .NODE_COS => (view l).bind fun a => some (NODE_COS a)
      | .NODE_EXP => (view l).bind fun a => some (NODE_EXP a)
      | .NODE_LN => (view l).bind fun a => some (NODE_LN a)

/-- Every child that `simplify` or `view` reads is present: below the pointer, both children
of a binary record and the left child of a unary record are not `NULL`. -/
def complete : NodePtr α → Prop
  | NULL => True
  | node ty _ _ l r =>
      complete l ∧ complete r ∧
      match ty with
      | .NODE_NUMBER | .NODE_VARIABLE => True
      | .NODE_ADD | .NODE_SUB | .NODE_MUL | .NODE_DIV | .NODE_POW => l ≠ NULL ∧ r ≠ NULL
      | .NODE_SIN | .NODE_COS | .NODE_EXP | .NODE_LN => l ≠ NULL

end NodePtr

/-! ## Lexer -/

/-- A token: the tag `TokenType`, with the value of a `TOKEN_NUMBER` and the character of a
`TOKEN_VARIABLE` (the fields the other tags leave unset are not represented). -/
inductive Token (α : Type) where
  | TOKEN_NUMBER (value : α) : Token α
  | TOKEN_VARIABLE (var : Char) : Token α
  | TOKEN_PLUS : Token α
  | TOKEN_MINUS : Token α
  | TOKEN_MULT : Token α
  | TOKEN_DIV : Token α
  | TOKEN_POW : Token α
  | TOKEN_LPAREN : Token α
  | TOKEN_RPAREN : Token α
  | TOKEN_SIN : Token α
  | TOKEN_COS : Token α
  | TOKEN_EXP : Token α
  | TOKEN_LN : Token α
  | TOKEN_END : Token α
  | TOKEN_ERROR : Token α
  deriving DecidableEq, Repr

open Token

/-- The library test `isdigit` (C locale). -/
def isdigit (c : Char) : Bool := c.isDigit

/-- The library test `isalpha` (C locale). -/
def isalpha (c : Char) : Bool := c.isAlpha

/-- The function `skip_whitespace`.  The lexer state (`input_str`, `pos`) is the list of the
characters from the cursor up to the terminator; `next_char` drops the first one. -/
def skip_whitespace : List Char → List Char
  | [] => []
  | c :: cs => if c = ' ' ∨ c = '\t' then skip_whitespace cs else c :: cs

/-- The loop `while (isalpha(input_str[pos]) && i < 9) buffer[i++] = input_str[pos++];` with
`n = 9 - i` places left in the buffer: the characters stored and the input left. -/
def read_identifier : Nat → List Char → List Char × List Char
  | 0, cs => ([], cs)
  | _ + 1, [] => ([], [])
  | n + 1, c :: cs =>
      if isalpha c then ((read_identifier n cs).1.cons c, (read_identifier n cs).2)
      else ([], c :: cs)

/-- The function `get_next_token`: the token and the input left after it.  `strtod` is the
library function: on the input at the cursor it gives the value read and the number of
characters it consumed (`endptr - &input_str[pos]`). -/
def get_next_token (strtod : List Char → α × Nat) (input : List Char) : Token α × List Char :=
  match skip_whitespace input with
  | [] => (TOKEN_END, [])
  | c :: cs =>
      if c = Char.ofNat 0 then (TOKEN_END, c :: cs)
      else if isdigit c ∨ c = '.' then
        (TOKEN_NUMBER (strtod (c :: cs)).1, (c :: cs).drop (strtod (c :: cs)).2)
      else if isalpha c then
        let buffer := (read_identifier 9 (c :: cs)).1
        let rest := (read_identifier 9 (c :: cs)).2
        if buffer = ['s', 'i', 'n'] then (TOKEN_SIN, rest)
        else if buffer = ['c', 'o', 's'] then (TOKEN_COS, rest)
        else if buffer = ['e', 'x', 'p'] then (TOKEN_EXP, rest)
        else if buffer = ['l', 'n'] then (TOKEN_LN, rest)
        else if buffer.length = 1 then (TOKEN_VARIABLE (buffer.headD c), rest)
        else (TOKEN_ERROR, rest)
      else if c = '+' then (TOKEN_PLUS, cs)
      else if c = '-' then (TOKEN_MINUS, cs)
      else if c = '*' then (TOKEN_MULT, cs)
      else if c = '/' then (TOKEN_DIV, cs)
      else if c = '^' then (TOKEN_POW, cs)
      else if c = '(' then (TOKEN_LPAREN, cs)
      else if c = ')' then (TOKEN_RPAREN, cs)
      else (TOKEN_ERROR, cs)

/-! ## Parser -/

/-- The three diagnostics of `parse_primary` and the one of `main`, each followed by
`exit(1)` or `return 1`. -/
inductive ParseError where
  /-- The message "Erreur: '(' attendu après fonction". -/
  | lparen_expected : ParseError
  /-- The message "Erreur: ')' attendu". -/
  | rparen_expected : ParseError
  /-- The message "Erreur de syntaxe". -/
  | syntax_error : ParseError
  /-- The message "Erreur: caractères inattendus à la fin". -/
  | trailing_characters : ParseError
  deriving DecidableEq, Repr

/-- The global state of the parser: the input from the cursor on (`input_str`, `pos`) and
the lookahead `current_token`. -/
structure ParserState (α : Type) where
  input : List Char
  current_token : Token α

/-- The statement `current_token = get_next_token();`. -/
def advance (strtod : List Char → α × Nat) (st : ParserState α) : ParserState α :=
  ⟨(get_next_token strtod st.input).2, (get_next_token strtod st.input).1⟩

/-- The result of a parsing function: the tree built and the state left, or the diagnostic
with which the program exits. -/
abbrev Parsed (α : Type) := Except ParseError (Node α × ParserState α)

/-- Tokens that `get_next_token` can return without moving the cursor. -/
def Token.zero_width : Token α → Bool
  | TOKEN_END => true
  | TOKEN_NUMBER _ => true
  | _ => false

/-- Termination measure of the parser: twice the input left, plus one when the lookahead is
a token that took at least one character. -/
def ParserState.measure (st : ParserState α) : Nat :=
  2 * st.input.length + (if st.current_token.zero_width then 0 else 1)

theorem skip_whitespace_length (input : List Char) :
    (skip_whitespace input).length ≤ input.length := by
  induction input with
  | nil => simp [skip_whitespace]
  | cons c cs ih =>
      simp only [skip_whitespace]
      split_ifs
      · simp only [List.length_cons]; omega
      · exact le_refl _

theorem read_identifier_length (n : Nat) (cs : List Char) :
    (read_identifier n cs).2.length ≤ cs.length := by
  induction n generalizing cs with
  | zero => simp [read_identifier]
  | succ n ih =>
      cases cs with
      | nil => simp [read_identifier]
      | cons c cs =>
          simp only [read_identifier]
          split_ifs
          · have := ih cs
            simp only [List.length_cons]; omega
          · exact le_refl _

theorem read_identifier_length_lt (n : Nat) (c : Char) (cs : List Char)
    (h : isalpha c = true) :
    (read_identifier (n + 1) (c :: cs)).2.length < (c :: cs).length := by
  have := read_identifier_length n cs
  simp only [read_identifier, h, if_true, List.length_cons]
  omega

/-- The cursor never moves back, and it moves on for every token except the end marker and
a number. -/
theorem get_next_token_length (strtod : List Char → α × Nat) (input : List Char) :
    (get_next_token strtod input).2.length ≤ input.length ∧
    ((get_next_token strtod input).1.zero_width = false →
      (get_next_token strtod input).2.length < input.length) := by
  have hs := skip_whitespace_length input
  unfold get_next_token
  split
  · rename_i h
    simp [Token.zero_width]
  · rename_i c cs h
    rw [h] at hs
    simp only [List.length_cons] at hs
    by_cases h0 : c = Char.ofNat 0
    · rw [if_pos h0]
      simp only [Token.zero_width, List.length_cons]
      exact ⟨hs, fun hf => absurd hf (by simp)⟩
    · rw [if_neg h0]
      by_cases h1 : isdigit c = true ∨ c = '.'
      · rw [if_pos h1]
        simp only [Token.zero_width, List.length_drop, List.length_cons]
        exact ⟨by omega, fun hf => absurd hf (by simp)⟩
      · rw [if_neg h1]
        by_cases h2 : isalpha c = true
        · rw [if_pos h2]
          have hid : (read_identifier 9 (c :: cs)).2.length < cs.length + 1 :=
            read_identifier_length_lt 8 c cs h2
          simp only []
          split_ifs <;> simp only [] <;> exact ⟨by omega, fun _ => by omega⟩
        · rw [if_neg h2]
          split_ifs <;> simp only [] <;> exact ⟨by omega, fun _ => by omega⟩

theorem measure_advance (strtod : List Char → α × Nat) (st : ParserState α) :
    (advance strtod st).measure ≤ 2 * st.input.length := by
  have h := get_next_token_length strtod st.input
  simp only [ParserState.measure, advance]
  split_ifs with hz
  · omega
  · have := h.2 (by simpa using hz)
    omega

theorem measure_advance_le (strtod : List Char → α × Nat) (st : ParserState α) :
    (advance strtod st).measure ≤ st.measure := by
  have := measure_advance strtod st
  simp only [ParserState.measure] at this ⊢
  omega

theorem measure_advance_lt (strtod : List Char → α × Nat) (st : ParserState α)
    (h : st.current_token.zero_width = false) :
    (advance strtod st).measure < st.measure := by
  have := measure_advance strtod st
  simp only [ParserState.measure, h] at this ⊢
  simp
  omega

/-- A result that leaves the parser with no more input than it started from. -/
def Parsed.within (r : Parsed α) (st : ParserState α) : Prop :=
  ∀ n st1, r = .ok (n, st1) → st1.measure ≤ st.measure

theorem within_error (e : ParseError) (st : ParserState α) :
    Parsed.within (.error e : Parsed α) st := by
  intro n st1 h
  exact Except.noConfusion h

theorem within_ok {n : Node α} {st1 st : ParserState α} (h : st1.measure ≤ st.measure) :
    Parsed.within (.ok (n, st1) : Parsed α) st := by
  intro m st2 h2
  simp only [Except.ok.injEq, Prod.mk.injEq] at h2
  rw [← h2.2]
  exact h

theorem within_trans {r : Parsed α} {st1 st : ParserState α} (h : r.within st1)
    (h1 : st1.measure ≤ st.measure) : r.within st :=
  fun n st2 h2 => le_trans (h n st2 h2) h1

mutual

/-- The function `parse_expression`, with the bound on the state it leaves. -/
def parse_expressionAux (strtod : List Char → α × Nat) (st : ParserState α) :
    {r : Parsed α // r.within st} :=
  match parse_termAux strtod st with
  | ⟨.ok (left, st1), h1⟩ =>
      have hm : st1.measure ≤ st.measure := h1 left st1 rfl
      ⟨(parse_expression_loopAux strtod left st1).1,
        within_trans (parse_expression_loopAux strtod left st1).2 hm⟩
  | ⟨.error e, _⟩ => ⟨.error e, within_error e st⟩
termination_by 8 * st.measure + 6
decreasing_by
  all_goals simp_wf
  all_goals omega

/-- The `while` loop of `parse_expression`, entered with the tree `left` built so far. -/
def parse_expression_loopAux (strtod : List Char → α × Nat) (left : Node α)
    (st : ParserState α) : {r : Parsed α // r.within st} :=
  if h : st.current_token = TOKEN_PLUS ∨ st.current_token = TOKEN_MINUS then
    have hlt : (advance strtod st).measure < st.measure :=
      measure_advance_lt strtod st (by rcases h with h | h <;> rw [h] <;> rfl)
    match parse_termAux strtod (advance strtod st) with
    | ⟨.ok (right, st2), h2⟩ =>
        have hm : st2.measure < st.measure := lt_of_le_of_lt (h2 right st2 rfl) hlt
        ⟨(parse_expression_loopAux strtod
            (if st.current_token = TOKEN_PLUS then NODE_ADD left right
             else NODE_SUB left right) st2).1,
          within_trans (parse_expression_loopAux strtod
            (if st.current_token = TOKEN_PLUS then NODE_ADD left right
             else NODE_SUB left right) st2).2 (le_of_lt hm)⟩
    | ⟨.error e, _⟩ => ⟨.error e, within_error e st⟩
  else ⟨.ok (left, st), within_ok (le_refl _)⟩
termination_by 8 * st.measure + 5
decreasing_by
  all_goals simp_wf
  all_goals omega

/-- The function `parse_term`, with the bound on the state it leaves. -/
def parse_termAux (strtod : List Char → α × Nat) (st : ParserState α) :
    {r : Parsed α // r.within st} :=
  match parse_factorAux strtod st with
  | ⟨.ok (left, st1), h1⟩ =>
      have hm : st1.measure ≤ st.measure := h1 left st1 rfl
      ⟨(parse_term_loopAux strtod left st1).1,
        within_trans (parse_term_loopAux strtod left st1).2 hm⟩
  | ⟨.error e, _⟩ => ⟨.error e, within_error e st⟩
termination_by 8 * st.measure + 4
decreasing_by
  all_goals simp_wf
  all_goals omega

/-- The `while` loop of `parse_term`, entered with the tree `left` built so far. -/
def parse_term_loopAux (strtod : List Char → α × Nat) (left : Node α)
    (st : ParserState α) : {r : Parsed α // r.within st} :=
  if h : st.current_token = TOKEN_MULT ∨ st.current_token = TOKEN_DIV then
    have hlt : (advance strtod st).measure < st.measure :=
      measure_advance_lt strtod st (by rcases h with h | h <;> rw [h] <;> rfl)
    match parse_factorAux strtod (advance strtod st) with
    | ⟨.ok (right, st2), h2⟩ =>
        have hm : st2.measure < st.measure := lt_of_le_of_lt (h2 right st2 rfl) hlt
        ⟨(parse_term_loopAux strtod
            (if st.current_token = TOKEN_MULT then NODE_MUL left right
             else NODE_DIV left right) st2).1,
          within_trans (parse_term_loopAux strtod
            (if st.current_token = TOKEN_MULT then NODE_MUL left right
             else NODE_DIV left right) st2).2 (le_of_lt hm)⟩
    | ⟨.error e, _⟩ => ⟨.error e, within_error e st⟩
  else ⟨.ok (left, st), within_ok (le_refl _)⟩
termination_by 8 * st.measure + 3
decreasing_by
  all_goals simp_wf
  all_goals omega

/-- The function `parse_factor`, with the bound on the state it leaves. -/
def parse_factorAux (strtod : List Char → α × Nat) (st : ParserState α) :
    {r : Parsed α // r.within st} :=
  parse_powerAux strtod st
termination_by 8 * st.measure + 2
decreasing_by
  all_goals simp_wf

/-- The function `parse_power`, with the bound on the state it leaves. -/
def parse_powerAux (strtod : List Char → α × Nat) (st : ParserState α) :
    {r : Parsed α // r.within st} :=
  match parse_primaryAux strtod st with
  | ⟨.ok (left, st1), h1⟩ =>
      have hm : st1.measure ≤ st.measure := h1 left st1 rfl
      if h : st1.current_token = TOKEN_POW then
        have hlt : (advance strtod st1).measure < st1.measure :=
          measure_advance_lt strtod st1 (by rw [h]; rfl)
        match parse_powerAux strtod (advance strtod st1) with
        | ⟨.ok (right, st2), h2⟩ =>
            ⟨.ok (NODE_POW left right, st2),
              within_ok (le_trans (h2 right st2 rfl) (le_trans (le_of_lt hlt) hm))⟩
        | ⟨.error e, _⟩ => ⟨.error e, within_error e st⟩
      else ⟨.ok (left, st1), within_ok hm⟩
  | ⟨.error e, _⟩ => ⟨.error e, within_error e st⟩
termination_by 8 * st.measure + 1
decreasing_by
  all_goals simp_wf
  all_goals omega

/-- The function `parse_primary`, with the bound on the state it leaves. -/
def parse_primaryAux (strtod : List Char → α × Nat) (st : ParserState α) :
    {r : Parsed α // r.within st} :=
  match h : st.current_token with
  | TOKEN_NUMBER value =>
      ⟨.ok (NODE_NUMBER value, advance strtod st), within_ok (measure_advance_le strtod st)⟩
  | TOKEN_VARIABLE var =>
      ⟨.ok (NODE_VARIABLE var, advance strtod st), within_ok (measure_advance_le strtod st)⟩
  | TOKEN_SIN | TOKEN_COS | TOKEN_EXP | TOKEN_LN =>
      have hlt : (advance strtod st).measure < st.measure :=
        measure_advance_lt strtod st (by rw [h]; rfl)
      if (advance strtod st).current_token ≠ TOKEN_LPAREN then
        ⟨.error .lparen_expected, within_error _ st⟩
      else
        have hlt2 : (advance strtod (advance strtod st)).measure < st.measure :=
          lt_of_le_of_lt (measure_advance_le strtod _) hlt
        match parse_expressionAux strtod (advance strtod (advance strtod st)) with
        | ⟨.ok (arg, st3), h3⟩ =>
            if st3.current_token ≠ TOKEN_RPAREN then
              ⟨.error .rparen_expected, within_error _ st⟩
            else
              ⟨.ok
                (if st.current_token = TOKEN_SIN then NODE_SIN arg
                 else if st.current_token = TOKEN_COS then NODE_COS arg
                 else if st.current_token = TOKEN_EXP then NODE_EXP arg
                 else NODE_LN arg, advance strtod st3),
                within_ok (le_trans (measure_advance_le strtod st3)
                  (le_trans (h3 arg st3 rfl) (le_of_lt hlt2)))⟩
        | ⟨.error e, _⟩ => ⟨.error e, within_error e st⟩
  | TOKEN_LPAREN =>
      have hlt : (advance strtod st).measure < st.measure :=
        measure_advance_lt strtod st (by rw [h]; rfl)
      match parse_expressionAux strtod (advance strtod st) with
      | ⟨.ok (node, st2), h2⟩ =>
          if st2.current_token ≠ TOKEN_RPAREN then
            ⟨.error .rparen_expected, within_error _ st⟩
          else
            ⟨.ok (node, advance strtod st2),
              within_ok (le_trans (measure_advance_le strtod st2)
                (le_trans (h2 node st2 rfl) (le_of_lt hlt)))⟩
      | ⟨.error e, _⟩ => ⟨.error e, within_error e st⟩
  | _ => ⟨.error .syntax_error, within_error _ st⟩
termination_by 8 * st.measure
decreasing_by
  all_goals simp_wf
  all_goals omega

end

/-- The function `parse_expression`: `term (('+' | '-') term)*`. -/
def parse_expression (strtod : List Char → α × Nat) (st : ParserState α) : Parsed α :=
  (parse_expressionAux strtod st).1

/-- The `while` loop of `parse_expression`. -/
def parse_expression_loop (strtod : List Char → α × Nat) (left : Node α)
    (st : ParserState α) : Parsed α :=
  (parse_expression_loopAux strtod left st).1

/-- The function `parse_term`: `factor (('*' | '/') factor)*`. -/
def parse_term (strtod : List Char → α × Nat) (st : ParserState α) : Parsed α :=
  (parse_termAux strtod st).1

/-- The `while` loop of `parse_term`. -/
def parse_term_loop (strtod : List Char → α × Nat) (left : Node α)
    (st : ParserState α) : Parsed α :=
  (parse_term_loopAux strtod left st).1

/-- The function `parse_factor`: `power`. -/
def parse_factor (strtod : List Char → α × Nat) (st : ParserState α) : Parsed α :=
  (parse_factorAux strtod st).1

/-- The function `parse_power`: `primary ('^' power)?`. -/
def parse_power (strtod : List Char → α × Nat) (st : ParserState α) : Parsed α :=
  (parse_powerAux strtod st).1

/-- The function `parse_primary`:
`NUMBER | VARIABLE | function '(' expression ')' | '(' expression ')'`. -/
def parse_primary (strtod : List Char → α × Nat) (st : ParserState α) : Parsed α :=
  (parse_primaryAux strtod st).1

/-- The parsing part of `main`: the cursor is set to the start of the line, the first token
is read, `parse_expression` is called, and what follows the expression must be the end
marker. -/
def parse (strtod : List Char → α × Nat) (line : List Char) : Except ParseError (Node α) :=
  match parse_expression strtod (advance strtod ⟨line, TOKEN_END⟩) with
  | .ok (tree, st) =>
      if st.current_token ≠ TOKEN_END then .error .trailing_characters else .ok tree
  | .error e => .error e

/-! ## Numbers in text: `strtod` and `printf` on rationals -/

/-- The value of a string of decimal digits. -/
def decimal_value (ds : List Char) : Nat :=
  ds.foldl (fun acc c => 10 * acc + (c.toNat - 48)) 0

/-- The library function `strtod` on a string that starts with a digit or a point, for
decimal literals: digits with an optional point (at least one digit in all), then an optional
exponent `e` or `E`, optional sign, digits.  It gives the value and the length of the
longest such prefix, and `(0, 0)` when there is none (a point with no digit).  Values are
exact rationals.  Hexadecimal literals (`0x...`) are not modelled. -/
def strtod_rat (s : List Char) : ℚ × Nat :=
  let ip := s.takeWhile isdigit
  let s1 := s.dropWhile isdigit
  let point := decide (s1.head? = some '.')
  let fp := if point then s1.tail.takeWhile isdigit else []
  let s2 := if point then s1.tail.dropWhile isdigit else s1
  if ip = [] ∧ fp = [] then (0, 0)
  else
    let mantissa : ℚ := (decimal_value (ip ++ fp) : ℚ) / 10 ^ fp.length
    let n := ip.length + (if point then 1 else 0) + fp.length
    if s2.head? = some 'e' ∨ s2.head? = some 'E' then
      let s3 := s2.tail
      let signed := decide (s3.head? = some '+' ∨ s3.head? = some '-')
      let negative := decide (s3.head? = some '-')
      let s4 := if signed then s3.tail else s3
      let ed := s4.takeWhile isdigit
      if ed = [] then (mantissa, n)
      else
        (if negative then mantissa / 10 ^ decimal_value ed
         else mantissa * 10 ^ decimal_value ed,
         n + 1 + (if signed then 1 else 0) + ed.length)
    else (mantissa, n)

/-- The decimal digits of a natural number, most significant first (`"0"` for zero). -/
def print_nat (n : Nat) : List Char :=
  if n = 0 then ['0'] else ((Nat.digits 10 n).reverse.map fun d => Char.ofNat (48 + d))

/-- The conversion `printf("%d", n)`. -/
def print_d (n : ℤ) : List Char :=
  if n < 0 then '-' :: print_nat n.natAbs else print_nat n.natAbs

/-- The nearest integer to a nonnegative rational, ties to even. -/
def round_half_even (q : ℚ) : Nat :=
  let f := ⌊q⌋.toNat
  if q - f < 1 / 2 then f
  else if 1 / 2 < q - f then f + 1
  else if f % 2 = 0 then f else f + 1

/-- The conversion `printf("%.2f", v)` on an exact rational: sign, integer part, point, two
decimals, rounded to nearest (ties to even). -/
def print_2f (v : ℚ) : List Char :=
  let r := round_half_even (|v| * 100)
  (if v < 0 then ['-'] else []) ++ print_nat (r / 100) ++
    ['.', Char.ofNat (48 + r % 100 / 10), Char.ofNat (48 + r % 10)]

/-- The cast `(int)value`: truncation toward zero (for a value outside the range of `int`
the cast is undefined in C; the model truncates all the same). -/
def to_int (v : ℚ) : ℤ :=
  if 0 ≤ v then ⌊v⌋ else -⌊-v⌋

/-- The `case NODE_NUMBER` of `print_tree`: `%d` of the truncated value when the value
equals it, `%.2f` otherwise. -/
def print_number (v : ℚ) : List Char :=
  if v = (to_int v : ℚ) then print_d (to_int v) else print_2f v

/-! ## Printer -/

/-- The field `type` of a node. -/
def Node.type : Node α → NodeType
  | NODE_NUMBER _ => .NODE_NUMBER
  | NODE_VARIABLE _ => .NODE_VARIABLE
  | NODE_ADD _ _ => .NODE_ADD
  | NODE_SUB _ _ => .NODE_SUB
  | NODE_MUL _ _ => .NODE_MUL
  | NODE_DIV _ _ => .NODE_DIV
  | NODE_POW _ _ => .NODE_POW
  | NODE_SIN _ => .NODE_SIN
  | NODE_COS _ => .NODE_COS
  | NODE_EXP _ => .NODE_EXP
  | NODE_LN _ => .NODE_LN

/-- The function `print_tree`: the characters it writes.  `fmt` is the text of a number
(`print_number` on rationals). -/
def print_tree (fmt : α → List Char) : Node α → List Char
  | NODE_NUMBER value => fmt value
  | NODE_VARIABLE var => [var]
  | NODE_ADD l r => print_tree fmt l ++ ['+'] ++ print_tree fmt r
  | NODE_SUB l r =>
      print_tree fmt l ++ ['-'] ++
        (if r.type = .NODE_ADD ∨ r.type = .NODE_SUB then
          ['('] ++ print_tree fmt r ++ [')']
         else print_tree fmt r)
  | NODE_MUL l r =>
      (if l.type = .NODE_ADD ∨ l.type = .NODE_SUB then
        ['('] ++ print_tree fmt l ++ [')']
       else print_tree fmt l) ++ ['*'] ++
        (if r.type = .NODE_ADD ∨ r.type = .NODE_SUB then
          ['('] ++ print_tree fmt r ++ [')']
         else print_tree fmt r)
  | NODE_DIV l r =>
      (if l.type = .NODE_ADD ∨ l.type = .NODE_SUB then
        ['('] ++ print_tree fmt l ++ [')']
       else print_tree fmt l) ++ ['/'] ++
        (if r.type ≠ .NODE_NUMBER ∧ r.type ≠ .NODE_VARIABLE then
          ['('] ++ print_tree fmt r ++ [')']
         else print_tree fmt r)
  | NODE_POW l r =>
      (if l.type ≠ .NODE_NUMBER ∧ l.type ≠ .NODE_VARIABLE then
        ['('] ++ print_tree fmt l ++ [')']
       else print_tree fmt l) ++ ['^'] ++
        (if r.type ≠ .NODE_NUMBER ∧ r.type ≠ .NODE_VARIABLE then
          ['('] ++ print_tree fmt r ++ [')']
         else print_tree fmt r)
  | NODE_SIN f => ['s', 'i', 'n', '('] ++ print_tree fmt f ++ [')']
  | NODE_COS f => ['c', 'o', 's', '('] ++ print_tree fmt f ++ [')']
  | NODE_EXP f => ['e', 'x', 'p', '('] ++ print_tree fmt f ++ [')']
  | NODE_LN f => ['l', 'n', '('] ++ print_tree fmt f ++ [')']

/-- The body of `main` once the line is read: parse it, print the tree, differentiate it
with respect to `x`, simplify, print the derivative.  The result is the text printed after
`Expression: ` and the text printed after `d/dx: `, or the diagnostic of the parse. -/
def main_output (strtod : List Char → α × Nat) (pow : α → α → α) (fmt : α → List Char)
    (line : List Char) : Except ParseError (List Char × List Char) :=
  match parse strtod line with
  | .ok tree =>
      .ok (print_tree fmt tree, print_tree fmt (simplify pow (differentiate tree 'x')))
  | .error e => .error e

/-- The node is an `Add` or a `Sub`. -/
def is_sum (t : Node α) : Bool :=
  match t with
  | NODE_ADD _ _ => true
  | NODE_SUB _ _ => true
  | _ => false

/-- The node is a `Number` or a `Variable`. -/
def is_atom (t : Node α) : Bool :=
  match t with
  | NODE_NUMBER _ => true
  | NODE_VARIABLE _ => true
  | _ => false

/-- The text `s`, between parentheses when `b` holds. -/
def parenthesize_if (b : Bool) (s : List Char) : List Char :=
  if b then '(' :: s ++ [')'] else s

/-- The reference rendering, from the rules of the printer in the specification: `Add` never
parenthesizes; `Sub` parenthesizes its right child iff it is an `Add` or `Sub`; `Mul`
parenthesizes a child iff it is an `Add` or `Sub`; `Div` parenthesizes its left child iff it
is an `Add` or `Sub` and its right child iff it is neither a `Number` nor a `Variable`; `Pow`
parenthesizes a child iff it is neither a `Number` nor a `Variable`; a function prints as
`name(operand)`; a variable prints as its character. -/
def render (fmt : α → List Char) : Node α → List Char
  | NODE_NUMBER value => fmt value
  | NODE_VARIABLE var => [var]
  | NODE_ADD l r => render fmt l ++ '+' :: render fmt r
  | NODE_SUB l r => render fmt l ++ '-' :: parenthesize_if (is_sum r) (render fmt r)
  | NODE_MUL l r =>
      parenthesize_if (is_sum l) (render fmt l) ++
        '*' :: parenthesize_if (is_sum r) (render fmt r)
  | NODE_DIV l r =>
      parenthesize_if (is_sum l) (render fmt l) ++
        '/' :: parenthesize_if (!is_atom r) (render fmt r)
  | NODE_POW l r =>
      parenthesize_if (!is_atom l) (render fmt l) ++
        '^' :: parenthesize_if (!is_atom r) (render fmt r)
  | NODE_SIN f => "sin".toList ++ parenthesize_if true (render fmt f)
  | NODE_COS f => "cos".toList ++ parenthesize_if true (render fmt f)
  | NODE_EXP f => "exp".toList ++ parenthesize_if true (render fmt f)
  | NODE_LN f => "ln".toList ++ parenthesize_if true (render fmt f)

/-- A call of one of the parsing functions: its name and, for the two loops, the tree built
so far. -/
inductive Frame (α : Type) where
  | expression : Frame α
  | expression_loop (left : Node α) : Frame α
  | term : Frame α
  | term_loop (left : Node α) : Frame α
  | factor : Frame α
  | power : Frame α
  | primary : Frame α

/-- The result of the call `f` in the state `st`. -/
def Frame.run (strtod : List Char → α × Nat) : Frame α → ParserState α → Parsed α
  | .expression, st => parse_expression strtod st
  | .expression_loop left, st => parse_expression_loop strtod left st
  | .term, st => parse_term strtod st
  | .term_loop left, st => parse_term_loop strtod left st
  | .factor, st => parse_factor strtod st
  | .power, st => parse_power strtod st
  | .primary, st => parse_primary strtod st

/-- The calls made while the line is parsed: `Calls strtod line f st` holds when the
execution of `parse` on `line` reaches the call `f` in the state `st`.  One rule per call
site of the parser; a call site after another call is reached only if that call returned. -/
inductive Calls (strtod : List Char → α × Nat) (line : List Char) :
    Frame α → ParserState α → Prop where
  | start : Calls strtod line .expression (advance strtod ⟨line, TOKEN_END⟩)
  | expression_term {st} : Calls strtod line .expression st → Calls strtod line .term st
  | expression_loop {st left st1} : Calls strtod line .expression st →
      parse_term strtod st = .ok (left, st1) → Calls strtod line (.expression_loop left) st1
  | expression_loop_term {st left} : Calls strtod line (.expression_loop left) st →
      (st.current_token = TOKEN_PLUS ∨ st.current_token = TOKEN_MINUS) →
      Calls strtod line .term (advance strtod st)
  | expression_loop_again {st left right st2} :
      Calls strtod line (.expression_loop left) st →
      (st.current_token = TOKEN_PLUS ∨ st.current_token = TOKEN_MINUS) →
      parse_term strtod (advance strtod st) = .ok (right, st2) →
      Calls strtod line
        (.expression_loop (if st.current_token = TOKEN_PLUS then NODE_ADD left right
          else NODE_SUB left right)) st2
  | term_factor {st} : Calls strtod line .term st → Calls strtod line .factor st
  | term_loop {st left st1} : Calls strtod line .term st →
      parse_factor strtod st = .ok (left, st1) → Calls strtod line (.term_loop left) st1
  | term_loop_factor {st left} : Calls strtod line (.term_loop left) st →
      (st.current_token = TOKEN_MULT ∨ st.current_token = TOKEN_DIV) →
      Calls strtod line .factor (advance strtod st)
  | term_loop_again {st left right st2} : Calls strtod line (.term_loop left) st →
      (st.current_token = TOKEN_MULT ∨ st.current_token = TOKEN_DIV) →
      parse_factor strtod (advance strtod st) = .ok (right, st2) →
      Calls strtod line
        (.term_loop (if st.current_token = TOKEN_MULT then NODE_MUL left right
          else NODE_DIV left right)) st2
  | factor_power {st} : Calls strtod line .factor st → Calls strtod line .power st
  | power_primary {st} : Calls strtod line .power st → Calls strtod line .primary st
  | power_power {st left st1} : Calls strtod line .power st →
      parse_primary strtod st = .ok (left, st1) → st1.current_token = TOKEN_POW →
      Calls strtod line .power (advance strtod st1)
  | primary_function {st} : Calls strtod line .primary st →
      (st.current_token = TOKEN_SIN ∨ st.current_token = TOKEN_COS ∨
        st.current_token = TOKEN_EXP ∨ st.current_token = TOKEN_LN) →
      (advance strtod st).current_token = TOKEN_LPAREN →
      Calls strtod line .expression (advance strtod (advance strtod st))
  | primary_paren {st} : Calls strtod line .primary st →
      st.current_token = TOKEN_LPAREN → Calls strtod line .expression (advance strtod st)

/-- A continuation that cannot be taken for a part of the number before it. -/
def ends_number (rest : List Char) : Prop :=
  ∀ c ∈ rest.head?, isdigit c = false ∧ c ≠ '.' ∧ c ≠ 'e' ∧ c ≠ 'E'

/-- A number that `print_number` writes exactly: nonnegative, at most two decimals, below
`2^31`. -/
def printable (v : ℚ) : Prop :=
  ∃ k : ℕ, v = (k : ℚ) / 100 ∧ v < 2147483648

/-- Every variable of the tree is named by a letter. -/
def letters : Node α → Prop
  | NODE_NUMBER _ => True
  | NODE_VARIABLE w => isalpha w = true
  | NODE_ADD l r => letters l ∧ letters r
  | NODE_SUB l r => letters l ∧ letters r
  | NODE_MUL l r => letters l ∧ letters r
  | NODE_DIV l r => letters l ∧ letters r
  | NODE_POW l r => letters l ∧ letters r
  | NODE_SIN f => letters f
  | NODE_COS f => letters f
  | NODE_EXP f => letters f
  | NODE_LN f => letters f

/-- A variable token is named by a letter. -/
def Token.letter (t : Token α) : Prop :=
  ∀ w, t = TOKEN_VARIABLE w → isalpha w = true

/-- A successful result holds a tree whose variables are letters and leaves a lookahead
that, if a variable, is a letter. -/
def Parsed.letters (r : Parsed α) : Prop :=
  ∀ t st, r = .ok (t, st) → Derivative.letters t ∧ st.current_token.letter

/-- The tree over the reals with the same numbers. -/
def to_real : Node ℚ → Node ℝ
  | NODE_NUMBER c => NODE_NUMBER (c : ℝ)
  | NODE_VARIABLE w => NODE_VARIABLE w
  | NODE_ADD l r => NODE_ADD (to_real l) (to_real r)
  | NODE_SUB l r => NODE_SUB (to_real l) (to_real r)
  | NODE_MUL l r => NODE_MUL (to_real l) (to_real r)
  | NODE_DIV l r => NODE_DIV (to_real l) (to_real r)
  | NODE_POW l r => NODE_POW (to_real l) (to_real r)
  | NODE_SIN f => NODE_SIN (to_real f)
  | NODE_COS f => NODE_COS (to_real f)
  | NODE_EXP f => NODE_EXP (to_real f)
  | NODE_LN f => NODE_LN (to_real f)

/-- The real value of a tree with rational numbers. -/
noncomputable def value (env : Char → ℝ) (t : Node ℚ) : ℝ :=
  eval env (to_real t)

/-- Every number of the tree is `printable`. -/
def printable_numbers : Node ℚ → Prop
  | NODE_NUMBER c => printable c
  | NODE_VARIABLE _ => True
  | NODE_ADD l r => printable_numbers l ∧ printable_numbers r
  | NODE_SUB l r => printable_numbers l ∧ printable_numbers r
  | NODE_MUL l r => printable_numbers l ∧ printable_numbers r
  | NODE_DIV l r => printable_numbers l ∧ printable_numbers r
  | NODE_POW l r => printable_numbers l ∧ printable_numbers r
  | NODE_SIN f => printable_numbers f
  | NODE_COS f => printable_numbers f
  | NODE_EXP f => printable_numbers f
  | NODE_LN f => printable_numbers f

/-- The parser state once the first token of `cs` is read. -/
def start (cs : List Char) : ParserState ℚ :=
  advance strtod_rat ⟨cs, TOKEN_END⟩

/-- What may follow a primary: the end, `)` or an operator. -/
def after_primary (rest : List Char) : Prop :=
  ∀ c ∈ rest.head?, c = ')' ∨ c = '+' ∨ c = '-' ∨ c = '*' ∨ c = '/' ∨ c = '^'

/-- What may follow a factor: the end, `)`, `+`, `-`, `*` or `/`. -/
def after_factor (rest : List Char) : Prop :=
  ∀ c ∈ rest.head?, c = ')' ∨ c = '+' ∨ c = '-' ∨ c = '*' ∨ c = '/'

/-- What may follow a term: the end, `)`, `+` or `-`. -/
def after_term (rest : List Char) : Prop :=
  ∀ c ∈ rest.head?, c = ')' ∨ c = '+' ∨ c = '-'

/-- What may follow an expression: the end or `)`. -/
def after_expression (rest : List Char) : Prop :=
  ∀ c ∈ rest.head?, c = ')'

/-- The text `X` is read by `parse_primary` as a tree with the value of `x`. -/
def IsPrimary (X : List Char) (x : Node ℚ) : Prop :=
  ∀ rest, after_primary rest → ∃ x1, (∀ env, value env x1 = value env x) ∧
    parse_primary strtod_rat (start (X ++ rest)) = .ok (x1, start rest)

/-- The text `X` is read by `parse_factor` as a tree with the value of `x`. -/
def IsFactor (X : List Char) (x : Node ℚ) : Prop :=
  ∀ rest, after_factor rest → ∃ x1, (∀ env, value env x1 = value env x) ∧
    parse_factor strtod_rat (start (X ++ rest)) = .ok (x1, start rest)

/-- The text `X` is read by `parse_term` up to its loop, as a tree with the value of `x`. -/
def IsTerm (X : List Char) (x : Node ℚ) : Prop :=
  ∀ rest, after_factor rest → ∃ x1, (∀ env, value env x1 = value env x) ∧
    parse_term strtod_rat (start (X ++ rest)) = parse_term_loop strtod_rat x1 (start rest)

/-- The loop of `parse_term` reads `*X` and goes on with the product by `x`. -/
def IsTimes (X : List Char) (x : Node ℚ) : Prop :=
  ∀ acc rest, after_factor rest →
    ∃ acc1, (∀ env, value env acc1 = value env acc * value env x) ∧
      parse_term_loop strtod_rat acc (start ('*' :: (X ++ rest)))
        = parse_term_loop strtod_rat acc1 (start rest)

/-- The loop of `parse_term` reads `/X` and goes on with the quotient by `x`. -/
def IsDivide (X : List Char) (x : Node ℚ) : Prop :=
  ∀ acc rest, after_factor rest →
    ∃ acc1, (∀ env, value env acc1 = value env acc / value env x) ∧
      parse_term_loop strtod_rat acc (start ('/' :: (X ++ rest)))
        = parse_term_loop strtod_rat acc1 (start rest)

/-- The text `X` is read by `parse_expression` up to its loop, as a tree with the value of
`x`. -/
def IsExpression (X : List Char) (x : Node ℚ) : Prop :=
  ∀ rest, after_term rest → ∃ x1, (∀ env, value env x1 = value env x) ∧
    parse_expression strtod_rat (start (X ++ rest))
      = parse_expression_loop strtod_rat x1 (start rest)

/-- The loop of `parse_expression` reads `+X` and goes on with the sum with `x`. -/
def IsPlus (X : List Char) (x : Node ℚ) : Prop :=
  ∀ acc rest, after_term rest →
    ∃ acc1, (∀ env, value env acc1 = value env acc + value env x) ∧
      parse_expression_loop strtod_rat acc (start ('+' :: (X ++ rest)))
        = parse_expression_loop strtod_rat acc1 (start rest)

/-- The loop of `parse_expression` reads `-X` and goes on with the difference with `x`. -/
def IsMinus (X : List Char) (x : Node ℚ) : Prop :=
  ∀ acc rest, after_term rest →
    ∃ acc1, (∀ env, value env acc1 = value env acc - value env x) ∧
      parse_expression_loop strtod_rat acc (start ('-' :: (X ++ rest)))
        = parse_expression_loop strtod_rat acc1 (start rest)

/-- The rendering of `s` is read back at every level of the grammar at which the printer
writes it without parentheses. -/
def ReadsBack (s : Node ℚ) : Prop :=
  IsExpression (render print_number s) s ∧ IsPlus (render print_number s) s ∧
  (is_sum s = false → IsTerm (render print_number s) s ∧ IsTimes (render print_number s) s) ∧
  (is_atom s = true → IsPrimary (render print_number s) s)

/-- The token that the call number `n` (from 0) of `get_next_token` returns on the line. -/
def token_at (strtod : List Char → α × Nat) (line : List Char) (n : Nat) : Token α :=
  (Nat.iterate (advance strtod) (n + 1) ⟨line, TOKEN_END⟩).current_token

/-- The parser goes from the first state to the second by calls of `get_next_token`, each
made while the current token is not an error token. -/
inductive Consumes (strtod : List Char → α × Nat) : ParserState α → ParserState α → Prop where
  | refl (st : ParserState α) : Consumes strtod st st
  | step {st st1 : ParserState α} : st.current_token ≠ TOKEN_ERROR →
      Consumes strtod (advance strtod st) st1 → Consumes strtod st st1

/-- A successful result leaves a state reached by consuming tokens that are not errors. -/
def Parsed.consumes (strtod : List Char → α × Nat) (r : Parsed α) (st : ParserState α) : Prop :=
  ∀ t st1, r = .ok (t, st1) → Consumes strtod st st1

/-! ## Unfolding equations of `simplify` -/

theorem simplify_NUMBER (pow : α → α → α) (c : α) :
    simplify pow (NODE_NUMBER c) = NODE_NUMBER c := by
  simp [simplify, simplifyAux]

theorem simplify_VARIABLE (pow : α → α → α) (w : Char) :
    simplify pow (NODE_VARIABLE w : Node α) = NODE_VARIABLE w := by
  simp [simplify, simplifyAux]

theorem simplify_NODE_ADD (pow : α → α → α) (l r : Node α) :
    simplify pow (NODE_ADD l r) = simplify_ADD (simplify pow l) (simplify pow r) := by
  simp [simplify, simplifyAux]

theorem simplify_NODE_MUL (pow : α → α → α) (l r : Node α) :
    simplify pow (NODE_MUL l r) = simplify_MUL (simplify pow l) (simplify pow r) := by
  simp [simplify, simplifyAux]

theorem simplify_NODE_DIV (pow : α → α → α) (l r : Node α) :
    simplify pow (NODE_DIV l r) = simplify_DIV (simplify pow l) (simplify pow r) := by
  simp [simplify, simplifyAux]

theorem simplify_NODE_POW (pow : α → α → α) (l r : Node α) :
    simplify pow (NODE_POW l r) = simplify_POW pow (simplify pow l) (simplify pow r) := by
  simp [simplify, simplifyAux]

theorem simplify_NODE_SIN (pow : α → α → α) (f : Node α) :
    simplify pow (NODE_SIN f) = NODE_SIN (simplify pow f) := by
  simp [simplify, simplifyAux]

theorem simplify_NODE_COS (pow : α → α → α) (f : Node α) :
    simplify pow (NODE_COS f) = NODE_COS (simplify pow f) := by
  simp [simplify, simplifyAux]

theorem simplify_NODE_EXP (pow : α → α → α) (f : Node α) :
    simplify pow (NODE_EXP f) = NODE_EXP (simplify pow f) := by
  simp [simplify, simplifyAux]

theorem simplify_NODE_LN (pow : α → α → α) (f : Node α) :
    simplify pow (NODE_LN f) = NODE_LN (simplify pow f) := by
  simp [simplify, simplifyAux]

theorem simplify_NODE_SUB (pow : α → α → α) (l r : Node α) :
    simplify pow (NODE_SUB l r) =
      if is_zero (simplify pow r) then simplify pow l
      else if is_zero (simplify pow l) then
        simplify pow (NODE_MUL (NODE_NUMBER (-1)) (simplify pow r))
      else simplify_SUB_fold (simplify pow l) (simplify pow r) := by
  unfold simplify
  rw [simplifyAux]
  simp only
  split_ifs <;> rfl

/-! ## Basic facts -/

omit [LinearOrderedField α] in
theorem copy_tree_eq (t : Node α) : copy_tree t = t := by
  induction t <;> simp_all [copy_tree]

omit [LinearOrderedField α] in
theorem is_constant_eq_not_occurs (t : Node α) (v : Char) :
    is_constant t v = !occurs v t := by
  induction t <;> simp_all [is_constant, occurs]

theorem is_zero_NUMBER (c : α) : is_zero (NODE_NUMBER c) = decide (c = 0) := rfl

theorem is_one_NUMBER (c : α) : is_one (NODE_NUMBER c) = decide (c = 1) := rfl

theorem weight_simplify (pow : α → α → α) (t : Node α) :
    weight (simplify pow t) ≤ weight t :=
  (simplifyAux pow t).2

theorem simplify_graph_aux (pow : α → α → α) (n : Nat) :
    ∀ t : Node α, weight t ≤ n → Simplifies pow t (simplify pow t) := by
  induction n with
  | zero =>
      intro t ht
      have := weight_pos t
      omega
  | succ n ih =>
      intro t ht
      cases t with
      | NODE_NUMBER c => rw [simplify_NUMBER]; exact Simplifies.leaf_number c
      | NODE_VARIABLE w => rw [simplify_VARIABLE]; exact Simplifies.leaf_variable w
      | NODE_ADD l r =>
          simp only [weight] at ht
          rw [simplify_NODE_ADD]
          exact Simplifies.add (ih l (by omega)) (ih r (by omega))
      | NODE_SUB l r =>
          simp only [weight] at ht
          have hl := ih l (by omega)
          have hr := ih r (by omega)
          rw [simplify_NODE_SUB]
          by_cases h1 : is_zero (simplify pow r) = true
          · rw [if_pos h1]
            exact Simplifies.sub_zero_right hl hr h1
          · rw [if_neg h1]
            by_cases h2 : is_zero (simplify pow l) = true
            · rw [if_pos h2]
              have hw := weight_simplify pow r
              have hp := weight_pos l
              refine Simplifies.sub_zero_left hl hr (by simpa using h1) h2 (ih _ ?_)
              simp only [weight]
              omega
            · rw [if_neg h2]
              exact Simplifies.sub_fold hl hr (by simpa using h1) (by simpa using h2)
      | NODE_MUL l r =>
          simp only [weight] at ht
          rw [simplify_NODE_MUL]
          exact Simplifies.mul (ih l (by omega)) (ih r (by omega))
      | NODE_DIV l r =>
          simp only [weight] at ht
          rw [simplify_NODE_DIV]
          exact Simplifies.div (ih l (by omega)) (ih r (by omega))
      | NODE_POW l r =>
          simp only [weight] at ht
          rw [simplify_NODE_POW]
          exact Simplifies.pow (ih l (by omega)) (ih r (by omega))
      | NODE_SIN f =>
          simp only [weight] at ht
          rw [simplify_NODE_SIN]
          exact Simplifies.sin (ih f (by omega))
      | NODE_COS f =>
          simp only [weight] at ht
          rw [simplify_NODE_COS]
          exact Simplifies.cos (ih f (by omega))
      | NODE_EXP f =>
          simp only [weight] at ht
          rw [simplify_NODE_EXP]
          exact Simplifies.exp (ih f (by omega))
      | NODE_LN f =>
          simp only [weight] at ht
          rw [simplify_NODE_LN]
          exact Simplifies.ln (ih f (by omega))

/-- Every tree is related to its simplification by the graph `Simplifies`. -/
theorem simplify_graph (pow : α → α → α) (t : Node α) :
    Simplifies pow t (simplify pow t) :=
  simplify_graph_aux pow (weight t) t (le_refl _)

/-- The result of `simplify` is a fixed point of `simplify`. -/
theorem simplify_fixed_of_graph (pow : α → α → α) {t t1 : Node α}
    (h : Simplifies pow t t1) : simplify pow t1 = t1 := by
  induction h with
  | leaf_number c => exact simplify_NUMBER pow c
  | leaf_variable w => exact simplify_VARIABLE pow w
  | @add l r l1 r1 _ _ ihl ihr =>
      unfold simplify_ADD
      split_ifs with h1 h2
      · exact ihr
      · exact ihl
      · split
        · exact simplify_NUMBER pow _
        · rename_i hn
          rw [simplify_NODE_ADD, ihl, ihr]
          unfold simplify_ADD
          rw [if_neg h1, if_neg h2]
          split
          · exact absurd rfl (hn _ _ rfl)
          · rfl
  | sub_zero_right _ _ _ ihl _ => exact ihl
  | sub_zero_left _ _ _ _ _ _ _ ihm => exact ihm
  | @sub_fold l r l1 r1 _ _ h1 h2 ihl ihr =>
      unfold simplify_SUB_fold
      split
      · exact simplify_NUMBER pow _
      · rename_i hn
        rw [simplify_NODE_SUB, ihl, ihr, h1, h2]
        simp only [Bool.false_eq_true, if_false]
        unfold simplify_SUB_fold
        split
        · exact absurd rfl (hn _ _ rfl)
        · rfl
  | @mul l r l1 r1 _ _ ihl ihr =>
      unfold simplify_MUL
      split_ifs with h1 h2 h3
      · exact simplify_NUMBER pow _
      · exact ihr
      · exact ihl
      · split
        · exact simplify_NUMBER pow _
        · rename_i hn
          rw [simplify_NODE_MUL, ihl, ihr]
          unfold simplify_MUL
          rw [if_neg h1, if_neg h2, if_neg h3]
          split
          · exact absurd rfl (hn _ _ rfl)
          · rfl
  | @div l r l1 r1 _ _ ihl ihr =>
      unfold simplify_DIV
      split_ifs with h1 h2
      · exact simplify_NUMBER pow _
      · exact ihl
      · split
        · rename_i a b
          split_ifs with hb
          · exact simplify_NUMBER pow _
          · rw [simplify_NODE_DIV, simplify_NUMBER, simplify_NUMBER]
            unfold simplify_DIV
            rw [if_neg h1, if_neg h2]
            simp only [hb, if_false]
        · rename_i hn
          rw [simplify_NODE_DIV, ihl, ihr]
          unfold simplify_DIV
          rw [if_neg h1, if_neg h2]
          split
          · exact absurd rfl (hn _ _ rfl)
          · rfl
  | @pow l r l1 r1 _ _ ihl ihr =>
      unfold simplify_POW
      split_ifs with h1 h2 h3 h4
      · exact simplify_NUMBER pow _
      · exact ihl
      · exact simplify_NUMBER pow _
      · exact simplify_NUMBER pow _
      · split
        · exact simplify_NUMBER pow _
        · rename_i hn
          rw [simplify_NODE_POW, ihl, ihr]
          unfold simplify_POW
          rw [if_neg h1, if_neg h2, if_neg h3, if_neg h4]
          split
          · exact absurd rfl (hn _ _ rfl)
          · rfl
  | sin _ ih => rw [simplify_NODE_SIN, ih]
  | cos _ ih => rw [simplify_NODE_COS, ih]
  | exp _ ih => rw [simplify_NODE_EXP, ih]
  | ln _ ih => rw [simplify_NODE_LN, ih]

/-- Simplifying an already simplified tree changes nothing. -/
theorem simplify_simplify (pow : α → α → α) (t : Node α) :
    simplify pow (simplify pow t) = simplify pow t :=
  simplify_fixed_of_graph pow (simplify_graph pow t)

/-! ## The differentiation rules -/

/-- C2: the derivative of a number is `Number(0)`; the derivative of the variable `w` with
respect to `v` is `Number(1)` when `w = v` and `Number(0)` otherwise. -/
theorem differentiate_leaf (c : α) (w v : Char) :
    differentiate (NODE_NUMBER c) v = NODE_NUMBER 0 ∧
    differentiate (NODE_VARIABLE w : Node α) v
      = if w = v then NODE_NUMBER 1 else NODE_NUMBER 0 :=
  ⟨rfl, rfl⟩

/-- C3: `differentiate` maps `Add(f, g)` to the tree `Add(f', g')` and `Sub(f, g)` to the
tree `Sub(f', g')`, where `f'` and `g'` are the derivatives of `f` and `g`; nothing is
simplified. -/
theorem differentiate_linear (f g : Node α) (v : Char) :
    differentiate (NODE_ADD f g) v = NODE_ADD (differentiate f v) (differentiate g v) ∧
    differentiate (NODE_SUB f g) v = NODE_SUB (differentiate f v) (differentiate g v) :=
  ⟨rfl, rfl⟩

/-- C4: the product, quotient, sine, cosine, exponential and logarithm rules of
`differentiate`, as trees; the operands `f` and `g` a rule reuses appear in the result as
`copy_tree f` and `copy_tree g`, which are structurally equal to `f` and `g`. -/
theorem differentiate_rules (f g : Node α) (v : Char) :
    differentiate (NODE_MUL f g) v
      = NODE_ADD (NODE_MUL (differentiate f v) g) (NODE_MUL f (differentiate g v)) ∧
    differentiate (NODE_DIV f g) v
      = NODE_DIV (NODE_SUB (NODE_MUL (differentiate f v) g) (NODE_MUL f (differentiate g v)))
          (NODE_POW g (NODE_NUMBER 2)) ∧
    differentiate (NODE_SIN f) v = NODE_MUL (NODE_COS f) (differentiate f v) ∧
    differentiate (NODE_COS f) v
      = NODE_MUL (NODE_MUL (NODE_NUMBER (-1)) (NODE_SIN f)) (differentiate f v) ∧
    differentiate (NODE_EXP f) v = NODE_MUL (NODE_EXP f) (differentiate f v) ∧
    differentiate (NODE_LN f) v = NODE_DIV (differentiate f v) f ∧
    copy_tree f = f ∧ copy_tree g = g := by
  simp [differentiate, copy_tree_eq]

/-- C5: `differentiate` applies the constant-exponent rule `g * f^(g-1) * f'` to `Pow(f, g)`
exactly when `v` does not occur in `g` (the test `is_constant g v` is the negation of
`occurs v g`), and the general rule `f^g * (g' * ln f + g * (f' / f))` otherwise. -/
theorem differentiate_pow (f g : Node α) (v : Char) :
    is_constant g v = !occurs v g ∧
    differentiate (NODE_POW f g) v =
      if occurs v g = false then
        NODE_MUL (NODE_MUL g (NODE_POW f (NODE_SUB g (NODE_NUMBER 1)))) (differentiate f v)
      else
        NODE_MUL (NODE_POW f g)
          (NODE_ADD (NODE_MUL (differentiate g v) (NODE_LN f))
            (NODE_MUL g (NODE_DIV (differentiate f v) f))) := by
  refine ⟨is_constant_eq_not_occurs g v, ?_⟩
  cases h : occurs v g <;> simp [differentiate, copy_tree_eq, is_constant_eq_not_occurs, h]

/-! ## The rewrite rules at one node -/

theorem simplify_ADD_zero_left (x : Node α) : simplify_ADD (NODE_NUMBER 0) x = x := by
  simp [simplify_ADD, is_zero]

theorem simplify_ADD_zero_right (x : Node α) : simplify_ADD x (NODE_NUMBER 0) = x := by
  cases x <;> simp [simplify_ADD, is_zero]
  intro h; exact h.symm

theorem simplify_MUL_one_left (x : Node α) : simplify_MUL (NODE_NUMBER 1) x = x := by
  cases x <;> simp [simplify_MUL, is_zero, is_one]
  intro h; exact h.symm

theorem simplify_MUL_one_right (x : Node α) : simplify_MUL x (NODE_NUMBER 1) = x := by
  cases x <;> simp [simplify_MUL, is_zero, is_one]
  split_ifs <;> simp_all

theorem simplify_DIV_one_right (x : Node α) : simplify_DIV x (NODE_NUMBER 1) = x := by
  cases x <;> simp [simplify_DIV, is_zero, is_one]
  intro h; exact h.symm

theorem simplify_POW_one_right (pow : α → α → α) (x : Node α) :
    simplify_POW pow x (NODE_NUMBER 1) = x := by
  simp [simplify_POW, is_zero, is_one]

theorem simplify_MUL_zero_left (x : Node α) : simplify_MUL (NODE_NUMBER 0) x = NODE_NUMBER 0 := by
  simp [simplify_MUL, is_zero]

theorem simplify_MUL_zero_right (x : Node α) : simplify_MUL x (NODE_NUMBER 0) = NODE_NUMBER 0 := by
  simp [simplify_MUL, is_zero]

theorem simplify_POW_zero_right (pow : α → α → α) (x : Node α) :
    simplify_POW pow x (NODE_NUMBER 0) = NODE_NUMBER 1 := by
  simp [simplify_POW, is_zero]

theorem simplify_POW_one_left (pow : α → α → α) (x : Node α) :
    simplify_POW pow (NODE_NUMBER 1) x = NODE_NUMBER 1 := by
  unfold simplify_POW
  split_ifs <;> simp_all [is_zero, is_one]

theorem simplify_DIV_zero_left (x : Node α) : simplify_DIV (NODE_NUMBER 0) x = NODE_NUMBER 0 := by
  simp [simplify_DIV, is_zero]

/-! ## Identity and annihilation rules of `simplify` -/

/-- C6: for every tree `x`, simplifying `0+x`, `x+0`, `x-0`, `1*x`, `x*1`, `x/1` or `x^1`
gives `simplify x`; hence it gives `x` itself when `x` is already simplified. -/
theorem simplify_identities (pow : α → α → α) (x : Node α) :
    (simplify pow (NODE_ADD (NODE_NUMBER 0) x) = simplify pow x ∧
     simplify pow (NODE_ADD x (NODE_NUMBER 0)) = simplify pow x ∧
     simplify pow (NODE_SUB x (NODE_NUMBER 0)) = simplify pow x ∧
     simplify pow (NODE_MUL (NODE_NUMBER 1) x) = simplify pow x ∧
     simplify pow (NODE_MUL x (NODE_NUMBER 1)) = simplify pow x ∧
     simplify pow (NODE_DIV x (NODE_NUMBER 1)) = simplify pow x ∧
     simplify pow (NODE_POW x (NODE_NUMBER 1)) = simplify pow x) ∧
    (simplify pow x = x →
      simplify pow (NODE_ADD (NODE_NUMBER 0) x) = x ∧
      simplify pow (NODE_ADD x (NODE_NUMBER 0)) = x ∧
      simplify pow (NODE_SUB x (NODE_NUMBER 0)) = x ∧
      simplify pow (NODE_MUL (NODE_NUMBER 1) x) = x ∧
      simplify pow (NODE_MUL x (NODE_NUMBER 1)) = x ∧
      simplify pow (NODE_DIV x (NODE_NUMBER 1)) = x ∧
      simplify pow (NODE_POW x (NODE_NUMBER 1)) = x) := by
  have key :
      simplify pow (NODE_ADD (NODE_NUMBER 0) x) = simplify pow x ∧
      simplify pow (NODE_ADD x (NODE_NUMBER 0)) = simplify pow x ∧
      simplify pow (NODE_SUB x (NODE_NUMBER 0)) = simplify pow x ∧
      simplify pow (NODE_MUL (NODE_NUMBER 1) x) = simplify pow x ∧
      simplify pow (NODE_MUL x (NODE_NUMBER 1)) = simplify pow x ∧
      simplify pow (NODE_DIV x (NODE_NUMBER 1)) = simplify pow x ∧
      simplify pow (NODE_POW x (NODE_NUMBER 1)) = simplify pow x := by
    refine ⟨?_, ?_, ?_, ?_, ?_, ?_, ?_⟩
    · rw [simplify_NODE_ADD, simplify_NUMBER, simplify_ADD_zero_left]
    · rw [simplify_NODE_ADD, simplify_NUMBER, simplify_ADD_zero_right]
    · rw [simplify_NODE_SUB, simplify_NUMBER]; simp [is_zero]
    · rw [simplify_NODE_MUL, simplify_NUMBER, simplify_MUL_one_left]
    · rw [simplify_NODE_MUL, simplify_NUMBER, simplify_MUL_one_right]
    · rw [simplify_NODE_DIV, simplify_NUMBER, simplify_DIV_one_right]
    · rw [simplify_NODE_POW, simplify_NUMBER, simplify_POW_one_right]
  refine ⟨key, fun hx => ?_⟩
  rw [hx] at key
  exact key

/-- C7: for every tree `x`, simplifying `x*0` or `0*x` gives `Number(0)`, and simplifying
`x^0` or `1^x` gives `Number(1)`. -/
theorem simplify_annihilators (pow : α → α → α) (x : Node α) :
    simplify pow (NODE_MUL x (NODE_NUMBER 0)) = NODE_NUMBER 0 ∧
    simplify pow (NODE_MUL (NODE_NUMBER 0) x) = NODE_NUMBER 0 ∧
    simplify pow (NODE_POW x (NODE_NUMBER 0)) = NODE_NUMBER 1 ∧
    simplify pow (NODE_POW (NODE_NUMBER 1) x) = NODE_NUMBER 1 := by
  refine ⟨?_, ?_, ?_, ?_⟩
  · rw [simplify_NODE_MUL, simplify_NUMBER, simplify_MUL_zero_right]
  · rw [simplify_NODE_MUL, simplify_NUMBER, simplify_MUL_zero_left]
  · rw [simplify_NODE_POW, simplify_NUMBER, simplify_POW_zero_right]
  · rw [simplify_NODE_POW, simplify_NUMBER, simplify_POW_one_left]

/-- C9: `simplify` turns `Pow(Number(0), Number(0))` into `Number(1)` and, for every tree
`x`, turns `Div(Number(0), x)` into `Number(0)`; so `Div(Number(0), Number(0))` becomes
`Number(0)`. -/
theorem simplify_indeterminate_forms (pow : α → α → α) (x : Node α) :
    simplify pow (NODE_POW (NODE_NUMBER 0) (NODE_NUMBER 0)) = NODE_NUMBER 1 ∧
    simplify pow (NODE_DIV (NODE_NUMBER 0) x) = NODE_NUMBER 0 ∧
    simplify pow (NODE_DIV (NODE_NUMBER 0) (NODE_NUMBER 0)) = NODE_NUMBER 0 := by
  refine ⟨?_, ?_, ?_⟩
  · rw [simplify_NODE_POW, simplify_NUMBER, simplify_POW_zero_right]
  · rw [simplify_NODE_DIV, simplify_NUMBER, simplify_DIV_zero_left]
  · rw [simplify_NODE_DIV, simplify_NUMBER, simplify_DIV_zero_left]

/-! ## Constant folding -/

theorem simplify_DIV_numbers (a b : α) :
    simplify_DIV (NODE_NUMBER a) (NODE_NUMBER b) =
      if b ≠ 0 then NODE_NUMBER (a / b)
      else if a = 0 then NODE_NUMBER 0
      else NODE_DIV (NODE_NUMBER a) (NODE_NUMBER b) := by
  unfold simplify_DIV
  by_cases ha : a = 0
  · by_cases hb : b = 0 <;> simp [is_zero, ha, hb]
  · by_cases hb : b = 0
    · simp [is_zero, is_one, ha, hb]
    · by_cases hb1 : b = 1 <;> simp [is_zero, is_one, ha, hb, hb1]

/-- C8, as the code has it: two number leaves under `+`, `-`, `*` fold to the number `a+b`,
`a-b`, `a*b`.  `Div(Number(a), Number(b))` becomes a single number exactly when `b ≠ 0` or
`a = 0`: `Number(a/b)` when `b ≠ 0`, `Number(0)` when `a = 0` and `b = 0` (the rule `0/x`
comes first and does not look at the divisor), and it is left unfolded when `b = 0` and
`a ≠ 0`. -/
theorem simplify_fold_numbers (pow : α → α → α) (a b : α) :
    simplify pow (NODE_ADD (NODE_NUMBER a) (NODE_NUMBER b)) = NODE_NUMBER (a + b) ∧
    simplify pow (NODE_SUB (NODE_NUMBER a) (NODE_NUMBER b)) = NODE_NUMBER (a - b) ∧
    simplify pow (NODE_MUL (NODE_NUMBER a) (NODE_NUMBER b)) = NODE_NUMBER (a * b) ∧
    simplify pow (NODE_DIV (NODE_NUMBER a) (NODE_NUMBER b)) =
      (if b ≠ 0 then NODE_NUMBER (a / b)
       else if a = 0 then NODE_NUMBER 0
       else NODE_DIV (NODE_NUMBER a) (NODE_NUMBER b)) ∧
    ((∃ c, simplify pow (NODE_DIV (NODE_NUMBER a) (NODE_NUMBER b)) = NODE_NUMBER c)
      ↔ (b ≠ 0 ∨ a = 0)) := by
  have hdiv := simplify_DIV_numbers a b
  refine ⟨?_, ?_, ?_, ?_, ?_⟩
  · rw [simplify_NODE_ADD, simplify_NUMBER, simplify_NUMBER]
    unfold simplify_ADD
    by_cases ha : a = 0
    · simp [is_zero, ha]
    · by_cases hb : b = 0 <;> simp [is_zero, ha, hb]
  · simp only [simplify_NODE_SUB, simplify_NODE_MUL, simplify_NUMBER]
    by_cases hb : b = 0
    · simp [is_zero_NUMBER, hb]
    · by_cases ha : a = 0
      · have h1 : (-1 : α) ≠ 1 := by norm_num
        by_cases hb1 : b = 1
        · simp [is_zero_NUMBER, is_one_NUMBER, simplify_MUL, ha, hb1, h1]
        · simp [is_zero_NUMBER, is_one_NUMBER, simplify_MUL, ha, hb, hb1, h1]
      · simp [is_zero_NUMBER, simplify_SUB_fold, ha, hb]
  · rw [simplify_NODE_MUL, simplify_NUMBER, simplify_NUMBER]
    unfold simplify_MUL
    by_cases ha : a = 0
    · simp [is_zero, ha]
    · by_cases hb : b = 0
      · simp [is_zero, hb]
      · by_cases ha1 : a = 1
        · simp [is_zero, is_one, ha1, hb]
        · by_cases hb1 : b = 1 <;> simp [is_zero, is_one, ha, hb, ha1, hb1]
  · rw [simplify_NODE_DIV, simplify_NUMBER, simplify_NUMBER, hdiv]
  · rw [simplify_NODE_DIV, simplify_NUMBER, simplify_NUMBER, hdiv]
    by_cases hb : b = 0
    · by_cases ha : a = 0 <;> simp [ha, hb]
    · simp [hb]

/-- C8, as stated, fails at `a = 0`, `b = 0`: `Div(Number(0), Number(0))` is simplified to
the single number `Number(0)` although the divisor is zero. -/
theorem simplify_fold_div_zero_zero :
    ¬ ((∃ c : ℚ, simplify pow_rat (NODE_DIV (NODE_NUMBER 0) (NODE_NUMBER 0)) = NODE_NUMBER c)
        ↔ (0 : ℚ) ≠ 0) := by
  rw [simplify_NODE_DIV, simplify_NUMBER, simplify_DIV_zero_left]
  simp

/-! ## The rule `0 - x` -/

/-- C10: for every tree `x`, `simplify` gives the same result on `Sub(Number(0), x)` and on
`Mul(Number(-1), x)`: `Number(0)` when `simplify x` is the number 0, `Number(-c)` when
`simplify x` is a number `c ≠ 0`, and `Mul(Number(-1), simplify x)` when `simplify x` is not
a number. -/
theorem simplify_zero_sub (pow : α → α → α) (x : Node α) :
    simplify pow (NODE_SUB (NODE_NUMBER 0) x) = simplify pow (NODE_MUL (NODE_NUMBER (-1)) x) ∧
    (simplify pow x = NODE_NUMBER 0 →
      simplify pow (NODE_SUB (NODE_NUMBER 0) x) = NODE_NUMBER 0) ∧
    (∀ c : α, simplify pow x = NODE_NUMBER c → c ≠ 0 →
      simplify pow (NODE_SUB (NODE_NUMBER 0) x) = NODE_NUMBER (-c)) ∧
    ((∀ c : α, simplify pow x ≠ NODE_NUMBER c) →
      simplify pow (NODE_SUB (NODE_NUMBER 0) x)
        = NODE_MUL (NODE_NUMBER (-1)) (simplify pow x)) := by
  have h1 : (-1 : α) ≠ 1 := by norm_num
  have hsub : simplify pow (NODE_SUB (NODE_NUMBER 0) x)
      = simplify_MUL (NODE_NUMBER (-1)) (simplify pow x) := by
    simp only [simplify_NODE_SUB, simplify_NODE_MUL, simplify_NUMBER, simplify_simplify]
    by_cases hz : is_zero (simplify pow x) = true
    · simp [hz, simplify_MUL]
    · simp [hz, is_zero_NUMBER]
  refine ⟨?_, ?_, ?_, ?_⟩
  · rw [hsub, simplify_NODE_MUL, simplify_NUMBER]
  · intro hx
    rw [hsub, hx, simplify_MUL_zero_right]
  · intro c hx hc
    rw [hsub, hx]
    unfold simplify_MUL
    by_cases hc1 : c = 1
    · simp [is_zero, is_one, hc1, h1]
    · simp [is_zero, is_one, hc, hc1, h1]
  · intro hx
    rw [hsub]
    unfold simplify_MUL
    cases hs : simplify pow x with
    | NODE_NUMBER c => exact absurd hs (hx c)
    | _ => simp [is_zero, is_one, h1]

/-- C10 on concrete inputs: `0 - 0`, `0 - 3` and `0 - y`. -/
theorem simplify_zero_sub_witness :
    simplify pow_rat (NODE_SUB (NODE_NUMBER 0) (NODE_NUMBER 0)) = NODE_NUMBER 0 ∧
    simplify pow_rat (NODE_SUB (NODE_NUMBER 0) (NODE_NUMBER 3)) = NODE_NUMBER (-3) ∧
    simplify pow_rat (NODE_SUB (NODE_NUMBER 0) (NODE_VARIABLE 'y'))
      = NODE_MUL (NODE_NUMBER (-1)) (simplify pow_rat (NODE_VARIABLE 'y')) :=
  ⟨(simplify_zero_sub pow_rat (NODE_NUMBER 0)).2.1 (simplify_NUMBER pow_rat 0),
   (simplify_zero_sub pow_rat (NODE_NUMBER 3)).2.2.1 3 (simplify_NUMBER pow_rat 3)
     (by norm_num),
   (simplify_zero_sub pow_rat (NODE_VARIABLE 'y')).2.2.2
     (by intro c; rw [simplify_VARIABLE]; exact Node.noConfusion)⟩

/-! ## The value of a simplified tree -/

theorem irreducible_simplify_ADD (l r : Node α) (hl : irreducible l) (hr : irreducible r) :
    irreducible (simplify_ADD l r) := by
  unfold simplify_ADD
  split_ifs with h1 h2
  · exact hr
  · exact hl
  · split
    · trivial
    · rename_i hn
      refine ⟨hl, hr, by simpa using h1, by simpa using h2, ?_⟩
      cases l <;> cases r <;> simp [is_number] at hn ⊢

theorem irreducible_simplify_SUB_fold (l r : Node α) (hl : irreducible l) (hr : irreducible r)
    (h1 : is_zero r = false) (h2 : is_zero l = false) :
    irreducible (simplify_SUB_fold l r) := by
  unfold simplify_SUB_fold
  split
  · trivial
  · rename_i hn
    refine ⟨hl, hr, h1, h2, ?_⟩
    cases l <;> cases r <;> simp [is_number] at hn ⊢

theorem irreducible_simplify_MUL (l r : Node α) (hl : irreducible l) (hr : irreducible r) :
    irreducible (simplify_MUL l r) := by
  unfold simplify_MUL
  split_ifs with h1 h2 h3
  · trivial
  · exact hr
  · exact hl
  · split
    · trivial
    · rename_i hn
      simp only [Bool.or_eq_true, not_or, Bool.not_eq_true] at h1
      refine ⟨hl, hr, h1.1, h1.2, by simpa using h2, by simpa using h3, ?_⟩
      cases l <;> cases r <;> simp [is_number] at hn ⊢

theorem irreducible_simplify_DIV (l r : Node α) (hl : irreducible l) (hr : irreducible r) :
    irreducible (simplify_DIV l r) := by
  unfold simplify_DIV
  split_ifs with h1 h2
  · trivial
  · exact hl
  · split
    · rename_i a b
      split_ifs with hb
      · trivial
      · refine ⟨hl, hr, by simpa using h1, by simpa using h2, ?_⟩
        simp only [ne_eq, not_not] at hb
        simp [is_number, is_zero, hb]
    · rename_i hn
      refine ⟨hl, hr, by simpa using h1, by simpa using h2, ?_⟩
      cases l <;> cases r <;> simp [is_number] at hn ⊢

theorem irreducible_simplify_POW (pow : α → α → α) (l r : Node α) (hl : irreducible l)
    (hr : irreducible r) : irreducible (simplify_POW pow l r) := by
  unfold simplify_POW
  split_ifs with h1 h2 h3 h4
  · trivial
  · exact hl
  · trivial
  · trivial
  · split
    · trivial
    · rename_i hn
      have h1' : is_zero r = false := by simpa using h1
      refine ⟨hl, hr, h1', by simpa using h2, ?_, by simpa using h4, ?_⟩
      · simpa [h1'] using h3
      · cases l <;> cases r <;> simp [is_number] at hn ⊢

/-- Every result of `simplify` is irreducible. -/
theorem irreducible_of_graph (pow : α → α → α) {t t1 : Node α} (h : Simplifies pow t t1) :
    irreducible t1 := by
  induction h with
  | leaf_number c => trivial
  | leaf_variable w => trivial
  | add _ _ ihl ihr => exact irreducible_simplify_ADD _ _ ihl ihr
  | sub_zero_right _ _ _ ihl _ => exact ihl
  | sub_zero_left _ _ _ _ _ _ _ ihm => exact ihm
  | sub_fold _ _ h1 h2 ihl ihr => exact irreducible_simplify_SUB_fold _ _ ihl ihr h1 h2
  | mul _ _ ihl ihr => exact irreducible_simplify_MUL _ _ ihl ihr
  | div _ _ ihl ihr => exact irreducible_simplify_DIV _ _ ihl ihr
  | pow _ _ ihl ihr => exact irreducible_simplify_POW pow _ _ ihl ihr
  | sin _ ih => exact ih
  | cos _ ih => exact ih
  | exp _ ih => exact ih
  | ln _ ih => exact ih

/-- An irreducible tree is returned unchanged by `simplify`. -/
theorem simplify_eq_self_of_irreducible (pow : α → α → α) (t : Node α) (h : irreducible t) :
    simplify pow t = t := by
  induction t with
  | NODE_NUMBER c => exact simplify_NUMBER pow c
  | NODE_VARIABLE w => exact simplify_VARIABLE pow w
  | NODE_ADD l r ihl ihr =>
      obtain ⟨hl, hr, h1, h2, h3⟩ := h
      rw [simplify_NODE_ADD, ihl hl, ihr hr]
      unfold simplify_ADD
      cases l <;> cases r <;> simp_all [is_number]
  | NODE_SUB l r ihl ihr =>
      obtain ⟨hl, hr, h1, h2, h3⟩ := h
      rw [simplify_NODE_SUB, ihl hl, ihr hr]
      unfold simplify_SUB_fold
      cases l <;> cases r <;> simp_all [is_number]
  | NODE_MUL l r ihl ihr =>
      obtain ⟨hl, hr, h1, h2, h3, h4, h5⟩ := h
      rw [simplify_NODE_MUL, ihl hl, ihr hr]
      unfold simplify_MUL
      cases l <;> cases r <;> simp_all [is_number]
  | NODE_DIV l r ihl ihr =>
      obtain ⟨hl, hr, h1, h2, h3⟩ := h
      rw [simplify_NODE_DIV, ihl hl, ihr hr]
      unfold simplify_DIV
      cases l <;> cases r <;> simp_all [is_number, is_zero]
  | NODE_POW l r ihl ihr =>
      obtain ⟨hl, hr, h1, h2, h3, h4, h5⟩ := h
      rw [simplify_NODE_POW, ihl hl, ihr hr]
      unfold simplify_POW
      cases l <;> cases r <;> simp_all [is_number]
  | NODE_SIN f ih => rw [simplify_NODE_SIN, ih h]
  | NODE_COS f ih => rw [simplify_NODE_COS, ih h]
  | NODE_EXP f ih => rw [simplify_NODE_EXP, ih h]
  | NODE_LN f ih => rw [simplify_NODE_LN, ih h]

/-- The graph `Simplifies` is functional: its only result on `t` is `simplify t`. -/
theorem simplify_of_graph (pow : α → α → α) {t t1 : Node α} (h : Simplifies pow t t1) :
    t1 = simplify pow t := by
  induction h with
  | leaf_number c => rw [simplify_NUMBER]
  | leaf_variable w => rw [simplify_VARIABLE]
  | add _ _ ihl ihr => rw [simplify_NODE_ADD, ← ihl, ← ihr]
  | sub_zero_right _ _ hz ihl ihr => rw [simplify_NODE_SUB, ← ihl, ← ihr, if_pos hz]
  | sub_zero_left _ _ h1 h2 _ ihl ihr ihm =>
      rw [simplify_NODE_SUB, ← ihl, ← ihr, h1, h2]
      simpa using ihm
  | sub_fold _ _ h1 h2 ihl ihr =>
      rw [simplify_NODE_SUB, ← ihl, ← ihr, h1, h2]
      simp
  | mul _ _ ihl ihr => rw [simplify_NODE_MUL, ← ihl, ← ihr]
  | div _ _ ihl ihr => rw [simplify_NODE_DIV, ← ihl, ← ihr]
  | pow _ _ ihl ihr => rw [simplify_NODE_POW, ← ihl, ← ihr]
  | sin _ ih => rw [simplify_NODE_SIN, ← ih]
  | cos _ ih => rw [simplify_NODE_COS, ← ih]
  | exp _ ih => rw [simplify_NODE_EXP, ← ih]
  | ln _ ih => rw [simplify_NODE_LN, ← ih]

/-- C19: `simplify` is idempotent, its result is irreducible (no rewrite rule applies at any
node), and the two say the same: the trees `simplify` leaves unchanged are exactly the
irreducible ones. -/
theorem simplify_idempotent (pow : α → α → α) (t : Node α) :
    simplify pow (simplify pow t) = simplify pow t ∧
    irreducible (simplify pow t) ∧
    (∀ s : Node α, simplify pow s = s ↔ irreducible s) := by
  refine ⟨simplify_simplify pow t, irreducible_of_graph pow (simplify_graph pow t), ?_⟩
  intro s
  constructor
  · intro hs
    have := irreducible_of_graph pow (simplify_graph pow s)
    rwa [hs] at this
  · exact simplify_eq_self_of_irreducible pow s

/-- C20: `simplify` terminates on every tree.  `Simplifies` has one rule per path through the
body of `simplify`, its premises being the recursive calls, so a derivation is a finite run;
every tree has one, it ends in `simplify t`, and no run ends otherwise.  The recursion is
well-founded for `weight`: the result never weighs more than the argument, and the tree
`Mul(Number(-1), x)` that the rule `0 - x` builds and passes to `simplify` again weighs less
than the `Sub` node under simplification. -/
theorem simplify_terminates (pow : α → α → α) (t : Node α) :
    Simplifies pow t (simplify pow t) ∧
    (∀ t2 : Node α, Simplifies pow t t2 → t2 = simplify pow t) ∧
    weight (simplify pow t) ≤ weight t ∧
    (∀ l r : Node α,
      weight (NODE_MUL (NODE_NUMBER (-1)) (simplify pow r)) < weight (NODE_SUB l r)) := by
  refine ⟨simplify_graph pow t, fun t2 h => simplify_of_graph pow h, weight_simplify pow t, ?_⟩
  intro l r
  have hr := weight_simplify pow r
  have hl := weight_pos l
  simp only [weight]
  omega

/-! ## The record-level `simplify` and `is_constant` -/

namespace NodePtr

theorem simplify_NULL (pow : α → α → α) : simplify pow (NULL : NodePtr α) = some NULL := by
  simp [simplify, simplifyAux]

theorem simplify_node (pow : α → α → α) (ty : NodeType) (v : α) (c : Char) (l r : NodePtr α) :
    simplify pow (node ty v c l r) =
      (simplify pow l).bind fun l1 => (simplify pow r).bind fun r1 =>
        match simplify_switch pow ty v c l1 r1 with
        | some (.done x) => some x
        | some (.again y) => simplify pow y
        | none => none := by
  unfold simplify
  rw [simplifyAux]
  rcases h1 : simplifyAux pow l with ⟨_ | l1, hl⟩
  · simp
  · rcases h2 : simplifyAux pow r with ⟨_ | r1, hr⟩
    · simp
    · simp only [Option.some_bind]
      split <;> rename_i hs <;> simp [hs]

theorem simplify_leaf (pow : α → α → α) (ty : NodeType) (v : α) (c : Char)
    (h : ty = .NODE_NUMBER ∨ ty = .NODE_VARIABLE) :
    simplify pow (node ty v c NULL NULL) = some (node ty v c NULL NULL) := by
  rw [simplify_node, simplify_NULL]
  rcases h with h | h <;> subst h <;> simp [simplify_switch]

/-- C11, the code at the derivative of `ln(y)` with respect to `x`: the well-formed tree
`Div(Number(0), Variable(y))` is rewritten by the rule `0/x` into a record of type
`NODE_NUMBER` and value `0` that still has its left child, so the result is not
well-formed. -/
theorem simplify_div_zero_keeps_left_child :
    well_formed (create_binary .NODE_DIV (create_number (0 : ℚ)) (create_variable 'y')) ∧
    simplify pow_rat (create_binary .NODE_DIV (create_number 0) (create_variable 'y'))
      = some (node .NODE_NUMBER 0 (Char.ofNat 0) (create_number 0) NULL) ∧
    ¬ well_formed (node .NODE_NUMBER (0 : ℚ) (Char.ofNat 0) (create_number 0) NULL) := by
  refine ⟨?_, ?_, ?_⟩
  · simp [well_formed, create_binary, create_number, create_variable]
  · simp only [create_binary, create_number, create_variable]
    rw [simplify_node, simplify_leaf _ _ _ _ (Or.inl rfl), simplify_leaf _ _ _ _ (Or.inr rfl)]
    simp [simplify_switch, is_zero]
  · simp [well_formed, create_number]

theorem is_constant_iff_of_well_formed (t : NodePtr α) (v : Char) (h : well_formed t) :
    is_constant t v = true ↔ occurs v t = false := by
  induction t with
  | NULL => exact absurd h (by simp [well_formed])
  | node ty x c l r ihl ihr =>
      cases ty <;> simp only [well_formed] at h <;>
        simp_all [is_constant, occurs]

/-- C18: on a well-formed tree `is_constant t v` is true exactly when no variable node named
`v` occurs in `t`; on the absent subtree `NULL` it is true. -/
theorem is_constant_correct (t : NodePtr α) (v : Char) (h : well_formed t) :
    (is_constant t v = true ↔ occurs v t = false) ∧
    is_constant (NULL : NodePtr α) v = true :=
  ⟨is_constant_iff_of_well_formed t v h, rfl⟩

/-- C18 on `sin(x) * y`, with respect to `x` and to `z`. -/
theorem is_constant_correct_witness :
    is_constant (create_binary .NODE_MUL (create_unary .NODE_SIN (create_variable 'x'))
        (create_variable 'y') : NodePtr ℚ) 'x' = false ∧
    is_constant (create_binary .NODE_MUL (create_unary .NODE_SIN (create_variable 'x'))
        (create_variable 'y') : NodePtr ℚ) 'z' = true :=
  have hwf : well_formed (create_binary .NODE_MUL (create_unary .NODE_SIN (create_variable 'x'))
      (create_variable 'y') : NodePtr ℚ) := by
    simp [well_formed, create_binary, create_unary, create_variable]
  ⟨by
    have h := (is_constant_correct _ 'x' hwf).1
    simpa [occurs, create_binary, create_unary, create_variable] using h,
   by
    have h := (is_constant_correct _ 'z' hwf).1
    simpa [occurs, create_binary, create_unary, create_variable] using h⟩

/-! ### The record-level `simplify` computes the tree-level `simplify` -/

theorem complete_of_well_formed (p : NodePtr α) (h : well_formed p) : complete p ∧ p ≠ NULL := by
  induction p with
  | NULL => exact absurd h (by simp [well_formed])
  | node ty v c l r ihl ihr =>
      refine ⟨?_, by simp⟩
      cases ty <;> simp only [well_formed] at h <;> simp_all [complete]

theorem view_of_complete (p : NodePtr α) (h : complete p) (hp : p ≠ NULL) :
    ∃ t, view p = some t := by
  induction p with
  | NULL => exact absurd rfl hp
  | node ty v c l r ihl ihr =>
      obtain ⟨hl, hr, h3⟩ := h
      cases ty <;> simp only [view] <;> simp only at h3
      · exact ⟨_, rfl⟩
      · exact ⟨_, rfl⟩
      all_goals
        first
        | (obtain ⟨a, ha⟩ := ihl hl h3.1
           obtain ⟨b, hb⟩ := ihr hr h3.2
           exact ⟨_, by rw [ha, hb]; rfl⟩)
        | (obtain ⟨a, ha⟩ := ihl hl h3
           exact ⟨_, by rw [ha]; rfl⟩)

theorem ne_NULL_of_view {p : NodePtr α} {t : Node α} (h : view p = some t) : p ≠ NULL := by
  intro hp
  subst hp
  simp [view] at h

theorem is_zero_of_view {p : NodePtr α} {t : Node α} (h : view p = some t) :
    is_zero p = Derivative.is_zero t := by
  cases p with
  | NULL => simp [view] at h
  | node ty v c l r =>
      cases ty <;> simp only [view, Option.bind_eq_some, Option.some.injEq] at h <;>
        first
        | (subst h; simp [is_zero, Derivative.is_zero])
        | (obtain ⟨a, _, h⟩ := h
           first
           | (obtain ⟨b, _, h⟩ := h; subst h; simp [is_zero, Derivative.is_zero])
           | (subst h; simp [is_zero, Derivative.is_zero]))

theorem is_one_of_view {p : NodePtr α} {t : Node α} (h : view p = some t) :
    is_one p = Derivative.is_one t := by
  cases p with
  | NULL => simp [view] at h
  | node ty v c l r =>
      cases ty <;> simp only [view, Option.bind_eq_some, Option.some.injEq] at h <;>
        first
        | (subst h; simp [is_one, Derivative.is_one])
        | (obtain ⟨a, _, h⟩ := h
           first
           | (obtain ⟨b, _, h⟩ := h; subst h; simp [is_one, Derivative.is_one])
           | (subst h; simp [is_one, Derivative.is_one]))

theorem view_NUMBER_iff {p : NodePtr α} {t : Node α} (h : view p = some t) (x : α) :
    t = NODE_NUMBER x ↔ ∃ c l r, p = node .NODE_NUMBER x c l r := by
  cases p with
  | NULL => simp [view] at h
  | node ty v c l r =>
      cases ty <;> simp only [view, Option.bind_eq_some, Option.some.injEq] at h <;>
        first
        | (subst h; simp)
        | (obtain ⟨a, _, h⟩ := h
           first
           | (obtain ⟨b, _, h⟩ := h; subst h; simp)
           | (subst h; simp))

theorem number_operands_of_view {l r : NodePtr α} {a b : Node α}
    (hl : view l = some a) (hr : view r = some b) :
    number_operands l r = some (match a, b with
      | NODE_NUMBER x, NODE_NUMBER y => some (x, y)
      | _, _ => none) := by
  cases l with
  | NULL => simp [view] at hl
  | node lt lv lc ll lr =>
    cases r with
    | NULL => simp [view] at hr
    | node rt rv rc rl rr =>
      by_cases h1 : lt = .NODE_NUMBER
      · subst h1
        simp only [view, Option.some.injEq] at hl
        subst hl
        by_cases h2 : rt = .NODE_NUMBER
        · subst h2
          simp only [view, Option.some.injEq] at hr
          subst hr
          simp [number_operands]
        · have hb : ∀ y, b ≠ NODE_NUMBER y := by
            intro y hy
            obtain ⟨_, _, _, h⟩ := (view_NUMBER_iff hr y).1 hy
            simp only [node.injEq] at h
            exact h2 h.1
          simp only [number_operands, h2, if_true, if_false]
          split
          · exact absurd rfl (hb _)
          · rfl
      · have ha : ∀ x, a ≠ NODE_NUMBER x := by
          intro x hx
          obtain ⟨_, _, _, h⟩ := (view_NUMBER_iff hl x).1 hx
          simp only [node.injEq] at h
          exact h1 h.1
        simp only [number_operands, h1, if_false]
        split
        · exact absurd rfl (ha _)
        · rfl

theorem simplify_switch_ADD (pow : α → α → α) (v : α) (c : Char) {l r : NodePtr α}
    {a b : Node α} (hl : view l = some a) (hr : view r = some b)
    (cl : complete l) (cr : complete r) :
    ∃ x, simplify_switch pow .NODE_ADD v c l r = some (.done x) ∧ complete x ∧
      view x = some (simplify_ADD a b) := by
  have nl := ne_NULL_of_view hl
  have nr := ne_NULL_of_view hr
  simp only [simplify_switch, simplify_ADD, is_zero_of_view hl, is_zero_of_view hr,
    number_operands_of_view hl hr]
  split_ifs
  · exact ⟨r, rfl, cr, hr⟩
  · exact ⟨l, rfl, cl, hl⟩
  · cases a with
    | NODE_NUMBER x =>
      cases b <;> simp only [] <;>
      (refine ⟨_, rfl, ?_, ?_⟩ <;> simp [complete, view, hl, hr, cl, cr, nl, nr])
    | _ =>
      simp only [] <;>
      (refine ⟨_, rfl, ?_, ?_⟩ <;> simp [complete, view, hl, hr, cl, cr, nl, nr])

theorem simplify_switch_SUB (pow : α → α → α) (v : α) (c : Char) {l r : NodePtr α}
    {a b : Node α} (hl : view l = some a) (hr : view r = some b)
    (cl : complete l) (cr : complete r) :
    (Derivative.is_zero b = true → simplify_switch pow .NODE_SUB v c l r = some (.done l)) ∧
    (Derivative.is_zero b = false → Derivative.is_zero a = true →
      simplify_switch pow .NODE_SUB v c l r
        = some (.again (create_binary .NODE_MUL (create_number (-1)) r))) ∧
    (Derivative.is_zero b = false → Derivative.is_zero a = false →
      ∃ x, simplify_switch pow .NODE_SUB v c l r = some (.done x) ∧ complete x ∧
        view x = some (simplify_SUB_fold a b)) := by
  have nl := ne_NULL_of_view hl
  have nr := ne_NULL_of_view hr
  simp only [simplify_switch, simplify_SUB_fold, is_zero_of_view hl, is_zero_of_view hr,
    number_operands_of_view hl hr]
  refine ⟨fun h => by simp [h], fun h1 h2 => by simp [h1, h2], fun h1 h2 => ?_⟩
  simp only [h1, h2, Bool.false_eq_true, if_false]
  cases a with
  | NODE_NUMBER x =>
    cases b <;> simp only [] <;>
    (refine ⟨_, rfl, ?_, ?_⟩ <;> simp [complete, view, hl, hr, cl, cr, nl, nr])
  | _ =>
    simp only [] <;>
    (refine ⟨_, rfl, ?_, ?_⟩ <;> simp [complete, view, hl, hr, cl, cr, nl, nr])

theorem simplify_switch_MUL (pow : α → α → α) (v : α) (c : Char) {l r : NodePtr α}
    {a b : Node α} (hl : view l = some a) (hr : view r = some b)
    (cl : complete l) (cr : complete r) :
    ∃ x, simplify_switch pow .NODE_MUL v c l r = some (.done x) ∧ complete x ∧
      view x = some (simplify_MUL a b) := by
  have nl := ne_NULL_of_view hl
  have nr := ne_NULL_of_view hr
  simp only [simplify_switch, simplify_MUL, is_zero_of_view hl, is_zero_of_view hr,
    is_one_of_view hl, is_one_of_view hr, number_operands_of_view hl hr]
  split_ifs
  · exact ⟨_, rfl, by simp [complete], by simp [view]⟩
  · exact ⟨r, rfl, cr, hr⟩
  · exact ⟨l, rfl, cl, hl⟩
  · cases a with
    | NODE_NUMBER x =>
      cases b <;> simp only [] <;>
      (refine ⟨_, rfl, ?_, ?_⟩ <;> simp [complete, view, hl, hr, cl, cr, nl, nr])
    | _ =>
      simp only [] <;>
      (refine ⟨_, rfl, ?_, ?_⟩ <;> simp [complete, view, hl, hr, cl, cr, nl, nr])

theorem simplify_switch_DIV (pow : α → α → α) (v : α) (c : Char) {l r : NodePtr α}
    {a b : Node α} (hl : view l = some a) (hr : view r = some b)
    (cl : complete l) (cr : complete r) :
    ∃ x, simplify_switch pow .NODE_DIV v c l r = some (.done x) ∧ complete x ∧
      view x = some (simplify_DIV a b) := by
  have nl := ne_NULL_of_view hl
  have nr := ne_NULL_of_view hr
  simp only [simplify_switch, simplify_DIV, is_zero_of_view hl, is_zero_of_view hr,
    is_one_of_view hl, is_one_of_view hr, number_operands_of_view hl hr]
  split_ifs
  · exact ⟨_, rfl, by simp [complete, cl], by simp [view]⟩
  · exact ⟨l, rfl, cl, hl⟩
  · cases a with
    | NODE_NUMBER x =>
      cases b <;> simp only [] <;> (try split_ifs) <;>
      (refine ⟨_, rfl, ?_, ?_⟩ <;> simp [complete, view, hl, hr, cl, cr, nl, nr])
    | _ =>
      simp only [] <;>
      (refine ⟨_, rfl, ?_, ?_⟩ <;> simp [complete, view, hl, hr, cl, cr, nl, nr])

theorem simplify_switch_POW (pow : α → α → α) (v : α) (c : Char) {l r : NodePtr α}
    {a b : Node α} (hl : view l = some a) (hr : view r = some b)
    (cl : complete l) (cr : complete r) :
    ∃ x, simplify_switch pow .NODE_POW v c l r = some (.done x) ∧ complete x ∧
      view x = some (simplify_POW pow a b) := by
  have nl := ne_NULL_of_view hl
  have nr := ne_NULL_of_view hr
  simp only [simplify_switch, simplify_POW, is_zero_of_view hl, is_zero_of_view hr,
    is_one_of_view hl, is_one_of_view hr, number_operands_of_view hl hr]
  split_ifs
  · exact ⟨_, rfl, by simp [complete], by simp [view]⟩
  · exact ⟨l, rfl, cl, hl⟩
  · exact ⟨_, rfl, by simp [complete, cl], by simp [view]⟩
  · exact ⟨_, rfl, by simp [complete, cl], by simp [view]⟩
  · cases a with
    | NODE_NUMBER x =>
      cases b <;> simp only [] <;>
      (refine ⟨_, rfl, ?_, ?_⟩ <;> simp [complete, view, hl, hr, cl, cr, nl, nr])
    | _ =>
      simp only [] <;>
      (refine ⟨_, rfl, ?_, ?_⟩ <;> simp [complete, view, hl, hr, cl, cr, nl, nr])

theorem weight_simplify_ptr (pow : α → α → α) (p q : NodePtr α) (h : simplify pow p = some q) :
    weight q ≤ weight p :=
  (simplifyAux pow p).2 q h

theorem weight_pos_of_ne_NULL (p : NodePtr α) (h : p ≠ NULL) : 0 < weight p := by
  cases p with
  | NULL => exact absurd rfl h
  | node ty v c l r => simp only [weight]; split_ifs <;> omega

theorem simplify_refines_aux (pow : α → α → α) (n : Nat) :
    ∀ p : NodePtr α, weight p ≤ n → complete p →
      ∃ q, simplify pow p = some q ∧ complete q ∧ (p ≠ NULL → q ≠ NULL) ∧
        ∀ t, view p = some t → view q = some (Derivative.simplify pow t) := by
  induction n with
  | zero =>
      intro p hp _
      cases p with
      | NULL => exact ⟨NULL, simplify_NULL pow, trivial, fun h => h, by simp [view]⟩
      | node ty v c l r => simp only [weight] at hp; split_ifs at hp <;> omega
  | succ n ih =>
      intro p hp hc
      cases p with
      | NULL => exact ⟨NULL, simplify_NULL pow, trivial, fun h => h, by simp [view]⟩
      | node ty v c l r =>
        obtain ⟨cl, cr, h3⟩ := hc
        have hwl : weight l ≤ n := by simp only [weight] at hp; split_ifs at hp <;> omega
        have hwr : weight r ≤ n := by simp only [weight] at hp; split_ifs at hp <;> omega
        obtain ⟨l1, hl1, cl1, nl1, vl1⟩ := ih l hwl cl
        obtain ⟨r1, hr1, cr1, nr1, vr1⟩ := ih r hwr cr
        rw [simplify_node, hl1, hr1]
        simp only [Option.some_bind]
        have leaf : ∀ x : NodePtr α, complete x → x ≠ NULL →
            ∀ s : Node α, (∀ t, view (node ty v c l r) = some t →
              view x = some (Derivative.simplify pow t)) →
            simplify_switch pow ty v c l1 r1 = some (.done x) →
            ∃ q, (match simplify_switch pow ty v c l1 r1 with
                | some (.done x) => some x
                | some (.again y) => simplify pow y
                | none => none) = some q ∧ complete q ∧
              (node ty v c l r ≠ NULL → q ≠ NULL) ∧
              ∀ t, view (node ty v c l r) = some t →
                view q = some (Derivative.simplify pow t) := by
          intro x cx nx _ hv hsw
          rw [hsw]
          exact ⟨x, rfl, cx, fun _ => nx, hv⟩
        cases ty
        case NODE_NUMBER =>
          refine leaf (node .NODE_NUMBER v c l1 r1) ⟨cl1, cr1, trivial⟩ (by simp)
            (NODE_NUMBER v) ?_ (by simp [simplify_switch])
          intro t ht
          simp only [view, Option.some.injEq] at ht ⊢
          subst ht
          rw [simplify_NUMBER]
        case NODE_VARIABLE =>
          refine leaf (node .NODE_VARIABLE v c l1 r1) ⟨cl1, cr1, trivial⟩ (by simp)
            (NODE_VARIABLE c) ?_ (by simp [simplify_switch])
          intro t ht
          simp only [view, Option.some.injEq] at ht ⊢
          subst ht
          rw [simplify_VARIABLE]
        case NODE_SIN =>
          obtain ⟨a, ha⟩ := view_of_complete l cl h3
          refine leaf (node .NODE_SIN v c l1 r1) ⟨cl1, cr1, nl1 h3⟩ (by simp)
            (NODE_SIN a) ?_ (by simp [simplify_switch])
          intro t ht
          simp only [view, ha, Option.some_bind, Option.some.injEq] at ht
          subst ht
          simp [view, vl1 a ha, simplify_NODE_SIN]
        case NODE_COS =>
          obtain ⟨a, ha⟩ := view_of_complete l cl h3
          refine leaf (node .NODE_COS v c l1 r1) ⟨cl1, cr1, nl1 h3⟩ (by simp)
            (NODE_COS a) ?_ (by simp [simplify_switch])
          intro t ht
          simp only [view, ha, Option.some_bind, Option.some.injEq] at ht
          subst ht
          simp [view, vl1 a ha, simplify_NODE_COS]
        case NODE_EXP =>
          obtain ⟨a, ha⟩ := view_of_complete l cl h3
          refine leaf (node .NODE_EXP v c l1 r1) ⟨cl1, cr1, nl1 h3⟩ (by simp)
            (NODE_EXP a) ?_ (by simp [simplify_switch])
          intro t ht
          simp only [view, ha, Option.some_bind, Option.some.injEq] at ht
          subst ht
          simp [view, vl1 a ha, simplify_NODE_EXP]
        case NODE_LN =>
          obtain ⟨a, ha⟩ := view_of_complete l cl h3
          refine leaf (node .NODE_LN v c l1 r1) ⟨cl1, cr1, nl1 h3⟩ (by simp)
            (NODE_LN a) ?_ (by simp [simplify_switch])
          intro t ht
          simp only [view, ha, Option.some_bind, Option.some.injEq] at ht
          subst ht
          simp [view, vl1 a ha, simplify_NODE_LN]
        case NODE_ADD =>
          obtain ⟨a, ha⟩ := view_of_complete l cl h3.1
          obtain ⟨b, hb⟩ := view_of_complete r cr h3.2
          obtain ⟨x, hx, cx, vx⟩ := simplify_switch_ADD pow v c (vl1 a ha) (vr1 b hb) cl1 cr1
          refine leaf x cx (ne_NULL_of_view vx) (NODE_ADD a b) ?_ hx
          intro t ht
          simp only [view, ha, hb, Option.some_bind, Option.some.injEq] at ht
          subst ht
          rw [vx, simplify_NODE_ADD]
        case NODE_MUL =>
          obtain ⟨a, ha⟩ := view_of_complete l cl h3.1
          obtain ⟨b, hb⟩ := view_of_complete r cr h3.2
          obtain ⟨x, hx, cx, vx⟩ := simplify_switch_MUL pow v c (vl1 a ha) (vr1 b hb) cl1 cr1
          refine leaf x cx (ne_NULL_of_view vx) (NODE_MUL a b) ?_ hx
          intro t ht
          simp only [view, ha, hb, Option.some_bind, Option.some.injEq] at ht
          subst ht
          rw [vx, simplify_NODE_MUL]
        case NODE_DIV =>
          obtain ⟨a, ha⟩ := view_of_complete l cl h3.1
          obtain ⟨b, hb⟩ := view_of_complete r cr h3.2
          obtain ⟨x, hx, cx, vx⟩ := simplify_switch_DIV pow v c (vl1 a ha) (vr1 b hb) cl1 cr1
          refine leaf x cx (ne_NULL_of_view vx) (NODE_DIV a b) ?_ hx
          intro t ht
          simp only [view, ha, hb, Option.some_bind, Option.some.injEq] at ht
          subst ht
          rw [vx, simplify_NODE_DIV]
        case NODE_POW =>
          obtain ⟨a, ha⟩ := view_of_complete l cl h3.1
          obtain ⟨b, hb⟩ := view_of_complete r cr h3.2
          obtain ⟨x, hx, cx, vx⟩ := simplify_switch_POW pow v c (vl1 a ha) (vr1 b hb) cl1 cr1
          refine leaf x cx (ne_NULL_of_view vx) (NODE_POW a b) ?_ hx
          intro t ht
          simp only [view, ha, hb, Option.some_bind, Option.some.injEq] at ht
          subst ht
          rw [vx, simplify_NODE_POW]
        case NODE_SUB =>
          obtain ⟨a, ha⟩ := view_of_complete l cl h3.1
          obtain ⟨b, hb⟩ := view_of_complete r cr h3.2
          obtain ⟨s1, s2, s3⟩ := simplify_switch_SUB pow v c (vl1 a ha) (vr1 b hb) cl1 cr1
          have hview : ∀ t, view (node .NODE_SUB v c l r) = some t → t = NODE_SUB a b := by
            intro t ht
            simp only [view, ha, hb, Option.some_bind, Option.some.injEq] at ht
            exact ht.symm
          by_cases hz1 : Derivative.is_zero (Derivative.simplify pow b) = true
          · refine leaf l1 cl1 (nl1 h3.1) (NODE_SUB a b) ?_ (s1 hz1)
            intro t ht
            rw [hview t ht, simplify_NODE_SUB, if_pos hz1]
            exact vl1 a ha
          · have hz1f : Derivative.is_zero (Derivative.simplify pow b) = false := by
              simpa using hz1
            by_cases hz2 : Derivative.is_zero (Derivative.simplify pow a) = true
            · rw [s2 hz1f hz2]
              have hw1 := weight_simplify_ptr pow r r1 hr1
              have hpl := weight_pos_of_ne_NULL l h3.1
              have hwy : weight (create_binary .NODE_MUL (create_number (-1)) r1) ≤ n := by
                simp only [weight, create_binary, create_number] at hp ⊢
                simp only [if_true] at hp
                simp
                omega
              have hcy : complete (create_binary .NODE_MUL (create_number (-1)) r1) := by
                simp [complete, create_binary, create_number, cr1, nr1 h3.2]
              obtain ⟨q, hq, cq, nq, vq⟩ := ih _ hwy hcy
              refine ⟨q, hq, cq, fun _ => nq (by simp [create_binary]), ?_⟩
              intro t ht
              rw [hview t ht, simplify_NODE_SUB, if_neg hz1, if_pos hz2]
              apply vq
              simp [view, create_binary, create_number, vr1 b hb]
            · have hz2f : Derivative.is_zero (Derivative.simplify pow a) = false := by
                simpa using hz2
              obtain ⟨x, hx, cx, vx⟩ := s3 hz1f hz2f
              refine leaf x cx (ne_NULL_of_view vx) (NODE_SUB a b) ?_ hx
              intro t ht
              rw [hview t ht, simplify_NODE_SUB, if_neg hz1, if_neg hz2]
              exact vx

/-- On a well-formed tree the record-level `simplify` dereferences no `NULL`, and the tree
its result stands for is the tree-level `simplify` of the tree its argument stands for. -/
theorem simplify_refines (pow : α → α → α) (p : NodePtr α) (h : well_formed p) :
    ∃ q t, simplify pow p = some q ∧ view p = some t ∧
      view q = some (Derivative.simplify pow t) := by
  obtain ⟨hc, hn⟩ := complete_of_well_formed p h
  obtain ⟨q, hq, _, _, hv⟩ := simplify_refines_aux pow (weight p) p (le_refl _) hc
  obtain ⟨t, ht⟩ := view_of_complete p hc hn
  exact ⟨q, t, hq, ht, hv t ht⟩

end NodePtr

/-! ## Unfolding equations of the parser -/

theorem parse_expression_eq (strtod : List Char → α × Nat) (st : ParserState α) :
    parse_expression strtod st =
      match parse_term strtod st with
      | .ok (left, st1) => parse_expression_loop strtod left st1
      | .error e => .error e := by
  unfold parse_expression parse_term parse_expression_loop
  rw [parse_expressionAux]
  rcases parse_termAux strtod st with ⟨_ | ⟨_, _⟩, _⟩ <;> rfl

theorem parse_expression_loop_eq (strtod : List Char → α × Nat) (left : Node α)
    (st : ParserState α) :
    parse_expression_loop strtod left st =
      if st.current_token = TOKEN_PLUS ∨ st.current_token = TOKEN_MINUS then
        match parse_term strtod (advance strtod st) with
        | .ok (right, st2) =>
            parse_expression_loop strtod
              (if st.current_token = TOKEN_PLUS then NODE_ADD left right
               else NODE_SUB left right) st2
        | .error e => .error e
      else .ok (left, st) := by
  unfold parse_expression_loop parse_term
  rw [parse_expression_loopAux]
  by_cases h : st.current_token = TOKEN_PLUS ∨ st.current_token = TOKEN_MINUS
  · rw [dif_pos h, if_pos h]
    rcases parse_termAux strtod (advance strtod st) with ⟨_ | ⟨_, _⟩, _⟩ <;> rfl
  · rw [dif_neg h, if_neg h]

theorem parse_term_eq (strtod : List Char → α × Nat) (st : ParserState α) :
    parse_term strtod st =
      match parse_factor strtod st with
      | .ok (left, st1) => parse_term_loop strtod left st1
      | .error e => .error e := by
  unfold parse_term parse_factor parse_term_loop
  rw [parse_termAux]
  rcases parse_factorAux strtod st with ⟨_ | ⟨_, _⟩, _⟩ <;> rfl

theorem parse_term_loop_eq (strtod : List Char → α × Nat) (left : Node α)
    (st : ParserState α) :
    parse_term_loop strtod left st =
      if st.current_token = TOKEN_MULT ∨ st.current_token = TOKEN_DIV then
        match parse_factor strtod (advance strtod st) with
        | .ok (right, st2) =>
            parse_term_loop strtod
              (if st.current_token = TOKEN_MULT then NODE_MUL left right
               else NODE_DIV left right) st2
        | .error e => .error e
      else .ok (left, st) := by
  unfold parse_term_loop parse_factor
  rw [parse_term_loopAux]
  by_cases h : st.current_token = TOKEN_MULT ∨ st.current_token = TOKEN_DIV
  · rw [dif_pos h, if_pos h]
    rcases parse_factorAux strtod (advance strtod st) with ⟨_ | ⟨_, _⟩, _⟩ <;> rfl
  · rw [dif_neg h, if_neg h]

theorem parse_factor_eq (strtod : List Char → α × Nat) (st : ParserState α) :
    parse_factor strtod st = parse_power strtod st := by
  unfold parse_factor parse_power
  rw [parse_factorAux]

theorem parse_power_eq (strtod : List Char → α × Nat) (st : ParserState α) :
    parse_power strtod st =
      match parse_primary strtod st with
      | .ok (left, st1) =>
          if st1.current_token = TOKEN_POW then
            match parse_power strtod (advance strtod st1) with
            | .ok (right, st2) => .ok (NODE_POW left right, st2)
            | .error e => .error e
          else .ok (left, st1)
      | .error e => .error e := by
  unfold parse_power parse_primary
  rw [parse_powerAux]
  rcases parse_primaryAux strtod st with ⟨_ | ⟨left, st1⟩, _⟩
  · rfl
  · simp only []
    split_ifs
    · rcases parse_powerAux strtod (advance strtod st1) with ⟨_ | ⟨_, _⟩, _⟩ <;> rfl
    · rfl

theorem parse_primary_eq (strtod : List Char → α × Nat) (st : ParserState α) :
    parse_primary strtod st =
      match st.current_token with
      | TOKEN_NUMBER value => .ok (NODE_NUMBER value, advance strtod st)
      | TOKEN_VARIABLE var => .ok (NODE_VARIABLE var, advance strtod st)
      | TOKEN_SIN | TOKEN_COS | TOKEN_EXP | TOKEN_LN =>
          if (advance strtod st).current_token ≠ TOKEN_LPAREN then .error .lparen_expected
          else
            match parse_expression strtod (advance strtod (advance strtod st)) with
            | .ok (arg, st3) =>
                if st3.current_token ≠ TOKEN_RPAREN then .error .rparen_expected
                else .ok
                  (if st.current_token = TOKEN_SIN then NODE_SIN arg
                   else if st.current_token = TOKEN_COS then NODE_COS arg
                   else if st.current_token = TOKEN_EXP then NODE_EXP arg
                   else NODE_LN arg, advance strtod st3)
            | .error e => .error e
      | TOKEN_LPAREN =>
          match parse_expression strtod (advance strtod st) with
          | .ok (node, st2) =>
              if st2.current_token ≠ TOKEN_RPAREN then .error .rparen_expected
              else .ok (node, advance strtod st2)
          | .error e => .error e
      | _ => .error .syntax_error := by
  unfold parse_primary parse_expression
  rw [parse_primaryAux]
  split <;> rename_i h <;> (try simp only [h])
  all_goals
    first
    | rfl
    | (by_cases hl : (advance strtod st).current_token ≠ TOKEN_LPAREN
       · rw [if_pos hl, if_pos hl]
       · rw [if_neg hl, if_neg hl]
         rcases parse_expressionAux strtod (advance strtod (advance strtod st))
           with ⟨_ | ⟨arg, st3⟩, _⟩
         · rfl
         · simp only []
           by_cases hr : st3.current_token ≠ TOKEN_RPAREN
           · rw [if_pos hr, if_pos hr]
           · rw [if_neg hr, if_neg hr])
    | (rcases parse_expressionAux strtod (advance strtod st) with ⟨_ | ⟨node, st2⟩, _⟩
       · rfl
       · simp only []
         by_cases hr : st2.current_token ≠ TOKEN_RPAREN
         · rw [if_pos hr, if_pos hr]
         · rw [if_neg hr, if_neg hr])

/-! ## Facts about the lexer -/

theorem isalpha_not_special (c : Char) (h : isalpha c = true) :
    isdigit c = false ∧ c ≠ '.' ∧ c ≠ Char.ofNat 0 ∧ c ≠ ' ' ∧ c ≠ '\t' := by
  have key : ∀ d : Char, isalpha d = false → c ≠ d := by
    intro d hd hcd
    rw [hcd, hd] at h
    exact Bool.noConfusion h
  refine ⟨?_, key _ (by decide), key _ (by decide), key _ (by decide), key _ (by decide)⟩
  simp only [isalpha, Char.isAlpha, Char.isUpper, Char.isLower, Bool.or_eq_true,
    Bool.and_eq_true, decide_eq_true_eq] at h
  simp only [isdigit, Char.isDigit, Bool.and_eq_false_iff, decide_eq_false_iff_not]
  rcases h with ⟨h1, _⟩ | ⟨h1, _⟩
  · right
    intro h2
    exact absurd (UInt32.le_trans h1 h2) (by decide)
  · right
    intro h2
    exact absurd (UInt32.le_trans h1 h2) (by decide)

theorem skip_whitespace_of_not_blank (c : Char) (cs : List Char) (h1 : c ≠ ' ')
    (h2 : c ≠ '\t') : skip_whitespace (c :: cs) = c :: cs := by
  simp [skip_whitespace, h1, h2]

theorem skip_whitespace_append (ws s : List Char) (hws : ∀ c ∈ ws, c = ' ' ∨ c = '\t') :
    skip_whitespace (ws ++ s) = skip_whitespace s := by
  induction ws with
  | nil => rfl
  | cons c cs ih =>
      have hc := hws c (List.mem_cons_self _ _)
      simp only [List.cons_append, skip_whitespace, hc, if_true]
      exact ih (fun d hd => hws d (List.mem_cons_of_mem _ hd))

theorem read_identifier_run (n : Nat) (r rest : List Char)
    (hr : ∀ c ∈ r, isalpha c = true) (hrest : ∀ c ∈ rest.head?, isalpha c = false) :
    read_identifier n (r ++ rest) = (r.take n, r.drop n ++ rest) := by
  induction n generalizing r with
  | zero => simp [read_identifier]
  | succ n ih =>
      cases r with
      | nil =>
          cases rest with
          | nil => simp [read_identifier]
          | cons c cs =>
              have hc : isalpha c = false := hrest c (by simp)
              simp [read_identifier, hc]
      | cons c cs =>
          have hc := hr c (List.mem_cons_self _ _)
          have := ih cs (fun d hd => hr d (List.mem_cons_of_mem _ hd))
          simp [read_identifier, hc, this]

theorem take_eq_iff_of_short (n : Nat) (r l : List Char) (hl : l.length < n) :
    r.take n = l ↔ r = l := by
  constructor
  · intro h
    have hlen : (r.take n).length = l.length := by rw [h]
    rw [List.length_take] at hlen
    have : r.length ≤ n := by omega
    rw [List.take_of_length_le this] at h
    exact h
  · intro h
    subst h
    exact List.take_of_length_le (le_of_lt hl)

/-- The token `get_next_token` returns on an alphabetic run `r` that ends at `rest`. -/
theorem get_next_token_run (strtod : List Char → α × Nat) (ws r rest : List Char)
    (hws : ∀ c ∈ ws, c = ' ' ∨ c = '\t') (hne : r ≠ [])
    (hr : ∀ c ∈ r, isalpha c = true) (hrest : ∀ c ∈ rest.head?, isalpha c = false) :
    get_next_token strtod (ws ++ (r ++ rest)) =
      (if r = ['s', 'i', 'n'] then TOKEN_SIN
       else if r = ['c', 'o', 's'] then TOKEN_COS
       else if r = ['e', 'x', 'p'] then TOKEN_EXP
       else if r = ['l', 'n'] then TOKEN_LN
       else if r.length = 1 then TOKEN_VARIABLE (r.headD ' ')
       else TOKEN_ERROR, r.drop 9 ++ rest) := by
  cases r with
  | nil => exact absurd rfl hne
  | cons c cs =>
    have hc := hr c (List.mem_cons_self _ _)
    obtain ⟨h1, h2, h3, h4, h5⟩ := isalpha_not_special c hc
    have hrun := read_identifier_run 9 (c :: cs) rest hr hrest
    unfold get_next_token
    rw [skip_whitespace_append ws _ hws, List.cons_append,
      skip_whitespace_of_not_blank c _ h4 h5]
    simp only [h3, if_false, h1, h2, Bool.false_eq_true, or_self, hc, if_true]
    rw [← List.cons_append, hrun]
    simp only [take_eq_iff_of_short 9 (c :: cs) _ (by decide : [('s' : Char), 'i', 'n'].length < 9),
      take_eq_iff_of_short 9 (c :: cs) _ (by decide : [('c' : Char), 'o', 's'].length < 9),
      take_eq_iff_of_short 9 (c :: cs) _ (by decide : [('e' : Char), 'x', 'p'].length < 9),
      take_eq_iff_of_short 9 (c :: cs) _ (by decide : [('l' : Char), 'n'].length < 9)]
    have hlen : (List.take 9 (c :: cs)).length = 1 ↔ (c :: cs).length = 1 := by
      rw [List.length_take]
      omega
    have hhead : (List.take 9 (c :: cs)).headD c = c := by simp
    simp only [hlen, hhead, List.headD_cons]
    split_ifs <;> rfl

theorem get_next_token_variable (strtod : List Char → α × Nat) (a : Char) (rest : List Char)
    (ha : isalpha a = true) (hrest : ∀ c ∈ rest.head?, isalpha c = false) :
    get_next_token strtod (a :: rest) = (TOKEN_VARIABLE a, rest) := by
  have h := get_next_token_run strtod [] [a] rest (by simp) (by simp) (by simpa using ha) hrest
  simpa using h

theorem get_next_token_nil (strtod : List Char → α × Nat) :
    get_next_token strtod [] = (TOKEN_END, []) := rfl

theorem get_next_token_plus (strtod : List Char → α × Nat) (rest : List Char) :
    get_next_token strtod ('+' :: rest) = (TOKEN_PLUS, rest) := rfl

theorem get_next_token_minus (strtod : List Char → α × Nat) (rest : List Char) :
    get_next_token strtod ('-' :: rest) = (TOKEN_MINUS, rest) := rfl

theorem get_next_token_mult (strtod : List Char → α × Nat) (rest : List Char) :
    get_next_token strtod ('*' :: rest) = (TOKEN_MULT, rest) := rfl

theorem get_next_token_div (strtod : List Char → α × Nat) (rest : List Char) :
    get_next_token strtod ('/' :: rest) = (TOKEN_DIV, rest) := rfl

theorem get_next_token_pow (strtod : List Char → α × Nat) (rest : List Char) :
    get_next_token strtod ('^' :: rest) = (TOKEN_POW, rest) := rfl

theorem get_next_token_lparen (strtod : List Char → α × Nat) (rest : List Char) :
    get_next_token strtod ('(' :: rest) = (TOKEN_LPAREN, rest) := rfl

theorem get_next_token_rparen (strtod : List Char → α × Nat) (rest : List Char) :
    get_next_token strtod (')' :: rest) = (TOKEN_RPAREN, rest) := rfl

/-- C17: on an input whose first non-blank characters are a maximal alphabetic run `r`
(blanks `ws`, then `r`, then `rest` which does not start with a letter), whatever the length
of `r`: `get_next_token` returns the token of a function exactly when `r` is its keyword,
a variable token exactly when `r` has length 1, carrying that character, and the error token
in every other case. -/
theorem get_next_token_identifier (strtod : List Char → α × Nat) (ws r rest : List Char)
    (hws : ∀ c ∈ ws, c = ' ' ∨ c = '\t') (hne : r ≠ [])
    (hr : ∀ c ∈ r, isalpha c = true) (hrest : ∀ c ∈ rest.head?, isalpha c = false) :
    ((get_next_token strtod (ws ++ (r ++ rest))).1 = TOKEN_SIN ↔ r = ['s', 'i', 'n']) ∧
    ((get_next_token strtod (ws ++ (r ++ rest))).1 = TOKEN_COS ↔ r = ['c', 'o', 's']) ∧
    ((get_next_token strtod (ws ++ (r ++ rest))).1 = TOKEN_EXP ↔ r = ['e', 'x', 'p']) ∧
    ((get_next_token strtod (ws ++ (r ++ rest))).1 = TOKEN_LN ↔ r = ['l', 'n']) ∧
    ((∃ c, (get_next_token strtod (ws ++ (r ++ rest))).1 = TOKEN_VARIABLE c) ↔ r.length = 1) ∧
    (∀ c, (get_next_token strtod (ws ++ (r ++ rest))).1 = TOKEN_VARIABLE c ↔ r = [c]) ∧
    ((get_next_token strtod (ws ++ (r ++ rest))).1 = TOKEN_ERROR ↔
      (r ≠ ['s', 'i', 'n'] ∧ r ≠ ['c', 'o', 's'] ∧ r ≠ ['e', 'x', 'p'] ∧ r ≠ ['l', 'n'] ∧
        r.length ≠ 1)) := by
  rw [get_next_token_run strtod ws r rest hws hne hr hrest]
  simp only []
  have hsingle : ∀ c : Char, r = [c] → r.length = 1 := by
    intro c h; rw [h]; rfl
  have hlen : r.length = 1 → r = [r.headD ' '] := by
    intro h
    match r, h with
    | [c], _ => rfl
  split_ifs with h1 h2 h3 h4 h5
  · subst h1; simp
  · subst h2; simp
  · subst h3; simp
  · subst h4; simp
  · have h6 := hlen h5
    refine ⟨by simp [h1], by simp [h2], by simp [h3], by simp [h4], by simp [h5], ?_,
      by simp [h5]⟩
    intro c
    constructor
    · intro hc
      simp only [TOKEN_VARIABLE.injEq] at hc
      rw [h6, hc]
    · intro hc
      rw [hc]
      rfl
  · refine ⟨by simp [h1], by simp [h2], by simp [h3], by simp [h4], by simp [h5], ?_,
      by simp [h1, h2, h3, h4, h5]⟩
    intro c
    constructor
    · intro hc
      exact absurd hc (by simp)
    · intro hc
      exact absurd (hsingle c hc) h5

/-- C17 on `"  cos(x)"` and on the twelve-letter run of `"abcdefghijkl+1"`. -/
theorem get_next_token_identifier_witness :
    (get_next_token strtod_rat ([' ', ' '] ++ (['c', 'o', 's'] ++ ['(', 'x', ')']))).1
        = TOKEN_COS ∧
    (get_next_token strtod_rat ([] ++ (['a', 'b', 'c', 'd', 'e', 'f', 'g', 'h', 'i', 'j', 'k',
        'l'] ++ ['+', '1']))).1 = TOKEN_ERROR :=
  ⟨(get_next_token_identifier strtod_rat [' ', ' '] ['c', 'o', 's'] ['(', 'x', ')']
      (by decide) (by decide) (by decide) (by decide)).2.1.2 rfl,
   (get_next_token_identifier strtod_rat []
      ['a', 'b', 'c', 'd', 'e', 'f', 'g', 'h', 'i', 'j', 'k', 'l'] ['+', '1']
      (by decide) (by decide) (by decide) (by decide)).2.2.2.2.2.2.2
        (by decide)⟩

/-- C15: precedence and associativity of the parser, for all letters `a`, `b`, `c`, `d`:
`a-b-c` is `Sub(Sub(a,b),c)`, `a-b+c` is `Add(Sub(a,b),c)`, `a/b/c` is `Div(Div(a,b),c)`,
`a^b^c` is `Pow(a, Pow(b,c))`, `a+b*c^d` is `Add(a, Mul(b, Pow(c,d)))` and `(a+b)*c` is
`Mul(Add(a,b), c)`. -/
theorem parse_precedence (strtod : List Char → α × Nat) (a b c d : Char)
    (ha : isalpha a = true) (hb : isalpha b = true) (hc : isalpha c = true)
    (hd : isalpha d = true) :
    parse strtod [a, '-', b, '-', c]
      = .ok (NODE_SUB (NODE_SUB (NODE_VARIABLE a) (NODE_VARIABLE b)) (NODE_VARIABLE c)) ∧
    parse strtod [a, '-', b, '+', c]
      = .ok (NODE_ADD (NODE_SUB (NODE_VARIABLE a) (NODE_VARIABLE b)) (NODE_VARIABLE c)) ∧
    parse strtod [a, '/', b, '/', c]
      = .ok (NODE_DIV (NODE_DIV (NODE_VARIABLE a) (NODE_VARIABLE b)) (NODE_VARIABLE c)) ∧
    parse strtod [a, '^', b, '^', c]
      = .ok (NODE_POW (NODE_VARIABLE a) (NODE_POW (NODE_VARIABLE b) (NODE_VARIABLE c))) ∧
    parse strtod [a, '+', b, '*', c, '^', d]
      = .ok (NODE_ADD (NODE_VARIABLE a)
          (NODE_MUL (NODE_VARIABLE b) (NODE_POW (NODE_VARIABLE c) (NODE_VARIABLE d)))) ∧
    parse strtod ['(', a, '+', b, ')', '*', c]
      = .ok (NODE_MUL (NODE_ADD (NODE_VARIABLE a) (NODE_VARIABLE b)) (NODE_VARIABLE c)) := by
  have e1 : isalpha '-' = false := rfl
  have e2 : isalpha '+' = false := rfl
  have e3 : isalpha '/' = false := rfl
  have e4 : isalpha '^' = false := rfl
  have e5 : isalpha '*' = false := rfl
  have e6 : isalpha ')' = false := rfl
  refine ⟨?_, ?_, ?_, ?_, ?_, ?_⟩ <;>
  simp [parse, advance, parse_expression_eq, parse_expression_loop_eq, parse_term_eq,
    parse_term_loop_eq, parse_factor_eq, parse_power_eq, parse_primary_eq,
    get_next_token_variable, get_next_token_minus, get_next_token_plus, get_next_token_mult,
    get_next_token_div, get_next_token_pow, get_next_token_lparen, get_next_token_rparen,
    get_next_token_nil, ha, hb, hc, hd, e1, e2, e3, e4, e5, e6]

/-- C15 on the letters `x`, `y`, `z`, `t`. -/
theorem parse_precedence_witness :
    parse strtod_rat ['x', '-', 'y', '-', 'z']
      = .ok (NODE_SUB (NODE_SUB (NODE_VARIABLE 'x') (NODE_VARIABLE 'y')) (NODE_VARIABLE 'z')) ∧
    parse strtod_rat ['x', '^', 'y', '^', 'z']
      = .ok (NODE_POW (NODE_VARIABLE 'x') (NODE_POW (NODE_VARIABLE 'y') (NODE_VARIABLE 'z'))) :=
  ⟨(parse_precedence strtod_rat 'x' 'y' 'z' 't' rfl rfl rfl rfl).1,
   (parse_precedence strtod_rat 'x' 'y' 'z' 't' rfl rfl rfl rfl).2.2.2.1⟩

/-! ## Printing numbers -/

theorem to_int_natCast (n : ℕ) : to_int (n : ℚ) = n := by
  simp [to_int]

theorem print_number_natCast (n : ℕ) : print_number (n : ℚ) = print_nat n := by
  simp [print_number, to_int_natCast, print_d]

theorem print_number_neg_natCast (n : ℕ) (h : 0 < n) :
    print_number (-(n : ℚ)) = '-' :: print_nat n := by
  have h1 : ¬ (0 : ℚ) ≤ -(n : ℚ) := by
    simp only [Left.nonneg_neg_iff, not_le]
    exact_mod_cast h
  have h2 : to_int (-(n : ℚ)) = -(n : ℤ) := by
    simp [to_int, h1]
  have h3 : (-(n : ℤ)) < 0 := by omega
  simp [print_number, h2, print_d, h3]

theorem round_half_even_natCast (k : ℕ) : round_half_even (k : ℚ) = k := by
  simp [round_half_even]

theorem print_number_hundredths (k : ℕ) (h : ¬ 100 ∣ k) :
    print_number ((k : ℚ) / 100) =
      print_nat (k / 100) ++ ['.', Char.ofNat (48 + k % 100 / 10), Char.ofNat (48 + k % 10)] := by
  have hnn : (0 : ℚ) ≤ (k : ℚ) / 100 := by positivity
  have hfl : ⌊(k : ℚ) / 100⌋ = ((k / 100 : ℕ) : ℤ) := by
    have := Nat.floor_div_eq_div (α := ℚ) k 100
    rw [Int.floor_eq_iff]
    constructor
    · have h1 : ((k / 100 : ℕ) : ℚ) ≤ (k : ℚ) / 100 := Nat.cast_div_le
      exact_mod_cast h1
    · have h2 : (k : ℚ) / 100 < ((k / 100 : ℕ) : ℚ) + 1 := by
        rw [div_lt_iff₀ (by norm_num)]
        have : k < (k / 100 + 1) * 100 := by omega
        exact_mod_cast this
      exact_mod_cast h2
  have hti : to_int ((k : ℚ) / 100) = ((k / 100 : ℕ) : ℤ) := by
    simp only [to_int, hnn, if_true, hfl]
  have hne : (k : ℚ) / 100 ≠ ((to_int ((k : ℚ) / 100) : ℤ) : ℚ) := by
    rw [hti]
    intro heq
    apply h
    have h3 : (k : ℚ) = ((k / 100 * 100 : ℕ) : ℚ) := by
      push_cast
      have h5 : ((((k / 100 : ℕ) : ℤ)) : ℚ) = ((k / 100 : ℕ) : ℚ) := by norm_cast
      rw [h5] at heq
      rw [← heq]
      ring
    have h4 : k = k / 100 * 100 := by exact_mod_cast h3
    exact ⟨k / 100, by omega⟩
  have habs : |(k : ℚ) / 100| * 100 = (k : ℚ) := by
    rw [abs_of_nonneg hnn]
    ring
  have hlt : ¬ ((k : ℚ) / 100 < 0) := not_lt.mpr hnn
  simp only [print_number, if_neg hne, print_2f, habs, round_half_even_natCast, hlt, if_false,
    List.nil_append]

theorem get_next_token_two (rest : List Char) (h : ∀ c ∈ rest.head?, isdigit c = false ∧
    c ≠ '.' ∧ c ≠ 'e' ∧ c ≠ 'E') :
    get_next_token strtod_rat ('2' :: rest) = (TOKEN_NUMBER 2, rest) := by
  cases rest with
  | nil => simp [get_next_token, skip_whitespace, strtod_rat, isdigit, decimal_value]
  | cons c cs =>
      obtain ⟨h1, h2, h3, h4⟩ := h c (by simp)
      have h5 : c.isDigit = false := h1
      simp [get_next_token, skip_whitespace, strtod_rat, isdigit, decimal_value, h5,
        List.takeWhile, List.dropWhile, h2, h3, h4]

theorem print_number_values :
    print_number 2 = ['2'] ∧ print_number 1 = ['1'] ∧ print_number (1 / 2) = ['0', '.', '5', '0'] := by
  refine ⟨?_, ?_, ?_⟩
  · have h : (2 : ℚ) = ((2 : ℕ) : ℚ) := by norm_num
    rw [h, print_number_natCast]
    simp [print_nat]
  · have h : (1 : ℚ) = ((1 : ℕ) : ℚ) := by norm_num
    rw [h, print_number_natCast]
    simp [print_nat]
  · have h : (1 / 2 : ℚ) = ((50 : ℕ) : ℚ) / 100 := by norm_num
    rw [h, print_number_hundredths 50 (by decide)]
    simp [print_nat]

/-- C13: the six end-to-end scenarios, with target variable `x`.  Each line is printed back
unchanged, and the derivatives printed are `2*x`, `cos(x)`, `sin(x)+x*cos(x)`, `0.50`,
`1/x` and `exp(x)`. -/
theorem main_output_scenarios :
    main_output strtod_rat pow_rat print_number ['x', '^', '2']
      = .ok (['x', '^', '2'], ['2', '*', 'x']) ∧
    main_output strtod_rat pow_rat print_number ['s', 'i', 'n', '(', 'x', ')']
      = .ok (['s', 'i', 'n', '(', 'x', ')'], ['c', 'o', 's', '(', 'x', ')']) ∧
    main_output strtod_rat pow_rat print_number ['x', '*', 's', 'i', 'n', '(', 'x', ')']
      = .ok (['x', '*', 's', 'i', 'n', '(', 'x', ')'],
          ['s', 'i', 'n', '(', 'x', ')', '+', 'x', '*', 'c', 'o', 's', '(', 'x', ')']) ∧
    main_output strtod_rat pow_rat print_number ['x', '/', '2']
      = .ok (['x', '/', '2'], ['0', '.', '5', '0']) ∧
    main_output strtod_rat pow_rat print_number ['l', 'n', '(', 'x', ')']
      = .ok (['l', 'n', '(', 'x', ')'], ['1', '/', 'x']) ∧
    main_output strtod_rat pow_rat print_number ['e', 'x', 'p', '(', 'x', ')']
      = .ok (['e', 'x', 'p', '(', 'x', ')'], ['e', 'x', 'p', '(', 'x', ')']) := by
  have ex : isalpha 'x' = true := rfl
  have e1 : isalpha '^' = false := rfl
  have e2 : isalpha '*' = false := rfl
  have e3 : isalpha '/' = false := rfl
  have e4 : isalpha ')' = false := rfl
  have t0 : get_next_token strtod_rat ['2'] = (TOKEN_NUMBER 2, []) :=
    get_next_token_two [] (by simp)
  have t1 : ∀ rest, get_next_token strtod_rat ('s' :: 'i' :: 'n' :: '(' :: rest)
      = (TOKEN_SIN, '(' :: rest) := fun _ => rfl
  have t2 : ∀ rest, get_next_token strtod_rat ('l' :: 'n' :: '(' :: rest)
      = (TOKEN_LN, '(' :: rest) := fun _ => rfl
  have t3 : ∀ rest, get_next_token strtod_rat ('e' :: 'x' :: 'p' :: '(' :: rest)
      = (TOKEN_EXP, '(' :: rest) := fun _ => rfl
  obtain ⟨p2, p1, ph⟩ := print_number_values
  have hp : pow_rat 2 2 = 4 := by simp [pow_rat]; norm_num
  have h24 : (2 : ℚ) / 4 = 1 / 2 := by norm_num
  have ph2 : print_number (2⁻¹ : ℚ) = ['0', '.', '5', '0'] := by
    rw [show (2⁻¹ : ℚ) = 1 / 2 by norm_num]
    exact ph
  have h21 : (2 : ℚ) - 1 = 1 := by norm_num
  refine ⟨?_, ?_, ?_, ?_, ?_, ?_⟩ <;>
  simp [main_output, parse, advance, parse_expression_eq, parse_expression_loop_eq,
    parse_term_eq, parse_term_loop_eq, parse_factor_eq, parse_power_eq, parse_primary_eq,
    get_next_token_variable, get_next_token_pow, get_next_token_mult, get_next_token_div,
    get_next_token_lparen, get_next_token_rparen, get_next_token_nil, t0, t1, t2, t3,
    ex, e1, e2, e3, e4, get_next_token_two,
    print_tree, Node.type, differentiate, copy_tree, is_constant,
    simplify_NODE_ADD, simplify_NODE_MUL, simplify_NODE_DIV, simplify_NODE_POW,
    simplify_NODE_SUB, simplify_NODE_SIN, simplify_NODE_COS, simplify_NODE_EXP,
    simplify_NODE_LN, simplify_NUMBER, simplify_VARIABLE, simplify_ADD, simplify_MUL,
    simplify_DIV, simplify_POW, simplify_SUB_fold, is_zero, is_one, p2, p1, ph, ph2, hp, h24, h21]

/-! ## The printer against its reference rendering -/

omit [LinearOrderedField α] in
theorem type_sum_iff (t : Node α) :
    (t.type = .NODE_ADD ∨ t.type = .NODE_SUB) ↔ is_sum t = true := by
  cases t <;> simp [Node.type, is_sum]

omit [LinearOrderedField α] in
theorem type_not_atom_iff (t : Node α) :
    (t.type ≠ .NODE_NUMBER ∧ t.type ≠ .NODE_VARIABLE) ↔ (!is_atom t) = true := by
  cases t <;> simp [Node.type, is_atom]

omit [LinearOrderedField α] in
theorem print_tree_eq_render (fmt : α → List Char) (t : Node α) :
    print_tree fmt t = render fmt t := by
  induction t with
  | NODE_NUMBER v => rfl
  | NODE_VARIABLE w => rfl
  | NODE_ADD l r ihl ihr => simp [print_tree, render, ihl, ihr]
  | NODE_SUB l r ihl ihr =>
      simp only [print_tree, render, ihl, ihr, type_sum_iff, parenthesize_if]
      split_ifs <;> simp
  | NODE_MUL l r ihl ihr =>
      simp only [print_tree, render, ihl, ihr, type_sum_iff, parenthesize_if]
      split_ifs <;> simp
  | NODE_DIV l r ihl ihr =>
      simp only [print_tree, render, ihl, ihr, type_sum_iff, type_not_atom_iff, parenthesize_if]
      split_ifs <;> simp
  | NODE_POW l r ihl ihr =>
      simp only [print_tree, render, ihl, ihr, type_not_atom_iff, parenthesize_if]
      split_ifs <;> simp
  | NODE_SIN f ih => simp [print_tree, render, ih, parenthesize_if]
  | NODE_COS f ih => simp [print_tree, render, ih, parenthesize_if]
  | NODE_EXP f ih => simp [print_tree, render, ih, parenthesize_if]
  | NODE_LN f ih => simp [print_tree, render, ih, parenthesize_if]

omit [LinearOrderedField α] in
theorem print_tree_no_space (fmt : α → List Char) (t : Node α)
    (hfmt : ∀ v, ' ' ∉ fmt v) (hvar : occurs ' ' t = false) : ' ' ∉ print_tree fmt t := by
  induction t with
  | NODE_NUMBER v => exact hfmt v
  | NODE_VARIABLE w =>
      simp only [occurs, decide_eq_false_iff_not] at hvar
      simp only [print_tree, List.mem_singleton]
      exact fun h => hvar h.symm
  | NODE_ADD l r ihl ihr =>
      simp only [occurs, Bool.or_eq_false_iff] at hvar
      simp [print_tree, ihl hvar.1, ihr hvar.2]
  | NODE_SUB l r ihl ihr =>
      simp only [occurs, Bool.or_eq_false_iff] at hvar
      simp only [print_tree]
      split_ifs <;> simp [ihl hvar.1, ihr hvar.2]
  | NODE_MUL l r ihl ihr =>
      simp only [occurs, Bool.or_eq_false_iff] at hvar
      simp only [print_tree]
      split_ifs <;> simp [ihl hvar.1, ihr hvar.2]
  | NODE_DIV l r ihl ihr =>
      simp only [occurs, Bool.or_eq_false_iff] at hvar
      simp only [print_tree]
      split_ifs <;> simp [ihl hvar.1, ihr hvar.2]
  | NODE_POW l r ihl ihr =>
      simp only [occurs, Bool.or_eq_false_iff] at hvar
      simp only [print_tree]
      split_ifs <;> simp [ihl hvar.1, ihr hvar.2]
  | NODE_SIN f ih => simp [print_tree, ih hvar]
  | NODE_COS f ih => simp [print_tree, ih hvar]
  | NODE_EXP f ih => simp [print_tree, ih hvar]
  | NODE_LN f ih => simp [print_tree, ih hvar]

theorem digit_char_ne_space (d : ℕ) (h : d < 10) : Char.ofNat (48 + d) ≠ ' ' := by
  interval_cases d <;> decide

theorem print_nat_no_space (n : ℕ) : ' ' ∉ print_nat n := by
  unfold print_nat
  split_ifs
  · decide
  · simp only [List.mem_map, List.mem_reverse, not_exists, not_and]
    intro d hd heq
    exact digit_char_ne_space d (Nat.digits_lt_base (by norm_num) hd) heq

theorem print_number_no_space (v : ℚ) : ' ' ∉ print_number v := by
  unfold print_number
  split_ifs
  · unfold print_d
    split_ifs
    · simp only [List.mem_cons, not_or]
      exact ⟨by decide, print_nat_no_space _⟩
    · exact print_nat_no_space _
  · unfold print_2f
    simp only [List.mem_append, List.mem_cons, not_or]
    refine ⟨⟨?_, print_nat_no_space _⟩, by decide, ?_, ?_, by simp⟩
    · split_ifs <;> simp
    · exact fun h => digit_char_ne_space _ (by omega) h.symm
    · exact fun h => digit_char_ne_space _ (by omega) h.symm

/-- C14: `print_tree` writes exactly the reference rendering, and it writes no space: when
the text of no number contains a space and no variable is the space character, the output
contains none. -/
theorem print_tree_reference (fmt : α → List Char) (t : Node α)
    (hfmt : ∀ v, ' ' ∉ fmt v) (hvar : occurs ' ' t = false) :
    print_tree fmt t = render fmt t ∧ ' ' ∉ print_tree fmt t :=
  ⟨print_tree_eq_render fmt t, print_tree_no_space fmt t hfmt hvar⟩

/-- C14 on `(x+1)/(y*2)`, with numbers printed by `print_number`. -/
theorem print_tree_reference_witness :
    print_tree print_number
        (NODE_DIV (NODE_ADD (NODE_VARIABLE 'x') (NODE_NUMBER 1))
          (NODE_MUL (NODE_VARIABLE 'y') (NODE_NUMBER 2)))
      = render print_number
        (NODE_DIV (NODE_ADD (NODE_VARIABLE 'x') (NODE_NUMBER 1))
          (NODE_MUL (NODE_VARIABLE 'y') (NODE_NUMBER 2))) ∧
    ' ' ∉ print_tree print_number
        (NODE_DIV (NODE_ADD (NODE_VARIABLE 'x') (NODE_NUMBER 1))
          (NODE_MUL (NODE_VARIABLE 'y') (NODE_NUMBER 2))) :=
  print_tree_reference print_number _ print_number_no_space (by decide)

/-! ## Errors of the parser -/

/-- An error in any call reached while the line is parsed is the result of `parse`: the
program exits there. -/
theorem parse_error_of_call (strtod : List Char → α × Nat) (line : List Char) {f : Frame α}
    {st : ParserState α} (h : Calls strtod line f st) :
    ∀ e, f.run strtod st = .error e → parse strtod line = .error e := by
  induction h with
  | start =>
      intro e he
      simp only [Frame.run] at he
      simp only [parse, he]
  | expression_term _ ih =>
      intro e he
      apply ih
      simp only [Frame.run] at he ⊢
      rw [parse_expression_eq, he]
  | expression_loop _ hl ih =>
      intro e he
      apply ih
      simp only [Frame.run] at he ⊢
      rw [parse_expression_eq, hl]
      exact he
  | expression_loop_term _ hop ih =>
      intro e he
      apply ih
      simp only [Frame.run] at he ⊢
      rw [parse_expression_loop_eq, if_pos hop, he]
  | expression_loop_again _ hop hr ih =>
      intro e he
      apply ih
      simp only [Frame.run] at he ⊢
      rw [parse_expression_loop_eq, if_pos hop, hr]
      exact he
  | term_factor _ ih =>
      intro e he
      apply ih
      simp only [Frame.run] at he ⊢
      rw [parse_term_eq, he]
  | term_loop _ hl ih =>
      intro e he
      apply ih
      simp only [Frame.run] at he ⊢
      rw [parse_term_eq, hl]
      exact he
  | term_loop_factor _ hop ih =>
      intro e he
      apply ih
      simp only [Frame.run] at he ⊢
      rw [parse_term_loop_eq, if_pos hop, he]
  | term_loop_again _ hop hr ih =>
      intro e he
      apply ih
      simp only [Frame.run] at he ⊢
      rw [parse_term_loop_eq, if_pos hop, hr]
      exact he
  | factor_power _ ih =>
      intro e he
      apply ih
      simp only [Frame.run] at he ⊢
      rw [parse_factor_eq, he]
  | power_primary _ ih =>
      intro e he
      apply ih
      simp only [Frame.run] at he ⊢
      rw [parse_power_eq, he]
  | power_power _ hl hp ih =>
      intro e he
      apply ih
      simp only [Frame.run] at he ⊢
      rw [parse_power_eq, hl]
      simp only [hp, if_true, he]
  | primary_function _ hf hl ih =>
      intro e he
      apply ih
      simp only [Frame.run] at he ⊢
      rw [parse_primary_eq]
      rcases hf with hf | hf | hf | hf <;> simp [hf, hl, he]
  | primary_paren _ hp ih =>
      intro e he
      apply ih
      simp only [Frame.run] at he ⊢
      rw [parse_primary_eq]
      simp [hp, he]

theorem calls_primary_start (strtod : List Char → α × Nat) (line : List Char) :
    Calls strtod line .primary (advance strtod ⟨line, TOKEN_END⟩) :=
  .power_primary (.factor_power (.term_factor (.expression_term .start)))

/-- C16: `parse` returns an error, not a tree, (a) when `parse_primary` is reached on a
function keyword and the next token is not `(`; (b) when the token after the expression
inside `( ... )` or inside a function argument is not `)`; (c) when `parse_primary` is
reached on a token that is not a number, a variable, a function keyword or `(`, as for `x+`
and for every line that starts with `-`; (d) when a token other than the end marker follows
the complete expression, as for `2x` and `x)`. -/
theorem parse_fails (strtod : List Char → α × Nat) (line : List Char) :
    (∀ st, Calls strtod line .primary st →
      (st.current_token = TOKEN_SIN ∨ st.current_token = TOKEN_COS ∨
        st.current_token = TOKEN_EXP ∨ st.current_token = TOKEN_LN) →
      (advance strtod st).current_token ≠ TOKEN_LPAREN →
      parse strtod line = .error .lparen_expected) ∧
    (∀ st node st2, Calls strtod line .primary st → st.current_token = TOKEN_LPAREN →
      parse_expression strtod (advance strtod st) = .ok (node, st2) →
      st2.current_token ≠ TOKEN_RPAREN →
      parse strtod line = .error .rparen_expected) ∧
    (∀ st arg st3, Calls strtod line .primary st →
      (st.current_token = TOKEN_SIN ∨ st.current_token = TOKEN_COS ∨
        st.current_token = TOKEN_EXP ∨ st.current_token = TOKEN_LN) →
      (advance strtod st).current_token = TOKEN_LPAREN →
      parse_expression strtod (advance strtod (advance strtod st)) = .ok (arg, st3) →
      st3.current_token ≠ TOKEN_RPAREN →
      parse strtod line = .error .rparen_expected) ∧
    (∀ st, Calls strtod line .primary st →
      (∀ v, st.current_token ≠ TOKEN_NUMBER v) → (∀ c, st.current_token ≠ TOKEN_VARIABLE c) →
      st.current_token ≠ TOKEN_SIN → st.current_token ≠ TOKEN_COS →
      st.current_token ≠ TOKEN_EXP → st.current_token ≠ TOKEN_LN →
      st.current_token ≠ TOKEN_LPAREN →
      parse strtod line = .error .syntax_error) ∧
    (∀ tree st, parse_expression strtod (advance strtod ⟨line, TOKEN_END⟩) = .ok (tree, st) →
      st.current_token ≠ TOKEN_END →
      parse strtod line = .error .trailing_characters) ∧
    parse strtod ['x', '+'] = .error .syntax_error ∧
    (∀ rest, parse strtod ('-' :: rest) = .error .syntax_error) ∧
    parse strtod ['s', 'i', 'n', ' ', 'x'] = .error .lparen_expected ∧
    parse strtod ['(', 'x'] = .error .rparen_expected ∧
    parse strtod_rat ['2', 'x'] = .error .trailing_characters ∧
    parse strtod ['x', ')'] = .error .trailing_characters := by
  have ex : isalpha 'x' = true := rfl
  refine ⟨?_, ?_, ?_, ?_, ?_, ?_, ?_, ?_, ?_, ?_, ?_⟩
  · intro st hc hf hl
    apply parse_error_of_call strtod line hc
    simp only [Frame.run]
    rw [parse_primary_eq]
    rcases hf with hf | hf | hf | hf <;> simp [hf, hl]
  · intro st node st2 hc hp he hr
    apply parse_error_of_call strtod line hc
    simp only [Frame.run]
    rw [parse_primary_eq]
    simp [hp, he, hr]
  · intro st arg st3 hc hf hl he hr
    apply parse_error_of_call strtod line hc
    simp only [Frame.run]
    rw [parse_primary_eq]
    rcases hf with hf | hf | hf | hf <;> simp [hf, hl, he, hr]
  · intro st hc h1 h2 h3 h4 h5 h6 h7
    apply parse_error_of_call strtod line hc
    simp only [Frame.run]
    rw [parse_primary_eq]
    split <;> simp_all
  · intro tree st he hend
    simp only [parse, he, hend, ne_eq, not_false_eq_true, if_true]
  · simp [parse, advance, parse_expression_eq, parse_expression_loop_eq, parse_term_eq,
      parse_term_loop_eq, parse_factor_eq, parse_power_eq, parse_primary_eq,
      get_next_token_variable, get_next_token_plus, get_next_token_nil, ex,
      show isalpha '+' = false from rfl]
  · intro rest
    simp [parse, advance, parse_expression_eq, parse_term_eq, parse_factor_eq, parse_power_eq,
      parse_primary_eq, get_next_token_minus]
  · have t1 : get_next_token strtod ['s', 'i', 'n', ' ', 'x'] = (TOKEN_SIN, [' ', 'x']) := rfl
    have t2 : get_next_token strtod [' ', 'x'] = (TOKEN_VARIABLE 'x', []) := rfl
    simp [parse, advance, parse_expression_eq, parse_term_eq, parse_factor_eq, parse_power_eq,
      parse_primary_eq, t1, t2]
  · simp [parse, advance, parse_expression_eq, parse_expression_loop_eq, parse_term_eq,
      parse_term_loop_eq, parse_factor_eq, parse_power_eq, parse_primary_eq,
      get_next_token_variable, get_next_token_lparen, get_next_token_nil, ex]
  · have t1 : get_next_token strtod_rat ['2', 'x'] = (TOKEN_NUMBER 2, ['x']) :=
      get_next_token_two ['x'] (by decide)
    simp [parse, advance, parse_expression_eq, parse_expression_loop_eq, parse_term_eq,
      parse_term_loop_eq, parse_factor_eq, parse_power_eq, parse_primary_eq,
      get_next_token_variable, get_next_token_nil, ex, t1]
  · simp [parse, advance, parse_expression_eq, parse_expression_loop_eq, parse_term_eq,
      parse_term_loop_eq, parse_factor_eq, parse_power_eq, parse_primary_eq,
      get_next_token_variable, get_next_token_rparen, get_next_token_nil, ex,
      show isalpha ')' = false from rfl]

/-- C16 from its clauses: `cos+` fails by clause (a), `*` by clause (c). -/
theorem parse_fails_witness :
    parse strtod_rat ['c', 'o', 's', '+'] = .error .lparen_expected ∧
    parse strtod_rat ['*'] = .error .syntax_error :=
  ⟨(parse_fails strtod_rat ['c', 'o', 's', '+']).1 _ (calls_primary_start _ _)
      (Or.inr (Or.inl rfl)) (by decide),
   (parse_fails strtod_rat ['*']).2.2.2.1 _ (calls_primary_start _ _)
      (fun _ => by simp [advance, get_next_token_mult])
      (fun _ => by simp [advance, get_next_token_mult])
      (by simp [advance, get_next_token_mult]) (by simp [advance, get_next_token_mult])
      (by simp [advance, get_next_token_mult]) (by simp [advance, get_next_token_mult])
      (by simp [advance, get_next_token_mult])⟩

/-! ## Reading back a printed number -/

theorem digit_char_isdigit (d : ℕ) (h : d < 10) :
    isdigit (Char.ofNat (48 + d)) = true ∧ (Char.ofNat (48 + d)).toNat - 48 = d := by
  interval_cases d <;> exact ⟨by decide, by decide⟩

theorem decimal_value_append_singleton (xs : List Char) (c : Char) :
    decimal_value (xs ++ [c]) = 10 * decimal_value xs + (c.toNat - 48) := by
  simp [decimal_value, List.foldl_append]

theorem decimal_value_append (xs ys : List Char) :
    decimal_value (xs ++ ys) = decimal_value xs * 10 ^ ys.length + decimal_value ys := by
  induction ys using List.reverseRecOn with
  | nil => simp [decimal_value]
  | append_singleton ys c ih =>
      rw [← List.append_assoc, decimal_value_append_singleton, ih,
        decimal_value_append_singleton, List.length_append, List.length_singleton, pow_succ]
      ring

theorem decimal_value_digits (L : List ℕ) (h : ∀ d ∈ L, d < 10) :
    decimal_value (L.reverse.map fun d => Char.ofNat (48 + d)) = Nat.ofDigits 10 L := by
  induction L with
  | nil => simp [decimal_value]
  | cons d L ih =>
      have hd := h d (List.mem_cons_self _ _)
      have hL : ∀ e ∈ L, e < 10 := fun e he => h e (List.mem_cons_of_mem _ he)
      rw [List.reverse_cons, List.map_append, List.map_singleton,
        decimal_value_append_singleton, ih hL, (digit_char_isdigit d hd).2, Nat.ofDigits_cons]
      ring

theorem print_nat_digits (n : ℕ) :
    (∀ c ∈ print_nat n, isdigit c = true) ∧ print_nat n ≠ [] ∧
    decimal_value (print_nat n) = n := by
  unfold print_nat
  split_ifs with h0
  · subst h0
    exact ⟨by decide, by simp, by simp [decimal_value]⟩
  · refine ⟨?_, ?_, ?_⟩
    · intro c hc
      simp only [List.mem_map, List.mem_reverse] at hc
      obtain ⟨d, hd, rfl⟩ := hc
      exact (digit_char_isdigit d (Nat.digits_lt_base (by norm_num) hd)).1
    · simp only [ne_eq, List.map_eq_nil_iff, List.reverse_eq_nil_iff]
      exact fun h => h0 (Nat.digits_eq_nil_iff_eq_zero.1 h)
    · rw [decimal_value_digits _ (fun d hd => Nat.digits_lt_base (by norm_num) hd),
        Nat.ofDigits_digits]

theorem takeWhile_digits (ds rest : List Char) (hds : ∀ c ∈ ds, isdigit c = true)
    (hrest : ∀ c ∈ rest.head?, isdigit c = false) :
    (ds ++ rest).takeWhile isdigit = ds ∧ (ds ++ rest).dropWhile isdigit = rest := by
  induction ds with
  | nil =>
      cases rest with
      | nil => simp
      | cons c cs =>
          have := hrest c (by simp)
          simp [List.takeWhile, List.dropWhile, this]
  | cons d ds ih =>
      have hd := hds d (List.mem_cons_self _ _)
      have := ih (fun c hc => hds c (List.mem_cons_of_mem _ hc))
      simp [List.takeWhile, List.dropWhile, hd, this]

theorem strtod_rat_integer (ds rest : List Char) (hds : ∀ c ∈ ds, isdigit c = true)
    (hne : ds ≠ []) (hrest : ends_number rest) :
    strtod_rat (ds ++ rest) = ((decimal_value ds : ℚ), ds.length) := by
  have h1 := takeWhile_digits ds rest hds (fun c hc => (hrest c hc).1)
  have hp : ¬ rest.head? = some '.' := fun h => (hrest '.' (by simp [h])).2.1 rfl
  have he : ¬ (rest.head? = some 'e' ∨ rest.head? = some 'E') := by
    rintro (h | h)
    · exact (hrest 'e' (by simp [h])).2.2.1 rfl
    · exact (hrest 'E' (by simp [h])).2.2.2 rfl
  simp [strtod_rat, h1.1, h1.2, hp, he, hne]

theorem strtod_rat_fraction (ds fs rest : List Char) (hds : ∀ c ∈ ds, isdigit c = true)
    (hfs : ∀ c ∈ fs, isdigit c = true) (hne : ds ≠ []) (hrest : ends_number rest) :
    strtod_rat (ds ++ '.' :: (fs ++ rest))
      = ((decimal_value (ds ++ fs) : ℚ) / 10 ^ fs.length, ds.length + 1 + fs.length) := by
  have h1 := takeWhile_digits ds ('.' :: (fs ++ rest)) hds (by simp; decide)
  have h2 := takeWhile_digits fs rest hfs (fun c hc => (hrest c hc).1)
  have he : ¬ (rest.head? = some 'e' ∨ rest.head? = some 'E') := by
    rintro (h | h)
    · exact (hrest 'e' (by simp [h])).2.2.1 rfl
    · exact (hrest 'E' (by simp [h])).2.2.2 rfl
  simp [strtod_rat, h1.1, h1.2, h2.1, h2.2, he, hne]

theorem get_next_token_number (strtod : List Char → α × Nat) (c : Char) (cs : List Char)
    (hc : isdigit c = true) :
    get_next_token strtod (c :: cs)
      = (TOKEN_NUMBER (strtod (c :: cs)).1, (c :: cs).drop (strtod (c :: cs)).2) := by
  have key : ∀ d : Char, isdigit d = false → c ≠ d := by
    intro d hd hcd
    rw [hcd, hd] at hc
    exact Bool.noConfusion hc
  have h1 : c ≠ ' ' := key _ (by decide)
  have h2 : c ≠ '\t' := key _ (by decide)
  have h3 : c ≠ Char.ofNat 0 := key _ (by decide)
  unfold get_next_token
  rw [skip_whitespace_of_not_blank c cs h1 h2]
  simp only [h3, if_false, hc, true_or, if_true]

theorem get_next_token_print_number (v : ℚ) (hv : printable v) (rest : List Char)
    (hrest : ends_number rest) :
    get_next_token strtod_rat (print_number v ++ rest) = (TOKEN_NUMBER v, rest) := by
  obtain ⟨k, hk, _⟩ := hv
  by_cases hdiv : 100 ∣ k
  · obtain ⟨n, rfl⟩ := hdiv
    have hvn : v = (n : ℚ) := by rw [hk]; push_cast; field_simp
    obtain ⟨hd, hne, hval⟩ := print_nat_digits n
    rw [hvn, print_number_natCast]
    obtain ⟨c, cs, hcs⟩ := List.exists_cons_of_ne_nil hne
    have hc : isdigit c = true := hd c (by rw [hcs]; exact List.mem_cons_self _ _)
    have hst := strtod_rat_integer (print_nat n) rest hd hne hrest
    rw [hcs] at hst ⊢
    rw [List.cons_append, get_next_token_number strtod_rat c (cs ++ rest) hc]
    rw [List.cons_append] at hst
    rw [hst, ← hcs, hval]
    simp [← List.cons_append, ← hcs]
  · obtain ⟨hd, hne, hval⟩ := print_nat_digits (k / 100)
    have h1 := digit_char_isdigit (k % 100 / 10) (by omega)
    have h2 := digit_char_isdigit (k % 10) (by omega)
    rw [hk, print_number_hundredths k hdiv]
    obtain ⟨c, cs, hcs⟩ := List.exists_cons_of_ne_nil hne
    have hc : isdigit c = true := hd c (by rw [hcs]; exact List.mem_cons_self _ _)
    have hfs : ∀ x ∈ [Char.ofNat (48 + k % 100 / 10), Char.ofNat (48 + k % 10)],
        isdigit x = true := by
      intro x hx
      simp only [List.mem_cons, List.mem_singleton, List.not_mem_nil, or_false] at hx
      rcases hx with rfl | rfl
      · exact h1.1
      · exact h2.1
    have hst := strtod_rat_fraction (print_nat (k / 100))
      [Char.ofNat (48 + k % 100 / 10), Char.ofNat (48 + k % 10)] rest hd hfs hne hrest
    have htext : print_nat (k / 100) ++
          ['.', Char.ofNat (48 + k % 100 / 10), Char.ofNat (48 + k % 10)] ++ rest
        = print_nat (k / 100) ++ '.' ::
            ([Char.ofNat (48 + k % 100 / 10), Char.ofNat (48 + k % 10)] ++ rest) := by
      simp
    rw [htext]
    have hval2 : decimal_value (print_nat (k / 100) ++
        [Char.ofNat (48 + k % 100 / 10), Char.ofNat (48 + k % 10)]) = k := by
      rw [decimal_value_append, hval]
      simp only [decimal_value, List.foldl_cons, List.foldl_nil, h1.2, h2.2, List.length_cons,
        List.length_nil]
      omega
    rw [hval2] at hst
    rw [hcs] at hst ⊢
    rw [List.cons_append, get_next_token_number strtod_rat c _ hc]
    rw [List.cons_append] at hst
    rw [hst]
    simp only [List.length_cons, List.length_nil, Nat.reducePow, Nat.cast_ofNat]
    refine Prod.ext (by norm_num) ?_
    simp only
    rw [← List.cons_append, List.drop_append_eq_append_drop]
    simp

/-! ## The variables of a parsed tree -/

omit [LinearOrderedField α] in
theorem letter_of_ne_variable {t : Token α} (h : ∀ w, t ≠ TOKEN_VARIABLE w) : t.letter :=
  fun w hw => absurd hw (h w)

theorem get_next_token_letter (strtod : List Char → α × Nat) (cs : List Char) :
    (get_next_token strtod cs).1.letter := by
  unfold get_next_token
  split
  · exact letter_of_ne_variable (fun w hw => Token.noConfusion hw)
  · rename_i c cs1 _
    by_cases h0 : c = Char.ofNat 0
    · rw [if_pos h0]
      exact letter_of_ne_variable (fun w hw => Token.noConfusion hw)
    · rw [if_neg h0]
      by_cases h1 : isdigit c = true ∨ c = '.'
      · rw [if_pos h1]
        exact letter_of_ne_variable (fun w hw => Token.noConfusion hw)
      · rw [if_neg h1]
        by_cases h2 : isalpha c = true
        · rw [if_pos h2]
          have hb : (read_identifier 9 (c :: cs1)).1.headD c = c := by
            simp [read_identifier, h2]
          simp only []
          split_ifs
          · exact letter_of_ne_variable (fun w hw => Token.noConfusion hw)
          · exact letter_of_ne_variable (fun w hw => Token.noConfusion hw)
          · exact letter_of_ne_variable (fun w hw => Token.noConfusion hw)
          · exact letter_of_ne_variable (fun w hw => Token.noConfusion hw)
          · intro w hw
            have h5 := Token.TOKEN_VARIABLE.inj hw
            rw [hb] at h5
            rw [← h5]
            exact h2
          · exact letter_of_ne_variable (fun w hw => Token.noConfusion hw)
        · rw [if_neg h2]
          split_ifs <;> exact letter_of_ne_variable (fun w hw => Token.noConfusion hw)

theorem advance_letter (strtod : List Char → α × Nat) (st : ParserState α) :
    (advance strtod st).current_token.letter :=
  get_next_token_letter strtod st.input

theorem parse_expression_within (strtod : List Char → α × Nat) (st : ParserState α) :
    (parse_expression strtod st).within st := (parse_expressionAux strtod st).2

theorem parse_term_within (strtod : List Char → α × Nat) (st : ParserState α) :
    (parse_term strtod st).within st := (parse_termAux strtod st).2

theorem parse_factor_within (strtod : List Char → α × Nat) (st : ParserState α) :
    (parse_factor strtod st).within st := (parse_factorAux strtod st).2

theorem parse_power_within (strtod : List Char → α × Nat) (st : ParserState α) :
    (parse_power strtod st).within st := (parse_powerAux strtod st).2

theorem parse_primary_within (strtod : List Char → α × Nat) (st : ParserState α) :
    (parse_primary strtod st).within st := (parse_primaryAux strtod st).2

theorem parse_letters_aux (strtod : List Char → α × Nat) (n : Nat) :
    ∀ st : ParserState α, st.current_token.letter →
      (8 * st.measure + 6 ≤ n → (parse_expression strtod st).letters) ∧
      (∀ left, letters left → 8 * st.measure + 5 ≤ n →
        (parse_expression_loop strtod left st).letters) ∧
      (8 * st.measure + 4 ≤ n → (parse_term strtod st).letters) ∧
      (∀ left, letters left → 8 * st.measure + 3 ≤ n →
        (parse_term_loop strtod left st).letters) ∧
      (8 * st.measure + 2 ≤ n → (parse_factor strtod st).letters) ∧
      (8 * st.measure + 1 ≤ n → (parse_power strtod st).letters) ∧
      (8 * st.measure ≤ n → (parse_primary strtod st).letters) := by
  induction n using Nat.strong_induction_on with
  | _ n IH =>
  intro st hst
  refine ⟨?_, ?_, ?_, ?_, ?_, ?_, ?_⟩
  · intro hn t st9 hr
    rw [parse_expression_eq] at hr
    cases hp : parse_term strtod st with
    | error e => simp [hp] at hr
    | ok p =>
        obtain ⟨left, st1⟩ := p
        simp only [hp] at hr
        have h1 := (IH (8 * st.measure + 4) (by omega) st hst).2.2.1 le_rfl left st1 hp
        have hm : st1.measure ≤ st.measure := parse_term_within strtod st left st1 hp
        exact (IH (8 * st1.measure + 5) (by omega) st1 h1.2).2.1 left h1.1 le_rfl t st9 hr
  · intro left hleft hn t st9 hr
    rw [parse_expression_loop_eq] at hr
    by_cases h : st.current_token = TOKEN_PLUS ∨ st.current_token = TOKEN_MINUS
    · rw [if_pos h] at hr
      have hlt : (advance strtod st).measure < st.measure :=
        measure_advance_lt strtod st (by rcases h with h | h <;> rw [h] <;> rfl)
      cases hp : parse_term strtod (advance strtod st) with
      | error e => simp [hp] at hr
      | ok p =>
          obtain ⟨right, st2⟩ := p
          simp only [hp] at hr
          have h1 := (IH (8 * (advance strtod st).measure + 4) (by omega) _
            (advance_letter strtod st)).2.2.1 le_rfl right st2 hp
          have hm : st2.measure ≤ (advance strtod st).measure :=
            parse_term_within strtod _ right st2 hp
          refine (IH (8 * st2.measure + 5) (by omega) st2 h1.2).2.1 _ ?_ le_rfl t st9 hr
          split_ifs
          · exact ⟨hleft, h1.1⟩
          · exact ⟨hleft, h1.1⟩
    · rw [if_neg h] at hr
      simp only [Except.ok.injEq, Prod.mk.injEq] at hr
      rw [← hr.1, ← hr.2]
      exact ⟨hleft, hst⟩
  · intro hn t st9 hr
    rw [parse_term_eq] at hr
    cases hp : parse_factor strtod st with
    | error e => simp [hp] at hr
    | ok p =>
        obtain ⟨left, st1⟩ := p
        simp only [hp] at hr
        have h1 := (IH (8 * st.measure + 2) (by omega) st hst).2.2.2.2.1 le_rfl left st1 hp
        have hm : st1.measure ≤ st.measure := parse_factor_within strtod st left st1 hp
        exact (IH (8 * st1.measure + 3) (by omega) st1 h1.2).2.2.2.1 left h1.1 le_rfl t st9 hr
  · intro left hleft hn t st9 hr
    rw [parse_term_loop_eq] at hr
    by_cases h : st.current_token = TOKEN_MULT ∨ st.current_token = TOKEN_DIV
    · rw [if_pos h] at hr
      have hlt : (advance strtod st).measure < st.measure :=
        measure_advance_lt strtod st (by rcases h with h | h <;> rw [h] <;> rfl)
      cases hp : parse_factor strtod (advance strtod st) with
      | error e => simp [hp] at hr
      | ok p =>
          obtain ⟨right, st2⟩ := p
          simp only [hp] at hr
          have h1 := (IH (8 * (advance strtod st).measure + 2) (by omega) _
            (advance_letter strtod st)).2.2.2.2.1 le_rfl right st2 hp
          have hm : st2.measure ≤ (advance strtod st).measure :=
            parse_factor_within strtod _ right st2 hp
          refine (IH (8 * st2.measure + 3) (by omega) st2 h1.2).2.2.2.1 _ ?_ le_rfl t st9 hr
          split_ifs
          · exact ⟨hleft, h1.1⟩
          · exact ⟨hleft, h1.1⟩
    · rw [if_neg h] at hr
      simp only [Except.ok.injEq, Prod.mk.injEq] at hr
      rw [← hr.1, ← hr.2]
      exact ⟨hleft, hst⟩
  · intro hn t st9 hr
    rw [parse_factor_eq] at hr
    exact (IH (8 * st.measure + 1) (by omega) st hst).2.2.2.2.2.1 le_rfl t st9 hr
  · intro hn t st9 hr
    rw [parse_power_eq] at hr
    cases hp : parse_primary strtod st with
    | error e => simp [hp] at hr
    | ok p =>
        obtain ⟨left, st1⟩ := p
        simp only [hp] at hr
        have h1 := (IH (8 * st.measure) (by omega) st hst).2.2.2.2.2.2 le_rfl left st1 hp
        have hm : st1.measure ≤ st.measure := parse_primary_within strtod st left st1 hp
        by_cases h : st1.current_token = TOKEN_POW
        · rw [if_pos h] at hr
          have hlt : (advance strtod st1).measure < st1.measure :=
            measure_advance_lt strtod st1 (by rw [h]; rfl)
          cases hq : parse_power strtod (advance strtod st1) with
          | error e => simp [hq] at hr
          | ok q =>
              obtain ⟨right, st2⟩ := q
              simp only [hq, Except.ok.injEq, Prod.mk.injEq] at hr
              have h2 := (IH (8 * (advance strtod st1).measure + 1) (by omega) _
                (advance_letter strtod st1)).2.2.2.2.2.1 le_rfl right st2 hq
              rw [← hr.1, ← hr.2]
              exact ⟨⟨h1.1, h2.1⟩, h2.2⟩
        · rw [if_neg h] at hr
          simp only [Except.ok.injEq, Prod.mk.injEq] at hr
          rw [← hr.1, ← hr.2]
          exact h1
  · intro hn t st9 hr
    rw [parse_primary_eq] at hr
    have expr : ∀ st0 : ParserState α, st0.measure < st.measure →
        (parse_expression strtod (advance strtod st0)).letters := by
      intro st0 h0
      have := measure_advance_le strtod st0
      exact (IH (8 * (advance strtod st0).measure + 6) (by omega) _
        (advance_letter strtod st0)).1 le_rfl
    cases htok : st.current_token with
    | TOKEN_NUMBER v =>
        simp only [htok, Except.ok.injEq, Prod.mk.injEq] at hr
        rw [← hr.1, ← hr.2]
        exact ⟨trivial, advance_letter strtod st⟩
    | TOKEN_VARIABLE w =>
        simp only [htok, Except.ok.injEq, Prod.mk.injEq] at hr
        rw [← hr.1, ← hr.2]
        exact ⟨hst w htok, advance_letter strtod st⟩
    | TOKEN_LPAREN =>
        simp only [htok] at hr
        have hlt : (advance strtod st).measure < st.measure :=
          measure_advance_lt strtod st (by rw [htok]; rfl)
        have hlt0 : st.measure ≤ st.measure := le_rfl
        cases hp : parse_expression strtod (advance strtod st) with
        | error e => simp [hp] at hr
        | ok p =>
            obtain ⟨node, st2⟩ := p
            simp only [hp] at hr
            split_ifs at hr
            simp only [Except.ok.injEq, Prod.mk.injEq] at hr
            have h1 := (IH (8 * (advance strtod st).measure + 6) (by omega) _
              (advance_letter strtod st)).1 le_rfl node st2 hp
            rw [← hr.1, ← hr.2]
            exact ⟨h1.1, advance_letter strtod st2⟩
    | TOKEN_SIN | TOKEN_COS | TOKEN_EXP | TOKEN_LN =>
        simp only [htok] at hr
        have hlt : (advance strtod st).measure < st.measure :=
          measure_advance_lt strtod st (by rw [htok]; rfl)
        by_cases hl : (advance strtod st).current_token ≠ TOKEN_LPAREN
        · rw [if_pos hl] at hr
          cases hr
        · rw [if_neg hl] at hr
          cases hp : parse_expression strtod (advance strtod (advance strtod st)) with
          | error e => simp [hp] at hr
          | ok p =>
              obtain ⟨arg, st3⟩ := p
              have h1 := expr (advance strtod st) hlt arg st3 hp
              simp only [hp] at hr
              by_cases hc : st3.current_token ≠ TOKEN_RPAREN
              · rw [if_pos hc] at hr
                cases hr
              · rw [if_neg hc] at hr
                simp only [Except.ok.injEq, Prod.mk.injEq] at hr
                rw [← hr.1, ← hr.2]
                refine ⟨?_, advance_letter strtod st3⟩
                exact h1.1
    | _ => simp [htok] at hr

theorem parse_letters (strtod : List Char → α × Nat) (line : List Char) (t : Node α)
    (h : parse strtod line = .ok t) : letters t := by
  unfold parse at h
  cases hp : parse_expression strtod (advance strtod ⟨line, TOKEN_END⟩) with
  | error e => simp [hp] at h
  | ok p =>
      obtain ⟨tree, st⟩ := p
      simp only [hp] at h
      split_ifs at h
      simp only [Except.ok.injEq] at h
      rw [← h]
      exact ((parse_letters_aux strtod _ _ (advance_letter strtod _)).1 le_rfl tree st hp).1

theorem letters_simplify_ADD {l r : Node α} (hl : letters l) (hr : letters r) :
    letters (simplify_ADD l r) := by
  unfold simplify_ADD
  split_ifs
  · exact hr
  · exact hl
  · split
    · trivial
    · exact ⟨hl, hr⟩

theorem letters_simplify_SUB_fold {l r : Node α} (hl : letters l) (hr : letters r) :
    letters (simplify_SUB_fold l r) := by
  unfold simplify_SUB_fold
  split
  · trivial
  · exact ⟨hl, hr⟩

theorem letters_simplify_MUL {l r : Node α} (hl : letters l) (hr : letters r) :
    letters (simplify_MUL l r) := by
  unfold simplify_MUL
  split_ifs
  · trivial
  · exact hr
  · exact hl
  · split
    · trivial
    · exact ⟨hl, hr⟩

theorem letters_simplify_DIV {l r : Node α} (hl : letters l) (hr : letters r) :
    letters (simplify_DIV l r) := by
  unfold simplify_DIV
  split_ifs
  · trivial
  · exact hl
  · split
    · split_ifs
      · trivial
      · exact ⟨hl, hr⟩
    · exact ⟨hl, hr⟩

theorem letters_simplify_POW (pow : α → α → α) {l r : Node α} (hl : letters l)
    (hr : letters r) : letters (simplify_POW pow l r) := by
  unfold simplify_POW
  split_ifs
  · trivial
  · exact hl
  · trivial
  · trivial
  · split
    · trivial
    · exact ⟨hl, hr⟩

theorem letters_of_graph {pow : α → α → α} {a b : Node α} (h : Simplifies pow a b) :
    letters a → letters b := by
  induction h with
  | leaf_number c => exact id
  | leaf_variable w => exact id
  | add _ _ ihl ihr => exact fun h => letters_simplify_ADD (ihl h.1) (ihr h.2)
  | sub_zero_right _ _ _ ihl _ => exact fun h => ihl h.1
  | sub_zero_left _ _ _ _ _ _ ihr ihm => exact fun h => ihm ⟨trivial, ihr h.2⟩
  | sub_fold _ _ _ _ ihl ihr => exact fun h => letters_simplify_SUB_fold (ihl h.1) (ihr h.2)
  | mul _ _ ihl ihr => exact fun h => letters_simplify_MUL (ihl h.1) (ihr h.2)
  | div _ _ ihl ihr => exact fun h => letters_simplify_DIV (ihl h.1) (ihr h.2)
  | pow _ _ ihl ihr => exact fun h => letters_simplify_POW _ (ihl h.1) (ihr h.2)
  | sin _ ih => exact ih
  | cos _ ih => exact ih
  | exp _ ih => exact ih
  | ln _ ih => exact ih

theorem letters_simplify (pow : α → α → α) (t : Node α) (h : letters t) :
    letters (simplify pow t) :=
  letters_of_graph (simplify_graph pow t) h

/-! ## Reading back a printed tree -/

theorem start_eq (cs : List Char) :
    start cs = ⟨(get_next_token strtod_rat cs).2, (get_next_token strtod_rat cs).1⟩ := rfl

theorem advance_eq_start (st : ParserState ℚ) : advance strtod_rat st = start st.input := rfl

theorem start_nil : start [] = ⟨[], TOKEN_END⟩ := rfl

theorem start_plus (cs : List Char) : start ('+' :: cs) = ⟨cs, TOKEN_PLUS⟩ := rfl

theorem start_minus (cs : List Char) : start ('-' :: cs) = ⟨cs, TOKEN_MINUS⟩ := rfl

theorem start_mult (cs : List Char) : start ('*' :: cs) = ⟨cs, TOKEN_MULT⟩ := rfl

theorem start_div (cs : List Char) : start ('/' :: cs) = ⟨cs, TOKEN_DIV⟩ := rfl

theorem start_pow (cs : List Char) : start ('^' :: cs) = ⟨cs, TOKEN_POW⟩ := rfl

theorem start_lparen (cs : List Char) : start ('(' :: cs) = ⟨cs, TOKEN_LPAREN⟩ := rfl

theorem start_rparen (cs : List Char) : start (')' :: cs) = ⟨cs, TOKEN_RPAREN⟩ := rfl

theorem after_factor_of_after_term {rest : List Char} (h : after_term rest) :
    after_factor rest := by
  intro c hc
  have hc1 := h c hc
  tauto

theorem after_primary_of_after_factor {rest : List Char} (h : after_factor rest) :
    after_primary rest := by
  intro c hc
  have hc1 := h c hc
  tauto

theorem after_term_of_after_expression {rest : List Char} (h : after_expression rest) :
    after_term rest :=
  fun c hc => Or.inl (h c hc)

theorem after_primary_facts {rest : List Char} (h : after_primary rest) :
    ends_number rest ∧ ∀ c ∈ rest.head?, isalpha c = false := by
  constructor
  · intro c hc
    rcases h c hc with h | h | h | h | h | h <;> subst h <;> decide
  · intro c hc
    rcases h c hc with h | h | h | h | h | h <;> subst h <;> decide

theorem token_after_factor {rest : List Char} (h : after_factor rest) :
    (start rest).current_token ≠ TOKEN_POW := by
  cases rest with
  | nil => simp [start_nil]
  | cons c cs =>
      rcases h c (by simp) with h | h | h | h | h <;> subst h <;>
        simp [start_rparen, start_plus, start_minus, start_mult, start_div]

theorem token_after_term {rest : List Char} (h : after_term rest) :
    ¬ ((start rest).current_token = TOKEN_MULT ∨ (start rest).current_token = TOKEN_DIV) := by
  cases rest with
  | nil => simp [start_nil]
  | cons c cs =>
      rcases h c (by simp) with h | h | h <;> subst h <;>
        simp [start_rparen, start_plus, start_minus]

theorem token_after_expression {rest : List Char} (h : after_expression rest) :
    ¬ ((start rest).current_token = TOKEN_PLUS ∨ (start rest).current_token = TOKEN_MINUS) := by
  cases rest with
  | nil => simp [start_nil]
  | cons c cs =>
      have := h c (by simp)
      subst this
      simp [start_rparen]

theorem value_NUMBER (env : Char → ℝ) (c : ℚ) : value env (NODE_NUMBER c) = (c : ℝ) := rfl

theorem value_VARIABLE (env : Char → ℝ) (w : Char) : value env (NODE_VARIABLE w) = env w := rfl

theorem value_ADD (env : Char → ℝ) (a b : Node ℚ) :
    value env (NODE_ADD a b) = value env a + value env b := rfl

theorem value_SUB (env : Char → ℝ) (a b : Node ℚ) :
    value env (NODE_SUB a b) = value env a - value env b := rfl

theorem value_MUL (env : Char → ℝ) (a b : Node ℚ) :
    value env (NODE_MUL a b) = value env a * value env b := rfl

theorem value_DIV (env : Char → ℝ) (a b : Node ℚ) :
    value env (NODE_DIV a b) = value env a / value env b := rfl

theorem value_POW (env : Char → ℝ) (a b : Node ℚ) :
    value env (NODE_POW a b) = pow_real (value env a) (value env b) := rfl

theorem value_SIN (env : Char → ℝ) (a : Node ℚ) :
    value env (NODE_SIN a) = Real.sin (value env a) := rfl

theorem value_COS (env : Char → ℝ) (a : Node ℚ) :
    value env (NODE_COS a) = Real.cos (value env a) := rfl

theorem value_EXP (env : Char → ℝ) (a : Node ℚ) :
    value env (NODE_EXP a) = Real.exp (value env a) := rfl

theorem value_LN (env : Char → ℝ) (a : Node ℚ) :
    value env (NODE_LN a) = Real.log (value env a) := rfl

theorem IsFactor_of_IsPrimary {X : List Char} {x : Node ℚ} (h : IsPrimary X x) :
    IsFactor X x := by
  intro rest hr
  obtain ⟨x1, hv, hp⟩ := h rest (after_primary_of_after_factor hr)
  refine ⟨x1, hv, ?_⟩
  rw [parse_factor_eq, parse_power_eq, hp]
  simp [token_after_factor hr]

theorem IsTerm_of_IsFactor {X : List Char} {x : Node ℚ} (h : IsFactor X x) : IsTerm X x := by
  intro rest hr
  obtain ⟨x1, hv, hp⟩ := h rest hr
  exact ⟨x1, hv, by rw [parse_term_eq, hp]⟩

theorem IsTimes_of_IsFactor {X : List Char} {x : Node ℚ} (h : IsFactor X x) :
    IsTimes X x := by
  intro acc rest hr
  obtain ⟨x1, hv, hp⟩ := h rest hr
  refine ⟨NODE_MUL acc x1, fun env => by rw [value_MUL, hv], ?_⟩
  rw [parse_term_loop_eq, start_mult]
  simp [advance_eq_start, hp]

theorem IsDivide_of_IsFactor {X : List Char} {x : Node ℚ} (h : IsFactor X x) :
    IsDivide X x := by
  intro acc rest hr
  obtain ⟨x1, hv, hp⟩ := h rest hr
  refine ⟨NODE_DIV acc x1, fun env => by rw [value_DIV, hv], ?_⟩
  rw [parse_term_loop_eq, start_div]
  simp [advance_eq_start, hp]

theorem parse_term_of_IsTerm {X : List Char} {x : Node ℚ} (h : IsTerm X x)
    (rest : List Char) (hr : after_term rest) :
    ∃ x1, (∀ env, value env x1 = value env x) ∧
      parse_term strtod_rat (start (X ++ rest)) = .ok (x1, start rest) := by
  obtain ⟨x1, hv, hp⟩ := h rest (after_factor_of_after_term hr)
  exact ⟨x1, hv, by rw [hp, parse_term_loop_eq, if_neg (token_after_term hr)]⟩

theorem IsExpression_of_IsTerm {X : List Char} {x : Node ℚ} (h : IsTerm X x) :
    IsExpression X x := by
  intro rest hr
  obtain ⟨x1, hv, hp⟩ := parse_term_of_IsTerm h rest hr
  exact ⟨x1, hv, by rw [parse_expression_eq, hp]⟩

theorem IsPlus_of_IsTerm {X : List Char} {x : Node ℚ} (h : IsTerm X x) : IsPlus X x := by
  intro acc rest hr
  obtain ⟨x1, hv, hp⟩ := parse_term_of_IsTerm h rest hr
  refine ⟨NODE_ADD acc x1, fun env => by rw [value_ADD, hv], ?_⟩
  rw [parse_expression_loop_eq, start_plus]
  simp [advance_eq_start, hp]

theorem IsMinus_of_IsTerm {X : List Char} {x : Node ℚ} (h : IsTerm X x) : IsMinus X x := by
  intro acc rest hr
  obtain ⟨x1, hv, hp⟩ := parse_term_of_IsTerm h rest hr
  refine ⟨NODE_SUB acc x1, fun env => by rw [value_SUB, hv], ?_⟩
  rw [parse_expression_loop_eq, start_minus]
  simp [advance_eq_start, hp]

theorem parse_expression_of_IsExpression {X : List Char} {x : Node ℚ}
    (h : IsExpression X x) (rest : List Char) (hr : after_expression rest) :
    ∃ x1, (∀ env, value env x1 = value env x) ∧
      parse_expression strtod_rat (start (X ++ rest)) = .ok (x1, start rest) := by
  obtain ⟨x1, hv, hp⟩ := h rest (after_term_of_after_expression hr)
  exact ⟨x1, hv, by rw [hp, parse_expression_loop_eq, if_neg (token_after_expression hr)]⟩

theorem after_expression_rparen (rest : List Char) : after_expression (')' :: rest) := by
  intro c hc
  simp at hc
  exact hc.symm

theorem IsPrimary_parenthesized {X : List Char} {x : Node ℚ} (h : IsExpression X x) :
    IsPrimary ('(' :: X ++ [')']) x := by
  intro rest hr
  obtain ⟨x1, hv, hp⟩ :=
    parse_expression_of_IsExpression h (')' :: rest) (after_expression_rparen rest)
  refine ⟨x1, hv, ?_⟩
  have e : ('(' :: X ++ [')']) ++ rest = '(' :: (X ++ ')' :: rest) := by simp
  rw [e, start_lparen, parse_primary_eq]
  simp [advance_eq_start, hp, start_rparen]

theorem IsPrimary_sin {X : List Char} {x : Node ℚ} (h : IsExpression X x) :
    IsPrimary ("sin".toList ++ parenthesize_if true X) (NODE_SIN x) := by
  intro rest hr
  obtain ⟨x1, hv, hp⟩ :=
    parse_expression_of_IsExpression h (')' :: rest) (after_expression_rparen rest)
  refine ⟨NODE_SIN x1, fun env => by rw [value_SIN, value_SIN, hv], ?_⟩
  have e : ("sin".toList ++ parenthesize_if true X) ++ rest
      = 's' :: 'i' :: 'n' :: '(' :: (X ++ ')' :: rest) := by simp [parenthesize_if]
  have e1 : start ('s' :: 'i' :: 'n' :: '(' :: (X ++ ')' :: rest))
      = ⟨'(' :: (X ++ ')' :: rest), TOKEN_SIN⟩ := rfl
  rw [e, e1, parse_primary_eq]
  simp [advance_eq_start, hp, start_rparen, start_lparen]

theorem IsPrimary_cos {X : List Char} {x : Node ℚ} (h : IsExpression X x) :
    IsPrimary ("cos".toList ++ parenthesize_if true X) (NODE_COS x) := by
  intro rest hr
  obtain ⟨x1, hv, hp⟩ :=
    parse_expression_of_IsExpression h (')' :: rest) (after_expression_rparen rest)
  refine ⟨NODE_COS x1, fun env => by rw [value_COS, value_COS, hv], ?_⟩
  have e : ("cos".toList ++ parenthesize_if true X) ++ rest
      = 'c' :: 'o' :: 's' :: '(' :: (X ++ ')' :: rest) := by simp [parenthesize_if]
  have e1 : start ('c' :: 'o' :: 's' :: '(' :: (X ++ ')' :: rest))
      = ⟨'(' :: (X ++ ')' :: rest), TOKEN_COS⟩ := rfl
  rw [e, e1, parse_primary_eq]
  simp [advance_eq_start, hp, start_rparen, start_lparen]

theorem IsPrimary_exp {X : List Char} {x : Node ℚ} (h : IsExpression X x) :
    IsPrimary ("exp".toList ++ parenthesize_if true X) (NODE_EXP x) := by
  intro rest hr
  obtain ⟨x1, hv, hp⟩ :=
    parse_expression_of_IsExpression h (')' :: rest) (after_expression_rparen rest)
  refine ⟨NODE_EXP x1, fun env => by rw [value_EXP, value_EXP, hv], ?_⟩
  have e : ("exp".toList ++ parenthesize_if true X) ++ rest
      = 'e' :: 'x' :: 'p' :: '(' :: (X ++ ')' :: rest) := by simp [parenthesize_if]
  have e1 : start ('e' :: 'x' :: 'p' :: '(' :: (X ++ ')' :: rest))
      = ⟨'(' :: (X ++ ')' :: rest), TOKEN_EXP⟩ := rfl
  rw [e, e1, parse_primary_eq]
  simp [advance_eq_start, hp, start_rparen, start_lparen]

theorem IsPrimary_ln {X : List Char} {x : Node ℚ} (h : IsExpression X x) :
    IsPrimary ("ln".toList ++ parenthesize_if true X) (NODE_LN x) := by
  intro rest hr
  obtain ⟨x1, hv, hp⟩ :=
    parse_expression_of_IsExpression h (')' :: rest) (after_expression_rparen rest)
  refine ⟨NODE_LN x1, fun env => by rw [value_LN, value_LN, hv], ?_⟩
  have e : ("ln".toList ++ parenthesize_if true X) ++ rest
      = 'l' :: 'n' :: '(' :: (X ++ ')' :: rest) := by simp [parenthesize_if]
  have e1 : start ('l' :: 'n' :: '(' :: (X ++ ')' :: rest))
      = ⟨'(' :: (X ++ ')' :: rest), TOKEN_LN⟩ := rfl
  rw [e, e1, parse_primary_eq]
  simp [advance_eq_start, hp, start_rparen, start_lparen]

theorem IsPrimary_number {v : ℚ} (hv : printable v) :
    IsPrimary (print_number v) (NODE_NUMBER v) := by
  intro rest hr
  refine ⟨NODE_NUMBER v, fun _ => rfl, ?_⟩
  have e : start (print_number v ++ rest) = ⟨rest, TOKEN_NUMBER v⟩ := by
    rw [start_eq, get_next_token_print_number v hv rest (after_primary_facts hr).1]
  rw [e, parse_primary_eq]
  simp [advance_eq_start]

theorem IsPrimary_variable {w : Char} (hw : isalpha w = true) :
    IsPrimary [w] (NODE_VARIABLE w) := by
  intro rest hr
  refine ⟨NODE_VARIABLE w, fun _ => rfl, ?_⟩
  have e : start ([w] ++ rest) = ⟨rest, TOKEN_VARIABLE w⟩ := by
    rw [start_eq]
    simp [get_next_token_variable strtod_rat w rest hw (after_primary_facts hr).2]
  rw [e, parse_primary_eq]
  simp [advance_eq_start]

theorem after_term_plus (cs : List Char) : after_term ('+' :: cs) := by
  intro c hc
  simp at hc
  exact Or.inr (Or.inl hc.symm)

theorem after_term_minus (cs : List Char) : after_term ('-' :: cs) := by
  intro c hc
  simp at hc
  exact Or.inr (Or.inr hc.symm)

theorem after_factor_mult (cs : List Char) : after_factor ('*' :: cs) := by
  intro c hc
  simp at hc
  exact Or.inr (Or.inr (Or.inr (Or.inl hc.symm)))

theorem after_factor_div (cs : List Char) : after_factor ('/' :: cs) := by
  intro c hc
  simp at hc
  exact Or.inr (Or.inr (Or.inr (Or.inr hc.symm)))

theorem after_primary_pow (cs : List Char) : after_primary ('^' :: cs) := by
  intro c hc
  simp at hc
  exact Or.inr (Or.inr (Or.inr (Or.inr (Or.inr hc.symm))))

theorem IsExpression_add {Xl Xr : List Char} {l r : Node ℚ} (hl : IsExpression Xl l)
    (hr : IsPlus Xr r) : IsExpression (Xl ++ '+' :: Xr) (NODE_ADD l r) := by
  intro rest h
  obtain ⟨l1, hlv, hlp⟩ := hl ('+' :: (Xr ++ rest)) (after_term_plus _)
  obtain ⟨a, hav, hap⟩ := hr l1 rest h
  refine ⟨a, fun env => by rw [hav, hlv, value_ADD], ?_⟩
  have e : (Xl ++ '+' :: Xr) ++ rest = Xl ++ '+' :: (Xr ++ rest) := by simp
  rw [e, hlp, hap]

theorem IsExpression_sub {Xl Xr : List Char} {l r : Node ℚ} (hl : IsExpression Xl l)
    (hr : IsMinus Xr r) : IsExpression (Xl ++ '-' :: Xr) (NODE_SUB l r) := by
  intro rest h
  obtain ⟨l1, hlv, hlp⟩ := hl ('-' :: (Xr ++ rest)) (after_term_minus _)
  obtain ⟨a, hav, hap⟩ := hr l1 rest h
  refine ⟨a, fun env => by rw [hav, hlv, value_SUB], ?_⟩
  have e : (Xl ++ '-' :: Xr) ++ rest = Xl ++ '-' :: (Xr ++ rest) := by simp
  rw [e, hlp, hap]

theorem IsPlus_add {Xl Xr : List Char} {l r : Node ℚ} (hl : IsPlus Xl l)
    (hr : IsPlus Xr r) : IsPlus (Xl ++ '+' :: Xr) (NODE_ADD l r) := by
  intro acc rest h
  obtain ⟨a1, hv1, hp1⟩ := hl acc ('+' :: (Xr ++ rest)) (after_term_plus _)
  obtain ⟨a2, hv2, hp2⟩ := hr a1 rest h
  refine ⟨a2, fun env => by rw [hv2, hv1, value_ADD]; ring, ?_⟩
  have e : (Xl ++ '+' :: Xr) ++ rest = Xl ++ '+' :: (Xr ++ rest) := by simp
  rw [e, hp1, hp2]

theorem IsPlus_sub {Xl Xr : List Char} {l r : Node ℚ} (hl : IsPlus Xl l)
    (hr : IsMinus Xr r) : IsPlus (Xl ++ '-' :: Xr) (NODE_SUB l r) := by
  intro acc rest h
  obtain ⟨a1, hv1, hp1⟩ := hl acc ('-' :: (Xr ++ rest)) (after_term_minus _)
  obtain ⟨a2, hv2, hp2⟩ := hr a1 rest h
  refine ⟨a2, fun env => by rw [hv2, hv1, value_SUB]; ring, ?_⟩
  have e : (Xl ++ '-' :: Xr) ++ rest = Xl ++ '-' :: (Xr ++ rest) := by simp
  rw [e, hp1, hp2]

theorem IsTerm_mul {Xl Xr : List Char} {l r : Node ℚ} (hl : IsTerm Xl l)
    (hr : IsTimes Xr r) : IsTerm (Xl ++ '*' :: Xr) (NODE_MUL l r) := by
  intro rest h
  obtain ⟨l1, hlv, hlp⟩ := hl ('*' :: (Xr ++ rest)) (after_factor_mult _)
  obtain ⟨a, hav, hap⟩ := hr l1 rest h
  refine ⟨a, fun env => by rw [hav, hlv, value_MUL], ?_⟩
  have e : (Xl ++ '*' :: Xr) ++ rest = Xl ++ '*' :: (Xr ++ rest) := by simp
  rw [e, hlp, hap]

theorem IsTerm_div {Xl Xr : List Char} {l r : Node ℚ} (hl : IsTerm Xl l)
    (hr : IsDivide Xr r) : IsTerm (Xl ++ '/' :: Xr) (NODE_DIV l r) := by
  intro rest h
  obtain ⟨l1, hlv, hlp⟩ := hl ('/' :: (Xr ++ rest)) (after_factor_div _)
  obtain ⟨a, hav, hap⟩ := hr l1 rest h
  refine ⟨a, fun env => by rw [hav, hlv, value_DIV], ?_⟩
  have e : (Xl ++ '/' :: Xr) ++ rest = Xl ++ '/' :: (Xr ++ rest) := by simp
  rw [e, hlp, hap]

theorem IsTimes_mul {Xl Xr : List Char} {l r : Node ℚ} (hl : IsTimes Xl l)
    (hr : IsTimes Xr r) : IsTimes (Xl ++ '*' :: Xr) (NODE_MUL l r) := by
  intro acc rest h
  obtain ⟨a1, hv1, hp1⟩ := hl acc ('*' :: (Xr ++ rest)) (after_factor_mult _)
  obtain ⟨a2, hv2, hp2⟩ := hr a1 rest h
  refine ⟨a2, fun env => by rw [hv2, hv1, value_MUL]; ring, ?_⟩
  have e : (Xl ++ '*' :: Xr) ++ rest = Xl ++ '*' :: (Xr ++ rest) := by simp
  rw [e, hp1, hp2]

theorem IsTimes_div {Xl Xr : List Char} {l r : Node ℚ} (hl : IsTimes Xl l)
    (hr : IsDivide Xr r) : IsTimes (Xl ++ '/' :: Xr) (NODE_DIV l r) := by
  intro acc rest h
  obtain ⟨a1, hv1, hp1⟩ := hl acc ('/' :: (Xr ++ rest)) (after_factor_div _)
  obtain ⟨a2, hv2, hp2⟩ := hr a1 rest h
  refine ⟨a2, fun env => by rw [hv2, hv1, value_DIV, mul_div_assoc], ?_⟩
  have e : (Xl ++ '/' :: Xr) ++ rest = Xl ++ '/' :: (Xr ++ rest) := by simp
  rw [e, hp1, hp2]

theorem IsFactor_pow {Xl Xr : List Char} {l r : Node ℚ} (hl : IsPrimary Xl l)
    (hr : IsPrimary Xr r) : IsFactor (Xl ++ '^' :: Xr) (NODE_POW l r) := by
  intro rest h
  obtain ⟨l1, hlv, hlp⟩ := hl ('^' :: (Xr ++ rest)) (after_primary_pow _)
  obtain ⟨r1, hrv, hrp⟩ := IsFactor_of_IsPrimary hr rest h
  refine ⟨NODE_POW l1 r1, fun env => by rw [value_POW, value_POW, hlv, hrv], ?_⟩
  have e : (Xl ++ '^' :: Xr) ++ rest = Xl ++ '^' :: (Xr ++ rest) := by simp
  rw [parse_factor_eq] at hrp
  rw [e, parse_factor_eq, parse_power_eq, hlp, start_pow]
  simp [advance_eq_start, hrp]

theorem ReadsBack_of_IsTerm {s : Node ℚ} (h1 : IsTerm (render print_number s) s)
    (h2 : IsTimes (render print_number s) s) (ha : is_atom s = false) : ReadsBack s :=
  ⟨IsExpression_of_IsTerm h1, IsPlus_of_IsTerm h1, fun _ => ⟨h1, h2⟩,
    fun h => by rw [ha] at h; cases h⟩

theorem ReadsBack_of_IsFactor {s : Node ℚ} (h : IsFactor (render print_number s) s)
    (ha : is_atom s = false) : ReadsBack s :=
  ReadsBack_of_IsTerm (IsTerm_of_IsFactor h) (IsTimes_of_IsFactor h) ha

theorem ReadsBack_of_IsPrimary {s : Node ℚ} (h : IsPrimary (render print_number s) s) :
    ReadsBack s :=
  have hf := IsFactor_of_IsPrimary h
  have ht := IsTerm_of_IsFactor hf
  ⟨IsExpression_of_IsTerm ht, IsPlus_of_IsTerm ht, fun _ => ⟨ht, IsTimes_of_IsFactor hf⟩,
    fun _ => h⟩

theorem IsPrimary_item {s : Node ℚ} (h : ReadsBack s) :
    IsPrimary (parenthesize_if (!is_atom s) (render print_number s)) s := by
  cases ha : is_atom s with
  | true => simpa [parenthesize_if] using h.2.2.2 ha
  | false => simpa [parenthesize_if] using IsPrimary_parenthesized h.1

theorem IsTerm_item {s : Node ℚ} (h : ReadsBack s) :
    IsTerm (parenthesize_if (is_sum s) (render print_number s)) s ∧
      IsTimes (parenthesize_if (is_sum s) (render print_number s)) s := by
  cases hs : is_sum s with
  | false => simpa [parenthesize_if] using h.2.2.1 hs
  | true =>
      have hp := IsFactor_of_IsPrimary (IsPrimary_parenthesized h.1)
      simpa [parenthesize_if] using And.intro (IsTerm_of_IsFactor hp) (IsTimes_of_IsFactor hp)

theorem reads_back (s : Node ℚ) (hl : letters s) (h : printable_numbers s) : ReadsBack s := by
  induction s with
  | NODE_NUMBER v => exact ReadsBack_of_IsPrimary (IsPrimary_number h)
  | NODE_VARIABLE w => exact ReadsBack_of_IsPrimary (IsPrimary_variable hl)
  | NODE_ADD l r ihl ihr =>
      have h1 := ihl hl.1 h.1
      have h2 := ihr hl.2 h.2
      exact ⟨IsExpression_add h1.1 h2.2.1, IsPlus_add h1.2.1 h2.2.1,
        fun hs => by simp [is_sum] at hs, fun ha => by simp [is_atom] at ha⟩
  | NODE_SUB l r ihl ihr =>
      have h1 := ihl hl.1 h.1
      have h2 := IsMinus_of_IsTerm (IsTerm_item (ihr hl.2 h.2)).1
      exact ⟨IsExpression_sub h1.1 h2, IsPlus_sub h1.2.1 h2,
        fun hs => by simp [is_sum] at hs, fun ha => by simp [is_atom] at ha⟩
  | NODE_MUL l r ihl ihr =>
      have h1 := IsTerm_item (ihl hl.1 h.1)
      have h2 := IsTerm_item (ihr hl.2 h.2)
      exact ReadsBack_of_IsTerm (IsTerm_mul h1.1 h2.2) (IsTimes_mul h1.2 h2.2) rfl
  | NODE_DIV l r ihl ihr =>
      have h1 := IsTerm_item (ihl hl.1 h.1)
      have h2 := IsDivide_of_IsFactor (IsFactor_of_IsPrimary (IsPrimary_item (ihr hl.2 h.2)))
      exact ReadsBack_of_IsTerm (IsTerm_div h1.1 h2) (IsTimes_div h1.2 h2) rfl
  | NODE_POW l r ihl ihr =>
      exact ReadsBack_of_IsFactor
        (IsFactor_pow (IsPrimary_item (ihl hl.1 h.1)) (IsPrimary_item (ihr hl.2 h.2))) rfl
  | NODE_SIN f ih => exact ReadsBack_of_IsPrimary (IsPrimary_sin (ih hl h).1)
  | NODE_COS f ih => exact ReadsBack_of_IsPrimary (IsPrimary_cos (ih hl h).1)
  | NODE_EXP f ih => exact ReadsBack_of_IsPrimary (IsPrimary_exp (ih hl h).1)
  | NODE_LN f ih => exact ReadsBack_of_IsPrimary (IsPrimary_ln (ih hl h).1)

theorem parse_print_tree (s : Node ℚ) (hl : letters s) (h : printable_numbers s) :
    ∃ s1, parse strtod_rat (print_tree print_number s) = .ok s1 ∧
      ∀ env, value env s1 = value env s := by
  obtain ⟨s1, hv, hp⟩ :=
    parse_expression_of_IsExpression (reads_back s hl h).1 [] (fun c hc => by simp at hc)
  refine ⟨s1, ?_, hv⟩
  rw [List.append_nil, ← print_tree_eq_render] at hp
  have e : advance strtod_rat ⟨print_tree print_number s, TOKEN_END⟩
      = start (print_tree print_number s) := rfl
  rw [parse, e, hp]
  simp [start_nil]

theorem print_number_zero : print_number 0 = ['0'] := by
  have h : (0 : ℚ) = ((0 : ℕ) : ℚ) := by norm_num
  rw [h, print_number_natCast]
  simp [print_nat]

theorem printable_zero : printable 0 := ⟨0, by norm_num, by norm_num⟩

theorem print_number_third : print_number (1 / 3 : ℚ) = ['0', '.', '3', '3'] := by
  have hf : ⌊(1 / 3 : ℚ)⌋ = 0 := by
    rw [Int.floor_eq_iff]; constructor <;> norm_num
  have hr : ⌊(100 / 3 : ℚ)⌋ = 33 := by
    rw [Int.floor_eq_iff]; constructor <;> norm_num
  have h0 : (0 : ℚ) ≤ 1 / 3 := by norm_num
  have ht : to_int (1 / 3 : ℚ) = 0 := by
    rw [to_int, if_pos h0, hf]
  have habs : |(1 / 3 : ℚ)| * 100 = 100 / 3 := by
    rw [abs_of_nonneg h0]; norm_num
  have hround : round_half_even (100 / 3 : ℚ) = 33 := by
    have h1 : (100 / 3 : ℚ) - ((33 : ℕ) : ℚ) < 1 / 2 := by norm_num
    simp only [round_half_even, hr]
    rw [if_pos (by simpa using h1)]
    rfl
  have hlt : ¬ ((1 / 3 : ℚ) < 0) := by norm_num
  have hne : ¬ ((1 / 3 : ℚ) = ((0 : ℤ) : ℚ)) := by norm_num
  rw [print_number, ht, if_neg hne, print_2f]
  simp only [habs, hround, if_neg hlt]
  simp [print_nat]

/-- The round trip can lose value even when the printed text is accepted: `1/3` is folded
to the number 1/3, printed as `0.33` and read back as the number 33/100. -/
theorem round_trip_lossy :
    parse strtod_rat ['1', '/', '3'] = .ok (NODE_DIV (NODE_NUMBER 1) (NODE_NUMBER 3)) ∧
    print_tree print_number (simplify pow_rat (NODE_DIV (NODE_NUMBER 1) (NODE_NUMBER 3)))
      = ['0', '.', '3', '3'] ∧
    parse strtod_rat ['0', '.', '3', '3'] = .ok (NODE_NUMBER (33 / 100)) := by
  have p1 : print_number (1 : ℚ) = ['1'] := print_number_values.2.1
  have p3 : print_number (3 : ℚ) = ['3'] := by
    have h : (3 : ℚ) = ((3 : ℕ) : ℚ) := by norm_num
    rw [h, print_number_natCast]
    simp [print_nat]
  have p33 : print_number (33 / 100 : ℚ) = ['0', '.', '3', '3'] := by
    have h := print_number_hundredths 33 (by decide)
    simp [print_nat] at h
    rw [h]
  have t1 : get_next_token strtod_rat ['1', '/', '3'] = (TOKEN_NUMBER 1, ['/', '3']) := by
    have h := get_next_token_print_number 1 ⟨100, by norm_num, by norm_num⟩ ['/', '3']
      (by intro c hc; simp at hc; subst hc; decide)
    rw [p1] at h
    exact h
  have t3 : get_next_token strtod_rat ['3'] = (TOKEN_NUMBER 3, []) := by
    have h := get_next_token_print_number 3 ⟨300, by norm_num, by norm_num⟩ []
      (by intro c hc; simp at hc)
    rw [p3] at h
    exact h
  have t33 : get_next_token strtod_rat ['0', '.', '3', '3']
      = (TOKEN_NUMBER (33 / 100), []) := by
    have h := get_next_token_print_number (33 / 100) ⟨33, by norm_num, by norm_num⟩ []
      (by intro c hc; simp at hc)
    rw [p33] at h
    exact h
  have hs : simplify pow_rat (NODE_DIV (NODE_NUMBER 1) (NODE_NUMBER 3))
      = NODE_NUMBER (1 / 3) := by
    simp [simplify_NODE_DIV, simplify_NUMBER, simplify_DIV, is_zero, is_one]
  refine ⟨?_, ?_, ?_⟩
  · simp [parse, advance, parse_expression_eq, parse_expression_loop_eq, parse_term_eq,
      parse_term_loop_eq, parse_factor_eq, parse_power_eq, parse_primary_eq, t1, t3,
      get_next_token_div, get_next_token_nil]
  · rw [hs]
    simp only [print_tree]
    exact print_number_third
  · simp [parse, advance, parse_expression_eq, parse_expression_loop_eq, parse_term_eq,
      parse_term_loop_eq, parse_factor_eq, parse_power_eq, parse_primary_eq, t33,
      get_next_token_nil]

/-- C12 fails on the input `0-x`: it is accepted, its simplified tree
`Mul(Number(-1), Variable(x))` is printed as `-1*x`, and the parser, which has no unary
minus, rejects that text with the diagnostic of a syntax error. -/
theorem round_trip_fails :
    parse strtod_rat ['0', '-', 'x'] = .ok (NODE_SUB (NODE_NUMBER 0) (NODE_VARIABLE 'x')) ∧
    print_tree print_number (simplify pow_rat (NODE_SUB (NODE_NUMBER 0) (NODE_VARIABLE 'x')))
      = ['-', '1', '*', 'x'] ∧
    parse strtod_rat ['-', '1', '*', 'x'] = .error .syntax_error := by
  have t0 : get_next_token strtod_rat ['0', '-', 'x'] = (TOKEN_NUMBER 0, ['-', 'x']) := by
    have h := get_next_token_print_number 0 printable_zero ['-', 'x']
      (by intro c hc; simp at hc; subst hc; decide)
    rw [print_number_zero] at h
    exact h
  have ex : isalpha 'x' = true := rfl
  have h1 : (-1 : ℚ) ≠ 1 := by norm_num
  have hs : simplify pow_rat (NODE_SUB (NODE_NUMBER 0) (NODE_VARIABLE 'x'))
      = NODE_MUL (NODE_NUMBER (-1)) (NODE_VARIABLE 'x') := by
    simp [simplify_NODE_SUB, simplify_NODE_MUL, simplify_NUMBER, simplify_VARIABLE,
      simplify_MUL, is_zero, is_one, h1]
  have hp : print_number (-1 : ℚ) = ['-', '1'] := by
    have h := print_number_neg_natCast 1 (by norm_num)
    simp [print_nat] at h
    exact h
  refine ⟨?_, ?_, ?_⟩
  · simp [parse, advance, parse_expression_eq, parse_expression_loop_eq, parse_term_eq,
      parse_term_loop_eq, parse_factor_eq, parse_power_eq, parse_primary_eq, t0,
      get_next_token_minus, get_next_token_variable, get_next_token_nil, ex]
  · rw [hs]
    simp [print_tree, Node.type, hp]
  · simp [parse, advance, parse_expression_eq, parse_term_eq, parse_factor_eq,
      parse_power_eq, parse_primary_eq, get_next_token_minus]

/-- C12, amended: for every tree `t` produced by parsing an accepted input, if every number
in `simplify t` is a nonnegative multiple of 1/100 below 2^31, then parsing the text printed
for `simplify t` succeeds and yields a tree equal in value to `simplify t` under every
assignment of real numbers to the variables. -/
theorem round_trip (pow : ℚ → ℚ → ℚ) (line : List Char) (t : Node ℚ)
    (ht : parse strtod_rat line = .ok t) (hn : printable_numbers (simplify pow t)) :
    ∃ s1, parse strtod_rat (print_tree print_number (simplify pow t)) = .ok s1 ∧
      ∀ env, value env s1 = value env (simplify pow t) :=
  parse_print_tree (simplify pow t) (letters_simplify pow t (parse_letters strtod_rat line t ht))
    hn

/-- C12, amended, on the input `x*(y+z)`: it is accepted, its simplified tree has no number,
and the text printed for it is read back as a tree of the same value. -/
theorem round_trip_witness :
    parse strtod_rat ['x', '*', '(', 'y', '+', 'z', ')']
      = .ok (NODE_MUL (NODE_VARIABLE 'x') (NODE_ADD (NODE_VARIABLE 'y') (NODE_VARIABLE 'z'))) ∧
    printable_numbers (simplify pow_rat
      (NODE_MUL (NODE_VARIABLE 'x') (NODE_ADD (NODE_VARIABLE 'y') (NODE_VARIABLE 'z')))) ∧
    ∃ s1, parse strtod_rat (print_tree print_number (simplify pow_rat
        (NODE_MUL (NODE_VARIABLE 'x') (NODE_ADD (NODE_VARIABLE 'y') (NODE_VARIABLE 'z')))))
        = .ok s1 ∧
      ∀ env, value env s1 = value env (simplify pow_rat
        (NODE_MUL (NODE_VARIABLE 'x') (NODE_ADD (NODE_VARIABLE 'y') (NODE_VARIABLE 'z')))) :=
  have hp : parse strtod_rat ['x', '*', '(', 'y', '+', 'z', ')']
      = .ok (NODE_MUL (NODE_VARIABLE 'x')
          (NODE_ADD (NODE_VARIABLE 'y') (NODE_VARIABLE 'z'))) := by
    have ex : isalpha 'x' = true := rfl
    have ey : isalpha 'y' = true := rfl
    have ez : isalpha 'z' = true := rfl
    have e1 : isalpha '*' = false := rfl
    have e2 : isalpha '+' = false := rfl
    have e3 : isalpha ')' = false := rfl
    simp [parse, advance, parse_expression_eq, parse_expression_loop_eq, parse_term_eq,
      parse_term_loop_eq, parse_factor_eq, parse_power_eq, parse_primary_eq,
      get_next_token_variable, get_next_token_mult, get_next_token_plus,
      get_next_token_lparen, get_next_token_rparen, get_next_token_nil, ex, ey, ez, e1, e2, e3]
  have hn : printable_numbers (simplify pow_rat
      (NODE_MUL (NODE_VARIABLE 'x') (NODE_ADD (NODE_VARIABLE 'y') (NODE_VARIABLE 'z')))) := by
    simp [simplify_NODE_MUL, simplify_NODE_ADD, simplify_VARIABLE, simplify_MUL, simplify_ADD,
      is_zero, is_one, printable_numbers]
  ⟨hp, hn, round_trip pow_rat _ _ hp hn⟩

/-! ## The derivative of a tree in which the variable does not occur -/

/-- C24: for every tree `t` and variable `v` that does not occur in `t`,
`simplify (differentiate t v)` is the number node of value 0. -/
theorem simplify_differentiate_absent (pow : α → α → α) (t : Node α) (v : Char)
    (h : occurs v t = false) : simplify pow (differentiate t v) = NODE_NUMBER 0 := by
  induction t with
  | NODE_NUMBER c => simp [differentiate, simplify_NUMBER]
  | NODE_VARIABLE w =>
      have hw : w ≠ v := by simpa [occurs] using h
      simp [differentiate, hw, simplify_NUMBER]
  | NODE_ADD l r ihl ihr =>
      simp only [occurs, Bool.or_eq_false_iff] at h
      simp [differentiate, simplify_NODE_ADD, ihl h.1, ihr h.2, simplify_ADD, is_zero]
  | NODE_SUB l r ihl ihr =>
      simp only [occurs, Bool.or_eq_false_iff] at h
      simp [differentiate, simplify_NODE_SUB, ihl h.1, ihr h.2, is_zero]
  | NODE_MUL l r ihl ihr =>
      simp only [occurs, Bool.or_eq_false_iff] at h
      simp [differentiate, simplify_NODE_ADD, simplify_NODE_MUL, ihl h.1, ihr h.2,
        simplify_ADD, simplify_MUL, is_zero]
  | NODE_DIV l r ihl ihr =>
      simp only [occurs, Bool.or_eq_false_iff] at h
      simp [differentiate, simplify_NODE_DIV, simplify_NODE_SUB, simplify_NODE_MUL,
        ihl h.1, ihr h.2, simplify_MUL, simplify_DIV, is_zero]
  | NODE_POW l r ihl ihr =>
      simp only [occurs, Bool.or_eq_false_iff] at h
      have hc : is_constant r v = true := by
        rw [is_constant_eq_not_occurs, h.2]; rfl
      simp [differentiate, hc, simplify_NODE_MUL, ihl h.1, simplify_MUL, is_zero]
  | NODE_SIN f ih =>
      simp only [occurs] at h
      simp [differentiate, simplify_NODE_MUL, ih h, simplify_MUL, is_zero]
  | NODE_COS f ih =>
      simp only [occurs] at h
      simp [differentiate, simplify_NODE_MUL, ih h, simplify_MUL, is_zero]
  | NODE_EXP f ih =>
      simp only [occurs] at h
      simp [differentiate, simplify_NODE_MUL, ih h, simplify_MUL, is_zero]
  | NODE_LN f ih =>
      simp only [occurs] at h
      simp [differentiate, simplify_NODE_DIV, ih h, simplify_DIV, is_zero]

/-- C24 on `sin(y)/z^2` and the variable `x`. -/
theorem simplify_differentiate_absent_witness :
    occurs 'x' (NODE_DIV (NODE_SIN (NODE_VARIABLE 'y'))
        (NODE_POW (NODE_VARIABLE 'z') (NODE_NUMBER (2 : ℚ)))) = false ∧
    simplify pow_rat (differentiate (NODE_DIV (NODE_SIN (NODE_VARIABLE 'y'))
        (NODE_POW (NODE_VARIABLE 'z') (NODE_NUMBER (2 : ℚ)))) 'x') = NODE_NUMBER 0 :=
  ⟨by simp [occurs], simplify_differentiate_absent pow_rat _ 'x' (by simp [occurs])⟩

/-! ## Progress of the lexer -/

theorem strtod_rat_point (cs : List Char) (h : ∀ d ∈ cs.head?, isdigit d = false) :
    strtod_rat ('.' :: cs) = (0, 0) := by
  have h1 : isdigit '.' = false := by decide
  have h2 : cs.takeWhile isdigit = [] := by
    cases cs with
    | nil => rfl
    | cons d ds => simp [List.takeWhile, h d (by simp)]
  simp [strtod_rat, List.takeWhile, List.dropWhile, h1, h2]

theorem strtod_rat_consumed (s : List Char)
    (h : ¬ (s.takeWhile isdigit = [] ∧
      (if (s.dropWhile isdigit).head? = some '.'
        then (s.dropWhile isdigit).tail.takeWhile isdigit else []) = [])) :
    1 ≤ (strtod_rat s).2 := by
  have hn : 1 ≤ (s.takeWhile isdigit).length +
      (if (s.dropWhile isdigit).head? = some '.' then 1 else 0) +
      (if (s.dropWhile isdigit).head? = some '.'
        then (s.dropWhile isdigit).tail.takeWhile isdigit else []).length := by
    by_contra hc
    apply h
    constructor
    · apply List.eq_nil_of_length_eq_zero
      omega
    · apply List.eq_nil_of_length_eq_zero
      omega
  unfold strtod_rat
  simp only [decide_eq_true_eq]
  rw [if_neg h]
  split_ifs at hn ⊢ <;> simp only [List.length_nil] at hn ⊢ <;> omega

theorem strtod_rat_digit (c : Char) (cs : List Char) (h : isdigit c = true) :
    1 ≤ (strtod_rat (c :: cs)).2 := by
  apply strtod_rat_consumed
  simp [List.takeWhile, h]

theorem strtod_rat_point_digit (d : Char) (ds : List Char) (h : isdigit d = true) :
    1 ≤ (strtod_rat ('.' :: d :: ds)).2 := by
  apply strtod_rat_consumed
  have h1 : isdigit '.' = false := by decide
  simp [List.takeWhile, List.dropWhile, h, h1]

theorem get_next_token_point (cs : List Char) (h : ∀ d ∈ cs.head?, isdigit d = false) :
    get_next_token strtod_rat ('.' :: cs) = (TOKEN_NUMBER 0, '.' :: cs) := by
  have h1 : isdigit '.' = false := by decide
  have h2 : skip_whitespace ('.' :: cs) = '.' :: cs :=
    skip_whitespace_of_not_blank '.' cs (by decide) (by decide)
  have h3 : ¬ ('.' = Char.ofNat 0) := by decide
  unfold get_next_token
  rw [h2]
  simp only []
  rw [if_neg h3, if_pos (Or.inr trivial), strtod_rat_point cs h]
  rfl

/-- C21, as the code has it: when the first character `c` that is not a space or a tab is
not the terminator, `get_next_token` leaves strictly less input than there was from `c` on,
except when `c` is a point that no digit follows: there `strtod` converts nothing, and the
token is a number while the cursor stays on the point. -/
theorem get_next_token_progress_iff (input : List Char) (c : Char) (cs : List Char)
    (hs : skip_whitespace input = c :: cs) (h0 : c ≠ Char.ofNat 0) :
    (get_next_token strtod_rat input).2.length < (c :: cs).length ↔
      ¬ (c = '.' ∧ ∀ d ∈ cs.head?, isdigit d = false) := by
  unfold get_next_token
  rw [hs]
  simp only []
  rw [if_neg h0]
  by_cases h1 : isdigit c = true ∨ c = '.'
  · rw [if_pos h1]
    simp only [List.length_drop, List.length_cons]
    rcases h1 with h1 | h1
    · have hp := strtod_rat_digit c cs h1
      have hne : c ≠ '.' := fun hc => by rw [hc] at h1; exact absurd h1 (by decide)
      constructor
      · exact fun _ hc => hne hc.1
      · intro _
        omega
    · subst h1
      cases cs with
      | nil =>
          rw [strtod_rat_point [] (by simp)]
          simp
      | cons d ds =>
          by_cases hd : isdigit d = true
          · have hp := strtod_rat_point_digit d ds hd
            constructor
            · intro _ hc
              have := hc.2 d (by simp)
              rw [hd] at this
              exact Bool.noConfusion this
            · intro _
              omega
          · have hd1 : isdigit d = false := by simpa using hd
            rw [strtod_rat_point (d :: ds) (by simpa using hd1)]
            simp [hd1]
  · rw [if_neg h1]
    have hne : c ≠ '.' := fun hc => h1 (Or.inr hc)
    have hr : ¬ (c = '.' ∧ ∀ d ∈ cs.head?, isdigit d = false) := fun hc => hne hc.1
    simp only [hr, not_false_eq_true, iff_true]
    by_cases h2 : isalpha c = true
    · rw [if_pos h2]
      have hid : (read_identifier 9 (c :: cs)).2.length < cs.length + 1 :=
        read_identifier_length_lt 8 c cs h2
      split_ifs <;> simp only [List.length_cons] <;> omega
    · rw [if_neg h2]
      split_ifs <;> simp only [List.length_cons] <;> omega

/-- C21 at a lone point and at a digit: after `" ."` the cursor stays on the point, after
`"7"` it moves. -/
theorem get_next_token_progress_iff_witness :
    skip_whitespace [' ', '.'] = ['.'] ∧
    ¬ ((get_next_token strtod_rat [' ', '.']).2.length < ['.'].length) ∧
    (get_next_token strtod_rat ['7']).2.length < ['7'].length :=
  ⟨rfl,
   fun h => (get_next_token_progress_iff [' ', '.'] '.' [] rfl (by decide)).1 h
     ⟨rfl, by simp⟩,
   (get_next_token_progress_iff ['7'] '7' [] rfl (by decide)).2 (fun h => absurd h.1 (by decide))⟩

theorem parse_point : parse strtod_rat ['.'] = .error .trailing_characters := by
  have h := get_next_token_point [] (by simp)
  simp [parse, advance, parse_expression_eq, parse_expression_loop_eq, parse_term_eq,
    parse_term_loop_eq, parse_factor_eq, parse_power_eq, parse_primary_eq, h]

/-! ## The value of a simplified tree, where the value is defined -/

theorem consumes_trans {strtod : List Char → α × Nat} {a b c : ParserState α}
    (h1 : Consumes strtod a b) (h2 : Consumes strtod b c) : Consumes strtod a c := by
  induction h1 with
  | refl _ => exact h2
  | step h0 _ ih => exact .step h0 (ih h2)

theorem consumes_advance {strtod : List Char → α × Nat} (st : ParserState α)
    (h : st.current_token ≠ TOKEN_ERROR) : Consumes strtod st (advance strtod st) :=
  .step h (.refl _)

theorem parse_consumes_aux (strtod : List Char → α × Nat) (n : Nat) :
    ∀ st : ParserState α,
      (8 * st.measure + 6 ≤ n → (parse_expression strtod st).consumes strtod st) ∧
      (∀ left, 8 * st.measure + 5 ≤ n →
        (parse_expression_loop strtod left st).consumes strtod st) ∧
      (8 * st.measure + 4 ≤ n → (parse_term strtod st).consumes strtod st) ∧
      (∀ left, 8 * st.measure + 3 ≤ n →
        (parse_term_loop strtod left st).consumes strtod st) ∧
      (8 * st.measure + 2 ≤ n → (parse_factor strtod st).consumes strtod st) ∧
      (8 * st.measure + 1 ≤ n → (parse_power strtod st).consumes strtod st) ∧
      (8 * st.measure ≤ n → (parse_primary strtod st).consumes strtod st) := by
  induction n using Nat.strong_induction_on with
  | _ n IH =>
  intro st
  refine ⟨?_, ?_, ?_, ?_, ?_, ?_, ?_⟩
  · intro hn t st9 hr
    rw [parse_expression_eq] at hr
    cases hp : parse_term strtod st with
    | error e => simp [hp] at hr
    | ok p =>
        obtain ⟨left, st1⟩ := p
        simp only [hp] at hr
        have h1 := (IH (8 * st.measure + 4) (by omega) st).2.2.1 le_rfl left st1 hp
        have hm : st1.measure ≤ st.measure := parse_term_within strtod st left st1 hp
        exact consumes_trans h1 ((IH (8 * st1.measure + 5) (by omega) st1).2.1 left le_rfl t st9 hr)
  · intro left hn t st9 hr
    rw [parse_expression_loop_eq] at hr
    by_cases h : st.current_token = TOKEN_PLUS ∨ st.current_token = TOKEN_MINUS
    · rw [if_pos h] at hr
      have hlt : (advance strtod st).measure < st.measure :=
        measure_advance_lt strtod st (by rcases h with h | h <;> rw [h] <;> rfl)
      have h0 : st.current_token ≠ TOKEN_ERROR := by
        rcases h with h | h <;> rw [h] <;> exact Token.noConfusion
      cases hp : parse_term strtod (advance strtod st) with
      | error e => simp [hp] at hr
      | ok p =>
          obtain ⟨right, st2⟩ := p
          simp only [hp] at hr
          have h1 := (IH (8 * (advance strtod st).measure + 4) (by omega) _).2.2.1 le_rfl
            right st2 hp
          have hm : st2.measure ≤ (advance strtod st).measure :=
            parse_term_within strtod _ right st2 hp
          exact consumes_trans (consumes_advance st h0)
            (consumes_trans h1 ((IH (8 * st2.measure + 5) (by omega) st2).2.1 _ le_rfl t st9 hr))
    · rw [if_neg h] at hr
      simp only [Except.ok.injEq, Prod.mk.injEq] at hr
      rw [← hr.2]
      exact .refl _
  · intro hn t st9 hr
    rw [parse_term_eq] at hr
    cases hp : parse_factor strtod st with
    | error e => simp [hp] at hr
    | ok p =>
        obtain ⟨left, st1⟩ := p
        simp only [hp] at hr
        have h1 := (IH (8 * st.measure + 2) (by omega) st).2.2.2.2.1 le_rfl left st1 hp
        have hm : st1.measure ≤ st.measure := parse_factor_within strtod st left st1 hp
        exact consumes_trans h1
          ((IH (8 * st1.measure + 3) (by omega) st1).2.2.2.1 left le_rfl t st9 hr)
  · intro left hn t st9 hr
    rw [parse_term_loop_eq] at hr
    by_cases h : st.current_token = TOKEN_MULT ∨ st.current_token = TOKEN_DIV
    · rw [if_pos h] at hr
      have hlt : (advance strtod st).measure < st.measure :=
        measure_advance_lt strtod st (by rcases h with h | h <;> rw [h] <;> rfl)
      have h0 : st.current_token ≠ TOKEN_ERROR := by
        rcases h with h | h <;> rw [h] <;> exact Token.noConfusion
      cases hp : parse_factor strtod (advance strtod st) with
      | error e => simp [hp] at hr
      | ok p =>
          obtain ⟨right, st2⟩ := p
          simp only [hp] at hr
          have h1 := (IH (8 * (advance strtod st).measure + 2) (by omega) _).2.2.2.2.1 le_rfl
            right st2 hp
          have hm : st2.measure ≤ (advance strtod st).measure :=
            parse_factor_within strtod _ right st2 hp
          exact consumes_trans (consumes_advance st h0)
            (consumes_trans h1
              ((IH (8 * st2.measure + 3) (by omega) st2).2.2.2.1 _ le_rfl t st9 hr))
    · rw [if_neg h] at hr
      simp only [Except.ok.injEq, Prod.mk.injEq] at hr
      rw [← hr.2]
      exact .refl _
  · intro hn t st9 hr
    rw [parse_factor_eq] at hr
    exact (IH (8 * st.measure + 1) (by omega) st).2.2.2.2.2.1 le_rfl t st9 hr
  · intro hn t st9 hr
    rw [parse_power_eq] at hr
    cases hp : parse_primary strtod st with
    | error e => simp [hp] at hr
    | ok p =>
        obtain ⟨left, st1⟩ := p
        simp only [hp] at hr
        have h1 := (IH (8 * st.measure) (by omega) st).2.2.2.2.2.2 le_rfl left st1 hp
        have hm : st1.measure ≤ st.measure := parse_primary_within strtod st left st1 hp
        by_cases h : st1.current_token = TOKEN_POW
        · rw [if_pos h] at hr
          have hlt : (advance strtod st1).measure < st1.measure :=
            measure_advance_lt strtod st1 (by rw [h]; rfl)
          have h0 : st1.current_token ≠ TOKEN_ERROR := by rw [h]; exact Token.noConfusion
          cases hq : parse_power strtod (advance strtod st1) with
          | error e => simp [hq] at hr
          | ok q =>
              obtain ⟨right, st2⟩ := q
              simp only [hq, Except.ok.injEq, Prod.mk.injEq] at hr
              have h2 := (IH (8 * (advance strtod st1).measure + 1) (by omega) _).2.2.2.2.2.1
                le_rfl right st2 hq
              rw [← hr.2]
              exact consumes_trans h1 (consumes_trans (consumes_advance st1 h0) h2)
        · rw [if_neg h] at hr
          simp only [Except.ok.injEq, Prod.mk.injEq] at hr
          rw [← hr.2]
          exact h1
  · intro hn t st9 hr
    rw [parse_primary_eq] at hr
    have expr : ∀ st0 : ParserState α, st0.measure < st.measure →
        (parse_expression strtod (advance strtod st0)).consumes strtod (advance strtod st0) := by
      intro st0 h0
      have := measure_advance_le strtod st0
      exact (IH (8 * (advance strtod st0).measure + 6) (by omega) _).1 le_rfl
    have close : ∀ st3 : ParserState α, ¬ st3.current_token ≠ TOKEN_RPAREN →
        Consumes strtod st3 (advance strtod st3) := by
      intro st3 h3
      apply consumes_advance
      rw [not_not.1 h3]
      exact Token.noConfusion
    cases htok : st.current_token with
    | TOKEN_NUMBER v =>
        simp only [htok, Except.ok.injEq, Prod.mk.injEq] at hr
        rw [← hr.2]
        exact consumes_advance st (by rw [htok]; exact Token.noConfusion)
    | TOKEN_VARIABLE w =>
        simp only [htok, Except.ok.injEq, Prod.mk.injEq] at hr
        rw [← hr.2]
        exact consumes_advance st (by rw [htok]; exact Token.noConfusion)
    | TOKEN_LPAREN =>
        simp only [htok] at hr
        have hlt : (advance strtod st).measure < st.measure :=
          measure_advance_lt strtod st (by rw [htok]; rfl)
        have h0 : st.current_token ≠ TOKEN_ERROR := by rw [htok]; exact Token.noConfusion
        cases hp : parse_expression strtod (advance strtod st) with
        | error e => simp [hp] at hr
        | ok p =>
            obtain ⟨node, st2⟩ := p
            simp only [hp] at hr
            by_cases hc : st2.current_token ≠ TOKEN_RPAREN
            · rw [if_pos hc] at hr
              cases hr
            · rw [if_neg hc] at hr
              simp only [Except.ok.injEq, Prod.mk.injEq] at hr
              have h1 := (IH (8 * (advance strtod st).measure + 6) (by omega) _).1 le_rfl
                node st2 hp
              rw [← hr.2]
              exact consumes_trans (consumes_advance st h0) (consumes_trans h1 (close st2 hc))
    | TOKEN_SIN | TOKEN_COS | TOKEN_EXP | TOKEN_LN =>
        simp only [htok] at hr
        have hlt : (advance strtod st).measure < st.measure :=
          measure_advance_lt strtod st (by rw [htok]; rfl)
        have h0 : st.current_token ≠ TOKEN_ERROR := by rw [htok]; exact Token.noConfusion
        by_cases hl : (advance strtod st).current_token ≠ TOKEN_LPAREN
        · rw [if_pos hl] at hr
          cases hr
        · rw [if_neg hl] at hr
          have h00 : (advance strtod st).current_token ≠ TOKEN_ERROR := by
            rw [not_not.1 hl]; exact Token.noConfusion
          cases hp : parse_expression strtod (advance strtod (advance strtod st)) with
          | error e => simp [hp] at hr
          | ok p =>
              obtain ⟨arg, st3⟩ := p
              have h1 := expr (advance strtod st) hlt arg st3 hp
              simp only [hp] at hr
              by_cases hc : st3.current_token ≠ TOKEN_RPAREN
              · rw [if_pos hc] at hr
                cases hr
              · rw [if_neg hc] at hr
                simp only [Except.ok.injEq, Prod.mk.injEq] at hr
                rw [← hr.2]
                exact consumes_trans (consumes_advance st h0)
                  (consumes_trans (consumes_advance _ h00) (consumes_trans h1 (close st3 hc)))
    | _ => simp [htok] at hr

theorem get_next_token_end (strtod : List Char → α × Nat) (cs : List Char)
    (h : (get_next_token strtod cs).1 = TOKEN_END) :
    get_next_token strtod (get_next_token strtod cs).2 = get_next_token strtod cs := by
  unfold get_next_token at h ⊢
  split at h
  · rename_i hs
    simp only [hs]
    rfl
  · rename_i c cs1 hs
    simp only [hs]
    by_cases h0 : c = Char.ofNat 0
    · rw [if_pos h0]
      have hb : skip_whitespace (c :: cs1) = c :: cs1 :=
        skip_whitespace_of_not_blank c cs1 (by rw [h0]; decide) (by rw [h0]; decide)
      simp only [hb, if_pos h0]
    · rw [if_neg h0] at h
      exfalso
      by_cases h1 : isdigit c = true ∨ c = '.'
      · rw [if_pos h1] at h
        exact Token.noConfusion h
      · rw [if_neg h1] at h
        by_cases h2 : isalpha c = true
        · rw [if_pos h2] at h
          simp only [] at h
          split_ifs at h
        · rw [if_neg h2] at h
          split_ifs at h

theorem advance_end (strtod : List Char → α × Nat) (st : ParserState α)
    (h : (advance strtod st).current_token = TOKEN_END) (m : Nat) :
    Nat.iterate (advance strtod) m (advance strtod st) = advance strtod st := by
  have h1 : advance strtod (advance strtod st) = advance strtod st := by
    have := get_next_token_end strtod st.input h
    simp only [advance] at this ⊢
    rw [this]
  induction m with
  | zero => rfl
  | succ m ih => rw [Function.iterate_succ_apply, h1, ih]

theorem consumes_lexed {strtod : List Char → α × Nat} {a b : ParserState α}
    (h : Consumes strtod a b) : b = a ∨ ∃ st, b = advance strtod st := by
  induction h with
  | refl _ => exact Or.inl rfl
  | step _ _ ih =>
      rcases ih with ih | ih
      · exact Or.inr ⟨_, ih⟩
      · exact Or.inr ih

theorem consumes_no_error {strtod : List Char → α × Nat} {a b : ParserState α}
    (h : Consumes strtod a b)
    (hb : ∀ m, (Nat.iterate (advance strtod) m b).current_token ≠ TOKEN_ERROR) (n : Nat) :
    (Nat.iterate (advance strtod) n a).current_token ≠ TOKEN_ERROR := by
  induction h generalizing n with
  | refl _ => exact hb n
  | step h0 _ ih =>
      cases n with
      | zero => exact h0
      | succ n =>
          rw [Function.iterate_succ_apply]
          exact ih hb n

theorem token_at_of_parse (strtod : List Char → α × Nat) (line : List Char) (t : Node α)
    (h : parse strtod line = .ok t) (n : Nat) : token_at strtod line n ≠ TOKEN_ERROR := by
  unfold parse at h
  cases hp : parse_expression strtod (advance strtod ⟨line, TOKEN_END⟩) with
  | error e => simp [hp] at h
  | ok p =>
      obtain ⟨tree, st⟩ := p
      simp only [hp] at h
      by_cases he : st.current_token ≠ TOKEN_END
      · rw [if_pos he] at h
        cases h
      · have hend : st.current_token = TOKEN_END := not_not.1 he
        have hc : Consumes strtod (advance strtod ⟨line, TOKEN_END⟩) st :=
          (parse_consumes_aux strtod _ _).1 le_rfl tree st hp
        have hst : ∃ st0, st = advance strtod st0 := by
          rcases consumes_lexed hc with h1 | h1
          · exact ⟨_, h1⟩
          · exact h1
        obtain ⟨st0, rfl⟩ := hst
        have hb : ∀ m, (Nat.iterate (advance strtod) m (advance strtod st0)).current_token
            ≠ TOKEN_ERROR := by
          intro m
          rw [advance_end strtod st0 hend m, hend]
          exact Token.noConfusion
        have := consumes_no_error hc hb n
        rw [token_at, Function.iterate_succ_apply]
        exact this

/-- C22: when one of the tokens that `get_next_token` returns on the line, call after call,
is an error token, the line is rejected: `parse` ends with a diagnostic, no tree is accepted,
and `main` prints no derivative. -/
theorem parse_rejects_error_token (strtod : List Char → α × Nat) (pow : α → α → α)
    (fmt : α → List Char) (line : List Char) (n : Nat)
    (h : token_at strtod line n = TOKEN_ERROR) :
    ∃ e, parse strtod line = .error e ∧ main_output strtod pow fmt line = .error e := by
  cases hp : parse strtod line with
  | ok t => exact absurd h (token_at_of_parse strtod line t hp n)
  | error e => exact ⟨e, rfl, by simp [main_output, hp]⟩

/-- C22 on the line `x+yz`: its third token is the error token of the identifier `yz`, and
the line is rejected. -/
theorem parse_rejects_error_token_witness :
    token_at strtod_rat ['x', '+', 'y', 'z'] 2 = TOKEN_ERROR ∧
    ∃ e, parse strtod_rat ['x', '+', 'y', 'z'] = .error e ∧
      main_output strtod_rat pow_rat print_number ['x', '+', 'y', 'z'] = .error e :=
  have h : token_at strtod_rat ['x', '+', 'y', 'z'] 2 = TOKEN_ERROR := rfl
  ⟨h, parse_rejects_error_token strtod_rat pow_rat print_number _ 2 h⟩

end Derivative
